import Mathlib

/-! SPAN session-state synchronisation (agent-ovs/lib/SpanManager.cpp)

A shallow embedding of `SpanManager`: the policy store is a record of the
objects it currently holds, the manager is a record of its member variables,
and every member function is a state transformer that returns `none` when the
C++ code would read an absent `optional` (or when address parsing throws).
-/

namespace opflexagent

/-! ## Identities and the policy store -/

/-- The string form of an `opflex::modb::URI`; `URI(str)` and `toString()` are the identity. -/
abbrev URI := String

/-- The result of `boost::asio::ip::address::from_string`. -/
abbrev address := String

/-- Modelled from the spec: the generated class identifiers (`Universe::CLASS_ID`,
`Session::CLASS_ID`, `LocalEp::CLASS_ID`, `L2Ep::CLASS_ID`, `EpGroup::CLASS_ID`) are
declared in generated model headers; they are pairwise distinct constants, and
`other n` stands for every remaining class. -/
inductive class_id_t where
  | Universe
  | Session
  | LocalEp
  | L2Ep
  | EpGroup
  | other (n : Nat)
deriving DecidableEq, Repr

/-- The relation object `span::MemberToRefRSrc`: optional target class and target URI. -/
structure MemberToRefRSrc where
  targetClass : Option class_id_t
  targetURI : Option URI
deriving DecidableEq, Repr

/-- The object `span::SrcMember`: optional direction and optional reference child. -/
structure SrcMember where
  dir : Option Nat
  memberToRefRSrc : Option MemberToRefRSrc
deriving DecidableEq, Repr

/-- The object `span::SrcGrp` with the members `resolveSpanSrcMember` returns, in order. -/
structure SrcGrp where
  srcMembers : List SrcMember
deriving DecidableEq, Repr

/-- The object `span::DstSummary`. -/
structure DstSummary where
  dest : Option String
  version : Option Nat
deriving DecidableEq, Repr

/-- The object `span::DstMember` with its optional summary child. -/
structure DstMember where
  dstSummary : Option DstSummary
deriving DecidableEq, Repr

/-- The object `span::DstGrp` with the members `resolveSpanDstMember` returns. -/
structure DstGrp where
  dstMembers : List DstMember
deriving DecidableEq, Repr

/-- The object `span::Session` together with its source and destination groups. -/
structure Session where
  uri : URI
  name : Option String
  state : Option Nat
  srcGrps : List SrcGrp
  dstGrps : List DstGrp
deriving DecidableEq, Repr

/-- The relation object `span::LocalEpToEpRSrc`. -/
structure LocalEpToEpRSrc where
  targetURI : Option URI
deriving DecidableEq, Repr

/-- The object `span::LocalEp` with its optional forwarding-target reference. -/
structure LocalEp where
  uri : URI
  name : Option String
  localEpToEpRSrc : Option LocalEpToEpRSrc
deriving DecidableEq, Repr

/-- The object `epr::L2Ep`; `group` is the string from which the group URI is built. -/
structure L2Ep where
  uri : URI
  group : Option String
  interfaceName : Option String
deriving DecidableEq, Repr

/-- The relation object `gbp::EpGroupToSpanSessionRSrc`. -/
structure EpGroupToSpanSessionRSrc where
  targetURI : Option URI
deriving DecidableEq, Repr

/-- The object `gbp::EpGroup` with the session references it resolves, in order. -/
structure EpGroup where
  uri : URI
  spanSessionRSrc : List EpGroupToSpanSessionRSrc
deriving DecidableEq, Repr

/-- The policy store as seen through `OFFramework`: which objects resolve now.
`spanUniverse` and `l2Universe` say whether the two containers resolve; the
children of a container are the objects of its child class in the store. -/
structure OFFramework where
  spanUniverse : Bool
  sessions : List Session
  localEps : List LocalEp
  l2Universe : Bool
  l2Eps : List L2Ep
  epGroups : List EpGroup
deriving DecidableEq, Repr

/-- `Universe::resolve` followed by `resolveSpanSession`. -/
def Universe.resolve (framework : OFFramework) : Option (List Session) :=
  if framework.spanUniverse then some framework.sessions else none

/-- `Session::resolve(framework, uri)`. -/
def Session.resolve (framework : OFFramework) (uri : URI) : Option Session :=
  framework.sessions.find? (fun s => decide (s.uri = uri))

/-- `LocalEp::resolve(framework, uri)`. -/
def LocalEp.resolve (framework : OFFramework) (uri : URI) : Option LocalEp :=
  framework.localEps.find? (fun l => decide (l.uri = uri))

/-- `L2Ep::resolve(framework, uri)`. -/
def L2Ep.resolve (framework : OFFramework) (uri : URI) : Option L2Ep :=
  framework.l2Eps.find? (fun e => decide (e.uri = uri))

/-- `L2Universe::resolve` followed by `resolveEprL2Ep`. -/
def L2Universe.resolve (framework : OFFramework) : Option (List L2Ep) :=
  if framework.l2Universe then some framework.l2Eps else none

/-- `EpGroup::resolve(framework, uri)`. -/
def EpGroup.resolve (framework : OFFramework) (uri : URI) : Option EpGroup :=
  framework.epGroups.find? (fun g => decide (g.uri = uri))

/-! ## Derived session state -/

/-- Modelled from the spec: `SourceEndpoint` is declared in a header that is not part
of the sources; it is the value `(name, interface-name, direction)` with equality
over all three fields. -/
structure SourceEndpoint where
  name : String
  port : String
  dir : Nat
deriving DecidableEq, Repr

/-- Modelled from the spec: `SessionState` is declared in a header that is not part of
the sources; it holds the identity, the name, the admin state, the destination
(absent until one is set), the protocol version and the source-endpoint set. The
set `srcEndpoints` is a list without repetition maintained by `addSrcEndpoint`. -/
structure SessionState where
  uri : URI
  name : String
  adminState : Nat
  destination : Option address
  version : Option Nat
  srcEndpoints : List SourceEndpoint
deriving DecidableEq, Repr

/-- The constructor `SessionState(uri, name)`: no destination and no source endpoint
yet; `processSession` sets the admin state right after the construction. -/
def SessionState.new (uri : URI) (name : String) : SessionState :=
  { uri := uri, name := name, adminState := 1, destination := none, version := none,
    srcEndpoints := [] }

/-- `SessionState::addSrcEndpoint`: `srcEndpoints.emplace(srcEp)` on a set. -/
def SessionState.addSrcEndpoint (s : SessionState) (srcEp : SourceEndpoint) : SessionState :=
  { s with srcEndpoints := if srcEp ∈ s.srcEndpoints then s.srcEndpoints
                           else s.srcEndpoints ++ [srcEp] }

/-- `SessionState::setAdminState`. -/
def SessionState.setAdminState (s : SessionState) (a : Nat) : SessionState :=
  { s with adminState := a }

/-- `SessionState::setDestination`. -/
def SessionState.setDestination (s : SessionState) (ip : address) : SessionState :=
  { s with destination := some ip }

/-- `SessionState::setVersion`. -/
def SessionState.setVersion (s : SessionState) (v : Nat) : SessionState :=
  { s with version := some v }

/-! ## Hash maps and sets

An `unordered_map` is a list of key-value pairs and an `unordered_set` a list of
elements. The order in which C++ iterates such a container is not specified; here it
is the order of insertion. Lookup, assignment and erasure go by the key alone, so
they do not depend on that order; only a loop over the container does. -/

/-- `unordered_map::find`. -/
def umap_find {β : Type} (k : URI) : List (URI × β) → Option β
  | [] => none
  | (a, v) :: rest => if a = k then some v else umap_find k rest

/-- `m[k] = v`: overwrite the value under `k`, or add the pair when `k` is new. -/
def umap_assign {β : Type} (k : URI) (v : β) : List (URI × β) → List (URI × β)
  | [] => [(k, v)]
  | (a, w) :: rest => if a = k then (a, v) :: rest else (a, w) :: umap_assign k v rest

/-- `unordered_map::emplace`: add the pair only when `k` is not a key yet. -/
def umap_emplace {β : Type} (k : URI) (v : β) (m : List (URI × β)) : List (URI × β) :=
  match umap_find k m with
  | some _ => m
  | none => m ++ [(k, v)]

/-- `unordered_map::erase` of the entry under `k` (keys are unique in a hash map). -/
def umap_erase {β : Type} (k : URI) (m : List (URI × β)) : List (URI × β) :=
  m.filter (fun p => !decide (p.1 = k))

/-- `unordered_set::insert`. -/
def uset_insert {α : Type} [DecidableEq α] (x : α) (s : List α) : List α :=
  if x ∈ s then s else s ++ [x]

/-! ## The manager -/

/-- A task handed to `taskQueue.dispatch`: which `notifyListeners` overload it runs. -/
inductive Task where
  | spanUpdated (uri : URI)
  | spanDeleted (seSt : SessionState)
deriving DecidableEq, Repr

/-- The member variables of `SpanManager`; `dispatched` records the calls of
`taskQueue.dispatch(key, task)` in the order they were made. -/
structure SpanManager where
  sess_map : List (URI × SessionState)
  l2EpUri : List (URI × LocalEp)
  notifyUpdate : List URI
  notifyDelete : List SessionState
  dispatched : List (String × Task)
deriving DecidableEq, Repr

/-- The manager right after construction. -/
def SpanManager.init : SpanManager :=
  { sess_map := [], l2EpUri := [], notifyUpdate := [], notifyDelete := [], dispatched := [] }

/-- `SpanManager::getSessionState`. -/
def getSessionState (m : SpanManager) (uri : URI) : Option SessionState :=
  umap_find uri m.sess_map

/-- Modelled from the spec: `URI::getElements` belongs to the store library; an
identity is a hierarchical path, whose elements are the non-empty segments between
the `/` separators. `cur` holds the current segment, reversed. -/
def getElementsAux : List Char → List Char → List String
  | [], cur => if cur = [] then [] else [String.mk cur.reverse]
  | c :: cs, cur =>
    if c = '/' then
      (if cur = [] then getElementsAux cs [] else String.mk cur.reverse :: getElementsAux cs [])
    else getElementsAux cs (c :: cur)

/-- Modelled from the spec: `URI::getElements`, see `getElementsAux`. -/
def URI.getElements (uri : URI) : List String :=
  getElementsAux uri.data []

/-- The loops of `getSession` over the reversed elements: skip back to the
marker, then prepend `"/" + element` for each element before it and append `"/"`. -/
def getSessionStr : List String → String
  | [] => ""
  | e :: rest =>
    if e = "SpanLocalEp" then
      (rest.foldl (fun uriStr x => ("/" ++ x) ++ uriStr) "") ++ "/"
    else getSessionStr rest

/-- `SpanManager::getSession`. -/
def getSession (lEp : LocalEp) : Option URI :=
  let uriStr := getSessionStr (URI.getElements lEp.uri).reverse
  if uriStr = "" then none else some uriStr

/-- The inner loop of `findSrcMem`: the first member whose reference targets `uri`. -/
def findSrcMemInGrp (uri : URI) (srcMemVec : List SrcMember) : Option SrcMember :=
  srcMemVec.find? (fun srcMem =>
    match srcMem.memberToRefRSrc with
    | some memRef => decide (memRef.targetURI = some uri)
    | none => false)

/-- `SpanManager::findSrcMem`: the `break` leaves the inner loop only, so a later
group with a match overwrites the result of an earlier one. -/
def findSrcMem (framework : OFFramework) (sessUri uri : URI) : Option SrcMember :=
  match Session.resolve framework sessUri with
  | none => none
  | some sess =>
    sess.srcGrps.foldl (fun pSrcMem srcGrp =>
      match findSrcMemInGrp uri srcGrp.srcMembers with
      | some srcMem => some srcMem
      | none => pSrcMem) none

/-- The `notifyUpdate.insert` of the manager. -/
def SpanManager.markUpdate (m : SpanManager) (uri : URI) : SpanManager :=
  { m with notifyUpdate := uset_insert uri m.notifyUpdate }

/-- `SpanManager::addEndpoint`. -/
def addEndpoint (framework : OFFramework) (lEp : LocalEp) (l2Ep : L2Ep) (dir : Nat)
    (m : SpanManager) : Option SpanManager :=
  match getSession lEp with
  | none => some m
  | some parent =>
    let m := m.markUpdate parent
    match Session.resolve framework parent with
    | none => some m
    | some sess =>
      match umap_find sess.uri m.sess_map with
      | none => some m
      | some sesSt => do
        let name ← lEp.name
        let port ← l2Ep.interfaceName
        let srcEp : SourceEndpoint := { name := name, port := port, dir := dir }
        let m := { m with sess_map := umap_assign sess.uri (sesSt.addSrcEndpoint srcEp) m.sess_map }
        pure (m.markUpdate sess.uri)

/-- `SpanManager::processLocalEp`. -/
def processLocalEp (framework : OFFramework) (uri : URI) (dir : Nat)
    (m : SpanManager) : Option SpanManager :=
  match LocalEp.resolve framework uri with
  | none => some m
  | some lEp =>
    match lEp.localEpToEpRSrc with
    | none => some m
    | some epRSrc =>
      match epRSrc.targetURI with
      | none => some m
      | some epUri =>
        match L2Ep.resolve framework epUri with
        | some l2Ep => addEndpoint framework lEp l2Ep dir m
        | none => some { m with l2EpUri := umap_emplace epUri lEp m.l2EpUri }

/-- The first loop of `processEpGroup`: the endpoints whose group is `uri`;
reading the group of an endpoint that has none is a fault. -/
def collectL2Eps (uri : URI) : List L2Ep → Option (List L2Ep)
  | [] => some []
  | ep :: rest => do
    let egUri ← ep.group
    let l2EpVec ← collectL2Eps uri rest
    pure (if uri = egUri then ep :: l2EpVec else l2EpVec)

/-- The innermost loop of `processEpGroup`: add every endpoint of the group to one state. -/
def addGroupEps (dir : Nat) (l2EpVec : List L2Ep) (seSt : SessionState) : Option SessionState :=
  l2EpVec.foldlM (fun st ep => do
    let port ← ep.interfaceName
    pure (st.addSrcEndpoint { name := ep.uri, port := port, dir := dir })) seSt

/-- One iteration of the loop of `processEpGroup` over the group's session references. -/
def processEpGroupRef (dir : Nat) (l2EpVec : List L2Ep) (m : SpanManager)
    (sesRsrc : EpGroupToSpanSessionRSrc) : Option SpanManager := do
  let target ← sesRsrc.targetURI
  match umap_find target m.sess_map with
  | none => pure m
  | some seSt =>
    let seSt ← addGroupEps dir l2EpVec seSt
    let m := { m with sess_map := umap_assign target seSt m.sess_map }
    pure (m.markUpdate target)

/-- `SpanManager::processEpGroup`. -/
def processEpGroup (framework : OFFramework) (uri : URI) (dir : Nat)
    (m : SpanManager) : Option SpanManager := do
  let out ← L2Universe.resolve framework
  let l2EpVec ← collectL2Eps uri out
  match EpGroup.resolve framework uri with
  | none => pure m
  | some lEpGrp =>
    if l2EpVec = [] then pure m
    else lEpGrp.spanSessionRSrc.foldlM (processEpGroupRef dir l2EpVec) m

/-- The body of the loop of `processSrcGrp` for one source member. -/
def processSrcMember (framework : OFFramework) (m : SpanManager)
    (srcMem : SrcMember) : Option SpanManager :=
  match srcMem.memberToRefRSrc with
  | none => some m
  | some memRef =>
    match memRef.targetClass with
    | none => some m
    | some class_id =>
      if class_id = class_id_t.EpGroup then
        match memRef.targetURI with
        | none => some m
        | some pUri =>
          match srcMem.dir with
          | none => some m
          | some dir => processEpGroup framework pUri dir m
      else if class_id = class_id_t.LocalEp then
        match memRef.targetURI with
        | none => some m
        | some pUri =>
          match srcMem.dir with
          | none => some m
          | some dir => processLocalEp framework pUri dir m
      else some m

/-- `SpanManager::processSrcGrp`. -/
def processSrcGrp (framework : OFFramework) (m : SpanManager)
    (srcGrp : SrcGrp) : Option SpanManager :=
  srcGrp.srcMembers.foldlM (processSrcMember framework) m

/-- The body of the loop of `processDstGrp` for one destination member, on the
state found under the session identity; `from_string` throws on a malformed string. -/
def processDstMember (from_string : String → Option address) (seSt : SessionState)
    (dstMem : DstMember) : Option SessionState :=
  match dstMem.dstSummary with
  | none => some seSt
  | some dstSumm =>
    match dstSumm.dest with
    | none => some seSt
    | some dest => do
      let ip ← from_string dest
      let seSt := seSt.setDestination ip
      match dstSumm.version with
      | none => pure seSt
      | some v => pure (seSt.setVersion v)

/-- `SpanManager::processDstGrp`. -/
def processDstGrp (from_string : String → Option address) (sessUri : URI) (m : SpanManager)
    (dstGrp : DstGrp) : Option SpanManager :=
  match umap_find sessUri m.sess_map with
  | none => some m
  | some seSt => do
    let seSt ← dstGrp.dstMembers.foldlM (processDstMember from_string) seSt
    pure { m with sess_map := umap_assign sessUri seSt m.sess_map }

/-- The state that `processSession` builds for a session whose name is `name`:
`make_shared<SessionState>(uri, name)` followed by `setAdminState(sess->getState(1))`. -/
def sessionStateOf (sess : Session) (name : String) : SessionState :=
  (SessionState.new sess.uri name).setAdminState (sess.state.getD 1)

/-- `SpanManager::processSession`; the fresh state is stored in the map and then
updated through the same pointer, so the admin state is set on the stored state. -/
def processSession (from_string : String → Option address) (framework : OFFramework)
    (sess : Session) (m : SpanManager) : Option SpanManager := do
  let name ← sess.name
  let sessState := sessionStateOf sess name
  let m := { m with sess_map := umap_assign sess.uri sessState m.sess_map }
  let m ← sess.srcGrps.foldlM (processSrcGrp framework) m
  sess.dstGrps.foldlM (processDstGrp from_string sess.uri) m

/-- The scan of `getEpgIfPartOfSession` inside one session: the target of the first
member whose reference has class `EpGroup` and a target URI. -/
def firstEpgTarget (srcGrpVec : List SrcGrp) : Option URI :=
  (srcGrpVec.flatMap (fun g => g.srcMembers)).findSome? (fun srcMem =>
    match srcMem.memberToRefRSrc with
    | none => none
    | some memRef =>
      match memRef.targetClass with
      | none => none
      | some class_id =>
        if class_id = class_id_t.EpGroup then memRef.targetURI else none)

/-- `SpanManager::getEpgIfPartOfSession`: the argument `epgUri` is never read. -/
def getEpgIfPartOfSession (framework : OFFramework) (_epgUri : URI)
    (sess_map : List (URI × SessionState)) : Option EpGroup :=
  match sess_map.findSome? (fun sess =>
      match Session.resolve framework sess.1 with
      | none => none
      | some session => firstEpgTarget session.srcGrps) with
  | none => none
  | some target => EpGroup.resolve framework target

/-- One iteration of the loop of `processL2Ep` over the session references of the group. -/
def processL2EpRef (framework : OFFramework) (l2Ep : L2Ep) (egUri : URI) (m : SpanManager)
    (sesRsrc : EpGroupToSpanSessionRSrc) : Option SpanManager := do
  let target ← sesRsrc.targetURI
  match umap_find target m.sess_map with
  | none => pure m
  | some seSt =>
    match findSrcMem framework target egUri with
    | none => pure m
    | some srcMem =>
      match srcMem.dir with
      | none => pure m
      | some dir => do
        let port ← l2Ep.interfaceName
        let srcEp : SourceEndpoint := { name := l2Ep.uri, port := port, dir := dir }
        let m := { m with sess_map := umap_assign target (seSt.addSrcEndpoint srcEp) m.sess_map }
        pure (m.markUpdate target)

/-- `SpanManager::processL2Ep`. -/
def processL2Ep (framework : OFFramework) (l2Ep : L2Ep) (m : SpanManager) : Option SpanManager :=
  match umap_find l2Ep.uri m.l2EpUri with
  | some lEp =>
    match getSession lEp with
    | none => some m
    | some sessUri =>
      match umap_find sessUri m.sess_map with
      | none => some m
      | some _ =>
        match findSrcMem framework sessUri lEp.uri with
        | none => some m
        | some pSmem =>
          match pSmem.dir with
          | none => some m
          | some dir => do
            let m ← addEndpoint framework lEp l2Ep dir m
            pure { m with l2EpUri := umap_erase l2Ep.uri m.l2EpUri }
  | none =>
    match l2Ep.group with
    | none => some m
    | some egUri =>
      match getEpgIfPartOfSession framework egUri m.sess_map with
      | none => some m
      | some epg => epg.spanSessionRSrc.foldlM (processL2EpRef framework l2Ep egUri) m

/-- The `Universe` branch of `objectUpdated`, one session of the container. -/
def processUniverseSession (from_string : String → Option address) (framework : OFFramework)
    (m : SpanManager) (sess : Session) : Option SpanManager := do
  let m ← (match umap_find sess.uri m.sess_map with
    | none => processSession from_string framework sess m
    | some _ => some m)
  pure (m.markUpdate sess.uri)

/-- The branches of `objectUpdated` on the class of the changed object. -/
def processEvent (from_string : String → Option address) (framework : OFFramework)
    (classId : class_id_t) (uri : URI) (m : SpanManager) : Option SpanManager :=
  if classId = class_id_t.Universe then
    match Universe.resolve framework with
    | none => some m
    | some sessVec => sessVec.foldlM (processUniverseSession from_string framework) m
  else if classId = class_id_t.LocalEp then
    match LocalEp.resolve framework uri with
    | none => some m
    | some lEp =>
      match getSession lEp with
      | none => some m
      | some sesUri =>
        match findSrcMem framework sesUri lEp.uri with
        | none => some m
        | some pSmem =>
          match pSmem.dir with
          | none => some m
          | some dir => processLocalEp framework uri dir m
  else if classId = class_id_t.L2Ep then
    match L2Ep.resolve framework uri with
    | none => some m
    | some l2Ep => processL2Ep framework l2Ep m
  else if classId = class_id_t.Session then
    match Session.resolve framework uri with
    | some sess => do
      let m ← processSession from_string framework sess m
      pure (m.markUpdate uri)
    | none =>
      match umap_find uri m.sess_map with
      | none => some m
      | some state =>
        some { m with notifyDelete := uset_insert state m.notifyDelete,
                      sess_map := umap_erase uri m.sess_map }
  else some m

/-- The key of the task that `objectUpdated` dispatches for an updated identity. -/
def updateKey (updateUri : URI) : String := updateUri

/-- The key of the task that `objectUpdated` dispatches for a deleted session. -/
def deleteKey (session : SessionState) : String := session.name

/-- The tail of `objectUpdated`: dispatch one task per member of `notifyUpdate`, clear it,
then one task per member of `notifyDelete`, and clear it. -/
def dispatchNotifications (m : SpanManager) : SpanManager :=
  { m with
    dispatched := m.dispatched
      ++ m.notifyUpdate.map (fun updateUri => (updateKey updateUri, Task.spanUpdated updateUri))
      ++ m.notifyDelete.map (fun session => (deleteKey session, Task.spanDeleted session)),
    notifyUpdate := [],
    notifyDelete := [] }

/-- `SpanManager::SpanUniverseListener::objectUpdated`. -/
def objectUpdated (from_string : String → Option address) (framework : OFFramework)
    (classId : class_id_t) (uri : URI) (m : SpanManager) : Option SpanManager :=
  (processEvent from_string framework classId uri m).map dispatchNotifications

/-- The state `b` is the state `a` with possibly more source endpoints and a possibly
different destination: identity, name and admin state are the same. -/
def StLe (a b : SessionState) : Prop :=
  b.uri = a.uri ∧ b.name = a.name ∧ b.adminState = a.adminState ∧
    a.srcEndpoints ⊆ b.srcEndpoints

/-- The map `b` has the keys of `a`, in the same order, and under every key a state
that extends the one of `a`. -/
def Grow (a b : List (URI × SessionState)) : Prop :=
  a.map Prod.fst = b.map Prod.fst ∧
    ∀ k st, umap_find k a = some st → ∃ st', umap_find k b = some st' ∧ StLe st st'

/-- The session `k` is tracked and its source-endpoint set contains `e`. -/
def HasSrc (sess_map : List (URI × SessionState)) (k : URI) (e : SourceEndpoint) : Prop :=
  ∃ st, umap_find k sess_map = some st ∧ e ∈ st.srcEndpoints

/-- The session `k` is in the session map. -/
def Tracked (sess_map : List (URI × SessionState)) (k : URI) : Prop :=
  ∃ st, umap_find k sess_map = some st

/-! ## Scenario 1 -/

/-- The identity of session "sess1". -/
def sess1Uri : URI := "/SpanUniverse/SpanSession/sess1/"

/-- The identity of group "epg1". -/
def epg1Uri : URI := "/PolicyUniverse/PolicySpace/test/GbpEpGroup/epg1/"

/-- The forwarding endpoint "ep-a" on interface "eth0", a member of "epg1". -/
def epA : L2Ep :=
  { uri := "/EprL2Universe/EprL2Ep/ep-a/", group := some epg1Uri, interfaceName := some "eth0" }

/-- The source member of "sess1": a reference to group "epg1" with direction IN (1). -/
def sess1Member : SrcMember :=
  { dir := some 1,
    memberToRefRSrc := some { targetClass := some class_id_t.EpGroup, targetURI := some epg1Uri } }

/-- Session "sess1": source group referring to "epg1", destination 10.0.0.5 version 1. -/
def sess1 : Session :=
  { uri := sess1Uri, name := some "sess1", state := none,
    srcGrps := [{ srcMembers := [sess1Member] }],
    dstGrps := [{ dstMembers := [{ dstSummary := some { dest := some "10.0.0.5",
                                                         version := some 1 } }] }] }

/-- The store of Scenario 1, with the reference from "epg1" back to "sess1". -/
def scenario1Store : OFFramework :=
  { spanUniverse := true, sessions := [sess1], localEps := [], l2Universe := true,
    l2Eps := [epA],
    epGroups := [{ uri := epg1Uri, spanSessionRSrc := [{ targetURI := some sess1Uri }] }] }

/-- The store of Scenario 1 when "epg1" carries no reference back to a session. -/
def scenario1StoreNoBackRef : OFFramework :=
  { scenario1Store with epGroups := [{ uri := epg1Uri, spanSessionRSrc := [] }] }

/-- The manager after the `Session` event for "sess1" in Scenario 1. -/
def scenario1Result : SpanManager :=
  { sess_map := [(sess1Uri,
      { uri := sess1Uri, name := "sess1", adminState := 1, destination := some "10.0.0.5",
        version := some 1,
        srcEndpoints := [{ name := "/EprL2Universe/EprL2Ep/ep-a/", port := "eth0", dir := 1 }] })],
    l2EpUri := [], notifyUpdate := [], notifyDelete := [],
    dispatched := [(sess1Uri, Task.spanUpdated sess1Uri)] }

/-! ## Scenario 2 -/

/-- The identity of local endpoint "lep1", a child of session "sess1". -/
def lep1Uri : URI := "/SpanUniverse/SpanSession/sess1/SpanLocalEp/lep1/"

/-- The identity of forwarding endpoint "fep1". -/
def fep1Uri : URI := "/EprL2Universe/EprL2Ep/fep1/"

/-- Local endpoint "lep1", whose forwarding target is "fep1". -/
def lep1 : LocalEp :=
  { uri := lep1Uri, name := some "lep1", localEpToEpRSrc := some { targetURI := some fep1Uri } }

/-- Forwarding endpoint "fep1" on interface "eth1", in no group. -/
def fep1 : L2Ep :=
  { uri := fep1Uri, group := none, interfaceName := some "eth1" }

/-- A source member referring to local endpoint "lep1" with direction `d`. -/
def lep1Member (d : Nat) : SrcMember :=
  { dir := some d,
    memberToRefRSrc := some { targetClass := some class_id_t.LocalEp, targetURI := some lep1Uri } }

/-- Session "sess1" with the source members `mems` in one source group, no destination. -/
def sess1With (mems : List SrcMember) : Session :=
  { uri := sess1Uri, name := some "sess1", state := none,
    srcGrps := [{ srcMembers := mems }], dstGrps := [] }

/-- The store of Scenario 2 before "fep1" exists: "sess1" refers to "lep1" (direction IN). -/
def scenario2Store : OFFramework :=
  { spanUniverse := true, sessions := [sess1With [lep1Member 1]], localEps := [lep1],
    l2Universe := true, l2Eps := [], epGroups := [] }

/-- The manager of Scenario 2 after the `Session` event for "sess1": the session is
tracked without sources and "fep1" waits in the deferred index. -/
def scenario2Deferred : SpanManager :=
  { sess_map := [(sess1Uri,
      { uri := sess1Uri, name := "sess1", adminState := 1, destination := none,
        version := none, srcEndpoints := [] })],
    l2EpUri := [(fep1Uri, lep1)], notifyUpdate := [], notifyDelete := [],
    dispatched := [(sess1Uri, Task.spanUpdated sess1Uri)] }

/-- The store of Scenario 2 once "fep1" exists, "sess1" having the source members `mems`. -/
def scenario2StoreWith (mems : List SrcMember) : OFFramework :=
  { spanUniverse := true, sessions := [sess1With mems], localEps := [lep1],
    l2Universe := true, l2Eps := [fep1], epGroups := [] }

/-- The step from `a` to `b` dispatched nothing and marked no session as deleted. -/
def Frame (a b : SpanManager) : Prop :=
  b.dispatched = a.dispatched ∧ b.notifyDelete = a.notifyDelete

/-- The state tracked for "sess1" after the `Session` event of Scenario 1. -/
def sess1State : SessionState :=
  { uri := sess1Uri, name := "sess1", adminState := 1, destination := some "10.0.0.5",
    version := some 1,
    srcEndpoints := [{ name := "/EprL2Universe/EprL2Ep/ep-a/", port := "eth0", dir := 1 }] }

/-- The store of Scenario 1 after session "sess1" has been removed from it. -/
def scenario1StoreDeleted : OFFramework :=
  { scenario1Store with sessions := [] }

/-- The manager after the event for "fep1" in Scenario 2, started with "sess1" already
holding the endpoint of Scenario 1: the deferred entry is replayed and removed. -/
def scenario2Replayed : SpanManager :=
  { sess_map := [(sess1Uri,
      { uri := sess1Uri, name := "sess1", adminState := 1, destination := some "10.0.0.5",
        version := some 1,
        srcEndpoints := [{ name := "/EprL2Universe/EprL2Ep/ep-a/", port := "eth0", dir := 1 },
                         { name := "lep1", port := "eth1", dir := 1 }] })],
    l2EpUri := [], notifyUpdate := [], notifyDelete := [],
    dispatched := [(sess1Uri, Task.spanUpdated sess1Uri), (sess1Uri, Task.spanUpdated sess1Uri)] }

/-! ## Running an event a second time -/

/-- The second run `b` follows the first run `a`: the keys are the same in the same
order; on the keys in `F` both hold the same state; on the other keys the second run
holds the state of the reference map `y`. -/
def Sim (F : URI → Prop) (y a b : List (URI × SessionState)) : Prop :=
  a.map Prod.fst = b.map Prod.fst ∧
    (∀ k, F k → umap_find k a = umap_find k b) ∧
    (∀ k, ¬ F k → umap_find k b = umap_find k y)

/-- Outside `F`, every source endpoint of `a` is a source endpoint of `y`. -/
def Below (F : URI → Prop) (a y : List (URI × SessionState)) : Prop :=
  ∀ k, ¬ F k → ∀ st, umap_find k a = some st →
    ∃ st', umap_find k y = some st' ∧ st.srcEndpoints ⊆ st'.srcEndpoints

/-- The second run of `f` succeeds whenever the first does and keeps following it. -/
def Lockstep (F : URI → Prop) (y : List (URI × SessionState))
    (f : SpanManager → Option SpanManager) : Prop :=
  ∀ a a' b, f a = some a' → Below F a'.sess_map y → Sim F y a.sess_map b.sess_map →
    ∃ b', f b = some b' ∧ Sim F y a'.sess_map b'.sess_map

/-- Forwarding endpoint "fep1" as a member of group "epg1". -/
def fep1InEpg1 : L2Ep :=
  { uri := fep1Uri, group := some epg1Uri, interfaceName := some "eth1" }

/-- A store in which "sess1" refers both to local endpoint "lep1" (whose target is
"fep1") and to group "epg1"; `eps` are the forwarding endpoints that exist. -/
def storeLep1AndEpg1 (eps : List L2Ep) : OFFramework :=
  { spanUniverse := true, sessions := [sess1With [lep1Member 1, sess1Member]],
    localEps := [lep1], l2Universe := true, l2Eps := eps,
    epGroups := [{ uri := epg1Uri, spanSessionRSrc := [{ targetURI := some sess1Uri }] }] }

/-- The manager after the `ForwardingEndpoint` event for "ep-a" in Scenario 1, processed
once "sess1" is tracked: the endpoint is found through its group and added again. -/
def scenario1AfterEndpoint : SpanManager :=
  { scenario1Result with
    dispatched := [(sess1Uri, Task.spanUpdated sess1Uri), (sess1Uri, Task.spanUpdated sess1Uri)] }

/-! ## Two sessions, two groups -/

/-- The identity of session "sess0". -/
def sess0Uri : URI := "/SpanUniverse/SpanSession/sess0/"

/-- The identity of group "epg0". -/
def epg0Uri : URI := "/PolicyUniverse/PolicySpace/test/GbpEpGroup/epg0/"

/-- The source member of "sess0": a reference to group "epg0" with direction IN (1). -/
def sess0Member : SrcMember :=
  { dir := some 1,
    memberToRefRSrc := some { targetClass := some class_id_t.EpGroup, targetURI := some epg0Uri } }

/-- Session "sess0", whose only source member refers to group "epg0". -/
def sess0 : Session :=
  { uri := sess0Uri, name := some "sess0", state := none,
    srcGrps := [{ srcMembers := [sess0Member] }], dstGrps := [] }

/-- A store with sessions "sess0" (referring to "epg0") and "sess1", groups "epg0" and
"epg1" each referring back to its session, and endpoint "ep-a" of "epg1". The flag
`membership` says whether "sess1" already has its source member referring to "epg1",
the flag `endpoint` whether "ep-a" already exists. -/
def twoSessionStore (endpoint membership : Bool) : OFFramework :=
  { spanUniverse := true,
    sessions := [sess0, sess1With (if membership then [sess1Member] else [])],
    localEps := [], l2Universe := true,
    l2Eps := if endpoint then [epA] else [],
    epGroups := [{ uri := epg0Uri, spanSessionRSrc := [{ targetURI := some sess0Uri }] },
                 { uri := epg1Uri, spanSessionRSrc := [{ targetURI := some sess1Uri }] }] }

/-- The manager that tracks "sess0" and "sess1", both without sources. -/
def twoSessionManager : SpanManager :=
  { sess_map := [(sess0Uri,
      { uri := sess0Uri, name := "sess0", adminState := 1, destination := none,
        version := none, srcEndpoints := [] }),
     (sess1Uri,
      { uri := sess1Uri, name := "sess1", adminState := 1, destination := none,
        version := none, srcEndpoints := [] })],
    l2EpUri := [], notifyUpdate := [], notifyDelete := [], dispatched := [] }

/-- The source-endpoint set of session `uri` after a run, when the run completed and
the session is tracked. -/
def sourcesOf (run : Option SpanManager) (uri : URI) : Option (List SourceEndpoint) :=
  (run.bind fun m => getSessionState m uri).map fun st => st.srcEndpoints

/-- First the `ForwardingEndpoint` event for "ep-a" (created), then the `Session` event
for "sess1" (membership of "epg1" created). -/
def endpointThenMembership : Option SpanManager :=
  (objectUpdated some (twoSessionStore true false) class_id_t.L2Ep epA.uri
    twoSessionManager).bind
      (objectUpdated some (twoSessionStore true true) class_id_t.Session sess1Uri)

/-- First the `Session` event for "sess1" (membership of "epg1" created), then the
`ForwardingEndpoint` event for "ep-a" (created). -/
def membershipThenEndpoint : Option SpanManager :=
  (objectUpdated some (twoSessionStore false true) class_id_t.Session sess1Uri
    twoSessionManager).bind
      (objectUpdated some (twoSessionStore true true) class_id_t.L2Ep epA.uri)

/-- The forwarding endpoint "ep-b" on interface "eth2", a member of "epg0". -/
def epB : L2Ep :=
  { uri := "/EprL2Universe/EprL2Ep/ep-b/", group := some epg0Uri, interfaceName := some "eth2" }

/-- Session "sess0" with the source members `mems` in one source group. -/
def sess0With (mems : List SrcMember) : Session :=
  { uri := sess0Uri, name := some "sess0", state := none,
    srcGrps := [{ srcMembers := mems }], dstGrps := [] }

/-- The mirror image of `twoSessionStore`: "sess1" comes first and refers to "epg1";
the flags are about the member of "sess0" referring to "epg0" and about endpoint "ep-b"
of "epg0". -/
def twoSessionStoreRev (endpoint membership : Bool) : OFFramework :=
  { spanUniverse := true,
    sessions := [sess1With [sess1Member], sess0With (if membership then [sess0Member] else [])],
    localEps := [], l2Universe := true,
    l2Eps := if endpoint then [epB] else [],
    epGroups := [{ uri := epg0Uri, spanSessionRSrc := [{ targetURI := some sess0Uri }] },
                 { uri := epg1Uri, spanSessionRSrc := [{ targetURI := some sess1Uri }] }] }

/-- The manager that tracks "sess1" and "sess0", in this order, both without sources. -/
def twoSessionManagerRev : SpanManager :=
  { twoSessionManager with sess_map := twoSessionManager.sess_map.reverse }

/-- The mirror image of `endpointThenMembership`, for "ep-b" and "sess0". -/
def endpointThenMembershipRev : Option SpanManager :=
  (objectUpdated some (twoSessionStoreRev true false) class_id_t.L2Ep epB.uri
    twoSessionManagerRev).bind
      (objectUpdated some (twoSessionStoreRev true true) class_id_t.Session sess0Uri)

/-- The mirror image of `membershipThenEndpoint`, for "ep-b" and "sess0". -/
def membershipThenEndpointRev : Option SpanManager :=
  (objectUpdated some (twoSessionStoreRev false true) class_id_t.Session sess0Uri
    twoSessionManagerRev).bind
      (objectUpdated some (twoSessionStoreRev true true) class_id_t.L2Ep epB.uri)

/-! ## Stores with absent values -/

/-- The identity of a group "epgX" that no session refers to. -/
def epgXUri : URI := "/PolicyUniverse/PolicySpace/test/GbpEpGroup/epgX/"

/-- Scenario 1 when the forwarding-endpoint universe does not resolve. -/
def storeNoL2Universe : OFFramework :=
  { scenario1Store with l2Universe := false }

/-- Scenario 1 with one more forwarding endpoint, which has no group. -/
def storeEpWithoutGroup : OFFramework :=
  { scenario1Store with
    l2Eps := [epA, { uri := "/EprL2Universe/EprL2Ep/ep-c/", group := none,
                     interfaceName := some "eth3" }] }

/-- Scenario 1 when "ep-a" has no interface name. -/
def storeEpWithoutInterface : OFFramework :=
  { scenario1Store with l2Eps := [{ epA with interfaceName := none }] }

/-- Scenario 1 when session "sess1" has no name. -/
def storeSessionWithoutName : OFFramework :=
  { scenario1Store with sessions := [{ sess1 with name := none }] }

/-- Scenario 1 when the group-to-session reference of "epg1" has no target. -/
def storeRefWithoutTarget : OFFramework :=
  { scenario1Store with epGroups := [{ uri := epg1Uri, spanSessionRSrc := [{ targetURI := none }] }] }

/-- Scenario 1 when the destination string of "sess1" is not an IP address. -/
def storeBadDestination : OFFramework :=
  { scenario1Store with
    sessions := [{ sess1 with
      dstGrps := [{ dstMembers := [{ dstSummary := some { dest := some "not-an-address",
                                                           version := some 1 } }] }] }] }

/-- An address parser that accepts the address of Scenario 1 and throws on every other
string, as `from_string` does on "not-an-address". -/
def parseScenarioAddress (s : String) : Option address :=
  if s = "10.0.0.5" then some s else none

/-- Every identity marked for an update notification in `a` is still marked in `b`. -/
def NotifyLe (a b : SpanManager) : Prop :=
  ∀ u, u ∈ a.notifyUpdate → u ∈ b.notifyUpdate

/-- The manager that tracks "sess0" only, without sources. -/
def onlySess0Manager : SpanManager :=
  { twoSessionManager with sess_map := twoSessionManager.sess_map.take 1 }

/-- The manager after the `Universe` event in the store of the two sessions: both are
tracked and both are notified. -/
def twoSessionAfterUniverse : SpanManager :=
  { twoSessionManager with
    dispatched := [(sess0Uri, Task.spanUpdated sess0Uri), (sess1Uri, Task.spanUpdated sess1Uri)] }

/-- Session `sessUri` resolves and has a source member whose reference targets `target`. -/
def hasSrcMemberRef (framework : OFFramework) (sessUri target : URI) : Bool :=
  match Session.resolve framework sessUri with
  | none => false
  | some sess =>
    sess.srcGrps.any fun srcGrp =>
      srcGrp.srcMembers.any fun srcMem =>
        match srcMem.memberToRefRSrc with
        | some memRef => decide (memRef.targetURI = some target)
        | none => false

/-- Scenario 1 with local endpoint "lep1" in the store; "sess1" does not refer to it. -/
def scenario1StoreWithLep1 : OFFramework :=
  { scenario1Store with localEps := [lep1] }

/-- Scenario 1 when "sess1" has two destination members: the first with address
10.0.0.5 and version 2, the second with address 10.0.0.6 and no version. -/
def storeTwoDestinations : OFFramework :=
  { scenario1Store with
    sessions := [{ sess1 with
      dstGrps := [{ dstMembers :=
        [{ dstSummary := some { dest := some "10.0.0.5", version := some 2 } },
         { dstSummary := some { dest := some "10.0.0.6", version := none } }] }] }] }

/-! ## Paths from a source endpoint to a session -/

/-- The store holds a session with identity `S` that has `srcMem` among its source members. -/
def MemberOf (framework : OFFramework) (S : URI) (srcMem : SrcMember) : Prop :=
  ∃ sess srcGrp, sess ∈ framework.sessions ∧ sess.uri = S ∧ srcGrp ∈ sess.srcGrps ∧
    srcMem ∈ srcGrp.srcMembers

/-- Session `S` has a source member with the direction of `e` whose reference targets
either a local endpoint, one of the `known` ones, with the name of `e`, or the group
of a forwarding endpoint of the store whose identity is the name of `e` and whose
interface is the port of `e`. -/
def ValidPath (framework : OFFramework) (known : LocalEp → Prop) (S : URI)
    (e : SourceEndpoint) : Prop :=
  ∃ srcMem memRef target, MemberOf framework S srcMem ∧ srcMem.dir = some e.dir ∧
    srcMem.memberToRefRSrc = some memRef ∧ memRef.targetURI = some target ∧
    ((∃ lEp : LocalEp, known lEp ∧ lEp.uri = target ∧ lEp.name = some e.name) ∨
     (∃ l2Ep ∈ framework.l2Eps, l2Ep.group = some target ∧ l2Ep.uri = e.name ∧
        l2Ep.interfaceName = some e.port))

/-- The local endpoint `l` is an object of the store. -/
def InStore (framework : OFFramework) (l : LocalEp) : Prop :=
  l ∈ framework.localEps

/-- The local endpoint `l` waits in the deferred index of `m`. -/
def Deferred (m : SpanManager) (l : LocalEp) : Prop :=
  ∃ k, (k, l) ∈ m.l2EpUri

/-- Every local endpoint waiting in the deferred index of `b` waited in the one of `a`
or is an object of the store. -/
def DefLe (framework : OFFramework) (a b : SpanManager) : Prop :=
  ∀ l, Deferred b l → Deferred a l ∨ InStore framework l

/-- Every source endpoint of a session in `b` is a source endpoint of that session in
`a` or is justified by `J`. -/
def Adds (J : URI → SourceEndpoint → Prop) (a b : List (URI × SessionState)) : Prop :=
  ∀ T st' e, umap_find T b = some st' → e ∈ st'.srcEndpoints →
    (∃ st, umap_find T a = some st ∧ e ∈ st.srcEndpoints) ∨ J T e

/-- One change event: the store at the time it is processed, the class and the identity. -/
structure Event where
  framework : OFFramework
  classId : class_id_t
  uri : URI

/-- Processing a sequence of change events, each against its store. -/
def runEvents (from_string : String → Option address) (evs : List Event) (m : SpanManager) :
    Option SpanManager :=
  evs.foldlM (fun m ev => objectUpdated from_string ev.framework ev.classId ev.uri m) m

/-- The local endpoint `l` was an object of the store of one of the events `evs`. -/
def KnownIn (evs : List Event) (l : LocalEp) : Prop :=
  ∃ ev ∈ evs, InStore ev.framework l

/-- The endpoint `e` in session `T` is justified by event `ev`: some session `S` of the
store of `ev` has a valid path for `e`; `S` is `T` itself for a `LocalEp` or `L2Ep`
event, and `S` is the session of the event for a `Session` event. -/
def JustifiedBy (known : LocalEp → Prop) (ev : Event) (T : URI) (e : SourceEndpoint) : Prop :=
  ∃ S, ValidPath ev.framework known S e ∧
    ((ev.classId = class_id_t.LocalEp ∨ ev.classId = class_id_t.L2Ep) → S = T) ∧
    (ev.classId = class_id_t.Session → S = ev.uri)

/-- A store in which "sess1" refers to "epg1" but "epg1" refers back to "sess0", a
session without source members; "ep-a" is in "epg1". -/
def storeCrossReference : OFFramework :=
  { spanUniverse := true, sessions := [sess0With [], sess1With [sess1Member]],
    localEps := [], l2Universe := true, l2Eps := [epA],
    epGroups := [{ uri := epg1Uri, spanSessionRSrc := [{ targetURI := some sess0Uri }] }] }

/-! ## JsonRpcRenderer -/

/-- The operations of `JsonRpc` that `JsonRpcRenderer` calls: the constructor from a
connection, `connect` and `isConnected`. The class is declared outside the sources read
here, so its operations are parameters over the type `J` of its states. -/
structure JsonRpcOps (Conn J : Type) where
  new : Conn → J
  connect : J → J
  isConnected : J → Bool

/-- The members of `JsonRpcRenderer` that `start` and `connect` touch; `timerCancels`
counts the calls of `connection_timer->cancel()`. -/
structure JsonRpcRenderer (Conn J : Type) where
  switchName : String
  conn : Option Conn
  jRpc : Option J
  timerStarted : Bool
  timerCancels : Nat

/-- The constructor `JsonRpcRenderer::JsonRpcRenderer`: `jRpc(nullptr)`,
`timerStarted(false)`, `conn(nullptr)`. -/
def JsonRpcRenderer.init {Conn J : Type} : JsonRpcRenderer Conn J :=
  { switchName := "", conn := none, jRpc := none, timerStarted := false, timerCancels := 0 }

/-- `JsonRpcRenderer::start`. -/
def JsonRpcRenderer.start {Conn J : Type} (ops : JsonRpcOps Conn J)
    (r : JsonRpcRenderer Conn J) (swName : String) (conn_ : Conn) : JsonRpcRenderer Conn J :=
  { r with switchName := swName, conn := some conn_, jRpc := some (ops.new conn_) }

/-- `JsonRpcRenderer::connect`: the returned flag and the renderer afterwards. -/
def JsonRpcRenderer.connect {Conn J : Type} (ops : JsonRpcOps Conn J)
    (r : JsonRpcRenderer Conn J) : Bool × JsonRpcRenderer Conn J :=
  let r := if r.timerStarted then
      { r with timerCancels := r.timerCancels + 1, timerStarted := false }
    else r
  match r.jRpc with
  | none => (false, r)
  | some j =>
    let j := ops.connect j
    (ops.isConnected j, { r with jRpc := some j })

/-- The two operations of an `OvsdbConnection` that matter for the connected status:
`connect` and the getter `isConnected`. -/
structure ConnOps (Conn : Type) where
  connect : Conn → Conn
  isConnected : Conn → Bool

/-- A `JsonRpc` built on a connection passes `connect` on to the connection and reports
the status the connection reports. -/
def Forwards {Conn J : Type} (ops : JsonRpcOps Conn J) (connOps : ConnOps Conn) : Prop :=
  ∀ c, ops.isConnected (ops.connect (ops.new c)) = connOps.isConnected (connOps.connect c)

/-- The connected flag of the test's `MockRpcConnection`. -/
structure MockRpcConnection where
  connected : Bool
deriving DecidableEq

/-- `MockRpcConnection::connect`: `setConnected(true)`. -/
def MockRpcConnection.connect (_c : MockRpcConnection) : MockRpcConnection :=
  { connected := true }

/-- `MockRpcConnection::disconnect`: `setConnected(false)`. -/
def MockRpcConnection.disconnect (_c : MockRpcConnection) : MockRpcConnection :=
  { connected := false }

/-- The connection operations of the mock. -/
def mockConnOps : ConnOps MockRpcConnection :=
  { connect := MockRpcConnection.connect, isConnected := fun c => c.connected }

/-- A `JsonRpc` that is just its connection, used with the mock. -/
def mockJsonRpcOps : JsonRpcOps MockRpcConnection MockRpcConnection :=
  { new := fun c => c, connect := MockRpcConnection.connect,
    isConnected := fun c => c.connected }

/-! ## KeyedRateLimiter

The class template `ovsagent::KeyedRateLimiter<K, NBUCKETS, BUCKET_TIME>`. Times are
natural numbers of milliseconds; every reading of `steady_clock::now()` is a parameter
of the call that takes it. -/

/-- The members of `KeyedRateLimiter`: the vector of key sets, the index of the current
bucket and the time at which the current bucket started. -/
structure KeyedRateLimiter (K : Type) where
  buckets : List (List K)
  curBucket : Nat
  curBucketStart : Nat
deriving DecidableEq

/-- The constructor: `buckets(NBUCKETS)`, `curBucket(0)`, `curBucketStart(now())`. -/
def KeyedRateLimiter.new {K : Type} (NBUCKETS now : Nat) : KeyedRateLimiter K :=
  { buckets := List.replicate NBUCKETS [], curBucket := 0, curBucketStart := now }

/-- `KeyedRateLimiter::do_clear`; `now` is the clock reading it takes. -/
def KeyedRateLimiter.do_clear {K : Type} (now : Nat) (l : KeyedRateLimiter K) :
    KeyedRateLimiter K :=
  { buckets := l.buckets.map (fun _ => []), curBucket := 0, curBucketStart := now }

/-- `KeyedRateLimiter::clear`. -/
def KeyedRateLimiter.clear {K : Type} (now : Nat) (l : KeyedRateLimiter K) :
    KeyedRateLimiter K :=
  l.do_clear now

/-- The loop "advance the timer" of `event`, with `fuel` bounding the iterations; `none`
when the bound is reached while the loop condition still holds. -/
def KeyedRateLimiter.advance {K : Type} (NBUCKETS BUCKET_TIME now : Nat) :
    Nat → KeyedRateLimiter K → Option (KeyedRateLimiter K)
  | 0, l => if l.curBucketStart + BUCKET_TIME < now then none else some l
  | fuel + 1, l =>
    if l.curBucketStart + BUCKET_TIME < now then
      KeyedRateLimiter.advance NBUCKETS BUCKET_TIME now fuel
        { curBucketStart := l.curBucketStart + BUCKET_TIME,
          curBucket := (l.curBucket + 1) % NBUCKETS,
          buckets := l.buckets.set ((l.curBucket + 1) % NBUCKETS) [] }
    else some l

/-- The statement `buckets[curBucket].insert(key)`. -/
def KeyedRateLimiter.insertCur {K : Type} [DecidableEq K] (key : K)
    (l : KeyedRateLimiter K) : KeyedRateLimiter K :=
  let ks := uset_insert key (l.buckets.getD l.curBucket [])
  { l with buckets := l.buckets.set l.curBucket ks }

/-- `KeyedRateLimiter::event`: the returned flag and the limiter afterwards. `now` is the
reading taken on entry, `clearNow` the reading `do_clear` takes when the slow-rate branch
runs. The loop gets `now - curBucketStart` iterations. -/
def KeyedRateLimiter.event {K : Type} [DecidableEq K] (NBUCKETS BUCKET_TIME : Nat) (key : K)
    (now clearNow : Nat) (l : KeyedRateLimiter K) : Option (Bool × KeyedRateLimiter K) :=
  if l.curBucketStart + BUCKET_TIME * NBUCKETS < now then
    some (true, (l.do_clear clearNow).insertCur key)
  else do
    let l ← KeyedRateLimiter.advance NBUCKETS BUCKET_TIME now (now - l.curBucketStart) l
    if l.buckets.any (fun ks => decide (key ∈ ks)) then pure (false, l)
    else pure (true, l.insertCur key)

/-- The last clock reading that `event` takes: the one of `do_clear` in the slow-rate
branch, the one on entry otherwise. -/
def KeyedRateLimiter.lastReading {K : Type} (NBUCKETS BUCKET_TIME now clearNow : Nat)
    (l : KeyedRateLimiter K) : Nat :=
  if l.curBucketStart + BUCKET_TIME * NBUCKETS < now then clearNow else now

/-- One call on a limiter with the clock readings available to it. -/
inductive Call (K : Type) where
  | event (key : K) (now clearNow : Nat)
  | clear (now : Nat)

/-- The clock readings of a call, in the order they are taken. -/
def Call.readings {K : Type} : Call K → List Nat
  | Call.event _ now clearNow => [now, clearNow]
  | Call.clear now => [now]

/-- The call is a call of `event`. -/
def Call.isEvent {K : Type} : Call K → Bool
  | Call.event _ _ _ => true
  | Call.clear _ => false

/-- What is recorded of one call of `event`: the key, the first and the last clock
reading the call took, and the returned flag. -/
structure Outcome (K : Type) where
  key : K
  first : Nat
  last : Nat
  result : Bool
deriving DecidableEq

/-- A sequence of calls on one limiter: the outcomes of the `event` calls in order, and
the limiter afterwards. -/
def runCalls {K : Type} [DecidableEq K] (NBUCKETS BUCKET_TIME : Nat) :
    List (Call K) → KeyedRateLimiter K → Option (List (Outcome K) × KeyedRateLimiter K)
  | [], l => some ([], l)
  | Call.event key now clearNow :: rest, l =>
    match l.event NBUCKETS BUCKET_TIME key now clearNow with
    | none => none
    | some (res, l1) =>
      match runCalls NBUCKETS BUCKET_TIME rest l1 with
      | none => none
      | some (log, l2) =>
        some (⟨key, now, l.lastReading NBUCKETS BUCKET_TIME now clearNow, res⟩ :: log, l2)
  | Call.clear now :: rest, l => runCalls NBUCKETS BUCKET_TIME rest (l.clear now)

/-- The number of times the timer advanced since bucket `i` was the current one, when
the current one is `c`. -/
def age (N c i : Nat) : Nat :=
  if i ≤ c then c - i else c + N - i

/-- The key set of bucket `i`. -/
def bucketAt {K : Type} (l : KeyedRateLimiter K) (i : Nat) : List K :=
  l.buckets.getD i []

/-- The limiter `l` at time `tnow` agrees with the list `H` of the pairs (key, time) of
the `event` calls that returned true since the last clear: every such key is still in a
bucket that is young enough, or its time is more than `(N - 1) * T` back; and every key
in a bucket comes from such a call, not older than the age of the bucket allows. -/
structure Inv {K : Type} (N T : Nat) (l : KeyedRateLimiter K) (tnow : Nat)
    (H : List (K × Nat)) : Prop where
  len : l.buckets.length = N
  cur : l.curBucket < N
  start : l.curBucketStart ≤ tnow
  recent : ∀ k t1, (k, t1) ∈ H → t1 ≤ tnow ∧
    ((∃ i, i < N ∧ k ∈ bucketAt l i ∧
        t1 + age N l.curBucket i * T ≤ l.curBucketStart + T) ∨
      t1 + (N - 1) * T < tnow)
  origin : ∀ i k, i < N → k ∈ bucketAt l i →
    ∃ t1, (k, t1) ∈ H ∧ l.curBucketStart ≤ t1 + age N l.curBucket i * T

/-! ## Registration of the store listener -/

/-- Modelled from the spec: the store offers per-object-type change-notification
subscription. `registerListener` of class `c` adds the manager's listener to the
listeners of `c`; the registry is the list of classes the listener is registered for. -/
def registerListener (c : class_id_t) (registry : List class_id_t) : List class_id_t :=
  uset_insert c registry

/-- Modelled from the spec: `unregisterListener` of class `c` removes the manager's
listener from the listeners of `c`. -/
def unregisterListener (c : class_id_t) (registry : List class_id_t) : List class_id_t :=
  registry.filter (fun x => !decide (x = c))

/-- `SpanManager::start`, on the registry of the store. -/
def SpanManager.start (registry : List class_id_t) : List class_id_t :=
  registerListener class_id_t.L2Ep
    (registerListener class_id_t.LocalEp
      (registerListener class_id_t.Session
        (registerListener class_id_t.Universe registry)))

/-- `SpanManager::stop`, on the registry of the store. -/
def SpanManager.stop (registry : List class_id_t) : List class_id_t :=
  unregisterListener class_id_t.L2Ep
    (unregisterListener class_id_t.LocalEp
      (unregisterListener class_id_t.Universe registry))

/-! ## Update notifications and tracked sessions -/

/-- Every session tracked in `a` is tracked in `b`, and every identity marked for an
update notification in `b` was marked in `a`, is tracked in `b`, or satisfies `P`. -/
def NotifyOk (P : URI → Prop) (a b : SpanManager) : Prop :=
  (∀ k, Tracked a.sess_map k → Tracked b.sess_map k) ∧
    ∀ u, u ∈ b.notifyUpdate → u ∈ a.notifyUpdate ∨ Tracked b.sess_map u ∨ P u

/-- The identity `u` is the session identity that `getSession` derives from a local
endpoint of the store whose forwarding endpoint resolves. -/
def EnclosesLocalEp (framework : OFFramework) (u : URI) : Prop :=
  ∃ lEp epRSrc epUri l2Ep, InStore framework lEp ∧ getSession lEp = some u ∧
    lEp.localEpToEpRSrc = some epRSrc ∧ epRSrc.targetURI = some epUri ∧
    L2Ep.resolve framework epUri = some l2Ep

/-- The store of Scenario 2 once "fep1" exists: "sess1" refers to "lep1" (direction IN),
whose forwarding endpoint "fep1" resolves. -/
def scenario2StoreResolved : OFFramework :=
  scenario2StoreWith [lep1Member 1]

/-! ## PrometheusManager: metric names -/

/-- The regular expressions needed for the pattern of `checkMetricName`: a bracket
expression given by its inclusive character ranges, concatenation, alternation and the
star; `empty` matches no string and `eps` the empty string only. -/
inductive Regex where
  | empty : Regex
  | eps : Regex
  | bracket (ranges : List (Char × Char)) : Regex
  | seq (r s : Regex) : Regex
  | alt (r s : Regex) : Regex
  | star (r : Regex) : Regex

/-- The character `c` is in one of the ranges of a bracket expression. -/
def inBracket (ranges : List (Char × Char)) (c : Char) : Bool :=
  ranges.any (fun p => decide (p.1 ≤ c) && decide (c ≤ p.2))

/-- The expression matches the empty string. -/
def Regex.nullable : Regex → Bool
  | Regex.empty => false
  | Regex.eps => true
  | Regex.bracket _ => false
  | Regex.seq r s => r.nullable && s.nullable
  | Regex.alt r s => r.nullable || s.nullable
  | Regex.star _ => true

/-- The derivative of an expression by a character: it matches `w` exactly when the
expression matches `c` followed by `w`. -/
def Regex.deriv : Regex → Char → Regex
  | Regex.empty, _ => Regex.empty
  | Regex.eps, _ => Regex.empty
  | Regex.bracket ranges, c => if inBracket ranges c then Regex.eps else Regex.empty
  | Regex.seq r s, c =>
    if r.nullable then Regex.alt (Regex.seq (r.deriv c) s) (s.deriv c)
    else Regex.seq (r.deriv c) s
  | Regex.alt r s, c => Regex.alt (r.deriv c) (s.deriv c)
  | Regex.star r, c => Regex.seq (r.deriv c) (Regex.star r)

/-- `std::regex_match`: the whole string matches the expression. -/
def regex_match (s : String) (r : Regex) : Bool :=
  (s.data.foldl Regex.deriv r).nullable

/-- The bracket expression `[a-zA-Z_:]`. -/
def metricNameFirst : List (Char × Char) :=
  [('a', 'z'), ('A', 'Z'), ('_', '_'), (':', ':')]

/-- The bracket expression `[a-zA-Z0-9_:]`. -/
def metricNameLater : List (Char × Char) :=
  [('a', 'z'), ('A', 'Z'), ('0', '9'), ('_', '_'), (':', ':')]

/-- The pattern `[a-zA-Z_:][a-zA-Z0-9_:]*` of `checkMetricName`. -/
def metric_name_regex : Regex :=
  Regex.seq (Regex.bracket metricNameFirst) (Regex.star (Regex.bracket metricNameLater))

/-- `PrometheusManager::checkMetricName`. -/
def checkMetricName (metric_name : String) : Bool :=
  regex_match metric_name metric_name_regex

/-- An expression that matches no string: what is left of the pattern of
`checkMetricName` after a character outside its brackets. -/
inductive Dead : Regex → Prop where
  | seq (s : Regex) : Dead (Regex.seq Regex.empty s)
  | alt {a b : Regex} : Dead a → Dead b → Dead (Regex.alt a b)

/-- An expression equivalent to `[a-zA-Z0-9_:]*`: what is left of the pattern of
`checkMetricName` after a prefix inside its brackets. -/
inductive Good : Regex → Prop where
  | base : Good (Regex.seq Regex.eps (Regex.star (Regex.bracket metricNameLater)))
  | alt {a b : Regex} : Dead a → Good b → Good (Regex.alt a b)

/-- The index of the first occurrence of `c` in `s`, if there is one. -/
def firstIndex (c : Char) : List Char → Option Nat
  | [] => none
  | x :: xs => if x = c then some 0 else (firstIndex c xs).map (fun i => i + 1)

/-- `std::string::find_first_of(c, pos)`: the first index at or after `pos` that holds
`c`; `none` stands for `npos`. -/
def find_first_of (s : List Char) (c : Char) (pos : Nat) : Option Nat :=
  (firstIndex c (s.drop pos)).map (fun i => i + pos)

/-- The loop of `sanitizeMetricName`, with `fuel` bounding the iterations: while `found`
is not `npos`, overwrite the character at `found` and search again from `found + 1`;
`none` when the bound is reached while the loop condition still holds. -/
def sanitizeLoop (replace_from replace_to : Char) :
    Nat → List Char → Option Nat → Option (List Char)
  | _, metric_name, none => some metric_name
  | 0, _, some _ => none
  | fuel + 1, metric_name, some found =>
    sanitizeLoop replace_from replace_to fuel (metric_name.set found replace_to)
      (find_first_of (metric_name.set found replace_to) replace_from (found + 1))

/-- `PrometheusManager::sanitizeMetricName`; the loop gets as many iterations as the
name has characters. -/
def sanitizeMetricName (metric_name : String) : Option String :=
  (sanitizeLoop '-' '_' metric_name.data.length metric_name.data
    (find_first_of metric_name.data '-' 0)).map String.mk

/-- The replacement `sanitizeMetricName` applies to one character. -/
def sanitizeChar (c : Char) : Char :=
  if c = '-' then '_' else c

/-! ## PrometheusManager: the labels of an endpoint -/

/-- The array `metric_annotate_skip`. -/
def metric_annotate_skip : List String :=
  ["vm-name", "namespace", "interface-name", "pod-template-hash",
   "controller-revision-hash", "pod-template-generation"]

/-- The static `PrometheusManager::max_metric_attr_count`. -/
def max_metric_attr_count : Nat := 5

/-- The lexicographic order on character sequences. -/
def charsLess : List Char → List Char → Bool
  | _, [] => false
  | [], _ :: _ => true
  | a :: as, b :: bs =>
    if a.toNat < b.toNat then true
    else if b.toNat < a.toNat then false
    else charsLess as bs

/-- The order `std::less<std::string>` of the keys of a `std::map`. -/
def keyLess (a b : String) : Bool :=
  charsLess a.data b.data

/-- The statement `label_map[k] = v` on a `std::map`, which keeps its entries ordered
by key: overwrite the value under `k`, or insert the pair at its place. -/
def map_assign (k v : String) : List (String × String) → List (String × String)
  | [] => [(k, v)]
  | (a, w) :: rest =>
    if k = a then (a, v) :: rest
    else if keyLess k a then (k, v) :: (a, w) :: rest
    else (a, w) :: map_assign k v rest

/-- The loop of `createLabelMapFromEpAttr` over the attribute map, in the order the map
is iterated, on the label map and the attribute count. -/
def labelLoop : List (String × String) → List (String × String) × Nat →
    List (String × String) × Nat
  | [], st => st
  | p :: rest, (label_map, attr_count) =>
    if attr_count = max_metric_attr_count then (label_map, attr_count)
    else if p.2 = "" then labelLoop rest (label_map, attr_count)
    else if metric_annotate_skip.any (fun skip_str => decide (p.1 = skip_str)) then
      labelLoop rest (label_map, attr_count)
    else if checkMetricName p.1 then
      labelLoop rest (map_assign p.1 p.2 label_map, attr_count + 1)
    else labelLoop rest (label_map, attr_count)

/-- The part of `createLabelMapFromEpAttr` before the loop: the labels "if_name",
"namespace" and "pod", and the attribute count. -/
def labelInit (ep_name : String) (attr_map : List (String × String)) :
    List (String × String) × Nat :=
  let st : List (String × String) × Nat := (map_assign "if_name" ep_name [], 1)
  let st := match umap_find "namespace" attr_map with
    | some ns => (map_assign "namespace" ns st.1, st.2 + 1)
    | none => st
  match umap_find "vm-name" attr_map with
  | some pod => (map_assign "pod" pod st.1, st.2 + 1)
  | none => st

/-- `PrometheusManager::createLabelMapFromEpAttr`; `attr_map` lists the attribute map
in the order it is iterated. -/
def createLabelMapFromEpAttr (ep_name : String) (attr_map : List (String × String)) :
    List (String × String) :=
  (labelLoop attr_map (labelInit ep_name attr_map)).1

/-- What the loop of `createLabelMapFromEpAttr` keeps true of the label map and the
attribute count: at most as many labels as counted, at most `max_metric_attr_count`
counted, and every label other than the three fixed ones copied from an attribute that
passed the tests of the loop. -/
def LabelInv (attr_map : List (String × String)) (st : List (String × String) × Nat) :
    Prop :=
  st.1.length ≤ st.2 ∧ st.2 ≤ max_metric_attr_count ∧
    ∀ x ∈ st.1, x.1 ≠ "if_name" → x.1 ≠ "namespace" → x.1 ≠ "pod" →
      x ∈ attr_map ∧ x.2 ≠ "" ∧ checkMetricName x.1 = true ∧ x.1 ∉ metric_annotate_skip

/-! ## PrometheusManager: the endpoint gauges

Between `start` and `stop` every pointer that `start` sets is valid, so the members
below hold the objects pointed to. -/

/-- A dynamic endpoint gauge as `ep_gauge_map` stores it: the hash of its label map, and
the gauge created by `Add(label_map)` in the family, with the value last given to `Set`. -/
structure EpGauge where
  hash : Nat
  labels : List (String × String)
  value : Option Nat
deriving DecidableEq

/-- The members of `PrometheusManager` that the endpoint counter functions touch:
the numbers of `Increment` calls on the two static counters, the member
`gauge_ep_total`, the value last given to `Set` on the gauge of family
"opflex_active_local_endpoints", and `ep_gauge_map`, one map from uuid per metric. -/
structure PrometheusManager where
  counter_ep_create : Nat
  counter_ep_remove : Nat
  gauge_ep_total : Int
  gauge_ep_total_value : Option Int
  ep_gauge_map : List (List (String × EpGauge))
deriving DecidableEq

/-- An `EpCounter` object of the store: the optional value of each metric, in the order
of the cases of the `switch` in `addNUpdateEpCounter`. -/
structure EpCounter where
  metrics : List (Option Nat)

/-- What `addNUpdateEpCounter` reads of the store: whether `EpStatUniverse` resolves,
and the `EpCounter` objects by uuid. -/
structure StatStore where
  epStatUniverse : Bool
  epCounters : List (String × EpCounter)

/-- The state after the constructor (`gauge_ep_total{0}`) and `start`, which creates the
static counters and the gauge of family "opflex_active_local_endpoints"; the array
`ep_gauge_map` has one empty map for each of the `EP_METRICS_MAX` metrics. -/
def PrometheusManager.start (EP_METRICS_MAX : Nat) : PrometheusManager :=
  { counter_ep_create := 0, counter_ep_remove := 0, gauge_ep_total := 0,
    gauge_ep_total_value := none, ep_gauge_map := List.replicate EP_METRICS_MAX [] }

/-- `PrometheusManager::incStaticCounterEpCreate`. -/
def PrometheusManager.incStaticCounterEpCreate (pm : PrometheusManager) : PrometheusManager :=
  { pm with counter_ep_create := pm.counter_ep_create + 1 }

/-- `PrometheusManager::incStaticCounterEpRemove`. -/
def PrometheusManager.incStaticCounterEpRemove (pm : PrometheusManager) : PrometheusManager :=
  { pm with counter_ep_remove := pm.counter_ep_remove + 1 }

/-- `PrometheusManager::updateStaticGaugeEpTotal`: `Set(++gauge_ep_total)` or
`Set(--gauge_ep_total)`. -/
def PrometheusManager.updateStaticGaugeEpTotal (add : Bool) (pm : PrometheusManager) :
    PrometheusManager :=
  if add then
    { pm with gauge_ep_total := pm.gauge_ep_total + 1,
              gauge_ep_total_value := some (pm.gauge_ep_total + 1) }
  else
    { pm with gauge_ep_total := pm.gauge_ep_total - 1,
              gauge_ep_total_value := some (pm.gauge_ep_total - 1) }

/-- The map `ep_gauge_map[metric]`. -/
def PrometheusManager.metricMap (pm : PrometheusManager) (metric : Nat) :
    List (String × EpGauge) :=
  pm.ep_gauge_map.getD metric []

/-- The manager with `ep_gauge_map[metric]` replaced by `entries`. -/
def PrometheusManager.setMetricMap (pm : PrometheusManager) (metric : Nat)
    (entries : List (String × EpGauge)) : PrometheusManager :=
  { pm with ep_gauge_map := pm.ep_gauge_map.set metric entries }

/-- `PrometheusManager::getDynamicGaugeEp`. -/
def PrometheusManager.getDynamicGaugeEp (pm : PrometheusManager) (metric : Nat)
    (uuid : String) : Option EpGauge :=
  umap_find uuid (pm.metricMap metric)

/-- `PrometheusManager::removeDynamicGaugeEp(metric, uuid)`: the returned flag and the
manager afterwards. -/
def PrometheusManager.removeDynamicGaugeEp (pm : PrometheusManager) (metric : Nat)
    (uuid : String) : Bool × PrometheusManager :=
  match pm.getDynamicGaugeEp metric uuid with
  | some _ => (true, pm.setMetricMap metric (umap_erase uuid (pm.metricMap metric)))
  | none => (false, pm)

/-- `PrometheusManager::calcHashEpAttributes`; `hash_labels` is the hash function of the
metrics library. -/
def calcHashEpAttributes (hash_labels : List (String × String) → Nat) (ep_name : String)
    (attr_map : List (String × String)) : Nat :=
  hash_labels (createLabelMapFromEpAttr ep_name attr_map)

/-- `PrometheusManager::createDynamicGaugeEp`: the returned flag and the manager
afterwards. -/
def PrometheusManager.createDynamicGaugeEp (hash_labels : List (String × String) → Nat)
    (pm : PrometheusManager) (metric : Nat) (uuid ep_name : String) (attr_hash : Nat)
    (attr_map : List (String × String)) : Bool × PrometheusManager :=
  let add (pm : PrometheusManager) : Bool × PrometheusManager :=
    let label_map := createLabelMapFromEpAttr ep_name attr_map
    let gauge : EpGauge := ⟨hash_labels label_map, label_map, none⟩
    (true, pm.setMetricMap metric (umap_assign uuid gauge (pm.metricMap metric)))
  match pm.getDynamicGaugeEp metric uuid with
  | some hgauge =>
    if attr_hash = hgauge.hash then (false, pm)
    else add (pm.removeDynamicGaugeEp metric uuid).2
  | none => add pm

/-- The first loop of `addNUpdateEpCounter` over the metrics: create the gauge of each
metric, leave the loop when one is not created, and count the endpoint at the last
metric. -/
def createGaugesLoop (hash_labels : List (String × String) → Nat) (EP_METRICS_MAX : Nat)
    (uuid ep_name : String) (attr_hash : Nat) (attr_map : List (String × String)) :
    List Nat → PrometheusManager → PrometheusManager
  | [], pm => pm
  | metric :: rest, pm =>
    let r := pm.createDynamicGaugeEp hash_labels metric uuid ep_name attr_hash attr_map
    if r.1 then
      let pm1 := if metric = EP_METRICS_MAX - 1 then
          (r.2.incStaticCounterEpCreate).updateStaticGaugeEpTotal true
        else r.2
      createGaugesLoop hash_labels EP_METRICS_MAX uuid ep_name attr_hash attr_map rest pm1
    else r.2

/-- The second loop of `addNUpdateEpCounter`, one metric: `Set` the gauge of the
endpoint to the value of the counter when both exist. -/
def updateMetric (uuid : String) (ep_counter : EpCounter) (pm : PrometheusManager)
    (metric : Nat) : PrometheusManager :=
  match pm.getDynamicGaugeEp metric uuid, (ep_counter.metrics.getD metric none) with
  | some hgauge, some v =>
    pm.setMetricMap metric (umap_assign uuid ⟨hgauge.hash, hgauge.labels, some v⟩
      (pm.metricMap metric))
  | _, _ => pm

/-- `PrometheusManager::addNUpdateEpCounter`. -/
def PrometheusManager.addNUpdateEpCounter (hash_labels : List (String × String) → Nat)
    (EP_METRICS_MAX : Nat) (store : StatStore) (pm : PrometheusManager)
    (uuid ep_name : String) (attr_hash : Nat) (attr_map : List (String × String)) :
    PrometheusManager :=
  if store.epStatUniverse then
    match umap_find uuid store.epCounters with
    | some ep_counter =>
      let pm := createGaugesLoop hash_labels EP_METRICS_MAX uuid ep_name attr_hash attr_map
        (List.range EP_METRICS_MAX) pm
      (List.range EP_METRICS_MAX).foldl (updateMetric uuid ep_counter) pm
    | none => pm
  else pm

/-- The loop of `removeEpCounter` over the metrics. -/
def removeGaugesLoop (EP_METRICS_MAX : Nat) (uuid : String) :
    List Nat → PrometheusManager → PrometheusManager
  | [], pm => pm
  | metric :: rest, pm =>
    let r := pm.removeDynamicGaugeEp metric uuid
    if r.1 then
      let pm1 := if metric = EP_METRICS_MAX - 1 then
          (r.2.incStaticCounterEpRemove).updateStaticGaugeEpTotal false
        else r.2
      removeGaugesLoop EP_METRICS_MAX uuid rest pm1
    else r.2

/-- `PrometheusManager::removeEpCounter`. -/
def PrometheusManager.removeEpCounter (EP_METRICS_MAX : Nat) (pm : PrometheusManager)
    (uuid : String) (_ep_name : String) : PrometheusManager :=
  removeGaugesLoop EP_METRICS_MAX uuid (List.range EP_METRICS_MAX) pm

/-- The endpoint uuids that have a dynamic endpoint gauge for some metric. -/
def epUuids (pm : PrometheusManager) : List String :=
  (pm.ep_gauge_map.flatMap (fun m => m.map Prod.fst)).foldl
    (fun acc uuid => uset_insert uuid acc) []

/-- The number of metrics of an endpoint: the entries of `ep_family_names`, which are
the cases of the `switch` in `addNUpdateEpCounter`. -/
def epMetricCount : Nat := 12

/-- A store in which `EpStatUniverse` resolves and holds a counter for "ep1". -/
def storeWithEp1 : StatStore :=
  { epStatUniverse := true, epCounters := [("ep1", { metrics := List.replicate 12 (some 7) })] }

/-- A hash of label maps for the examples: the number of characters of keys and values. -/
def exampleHash (label_map : List (String × String)) : Nat :=
  (label_map.map (fun p => p.1.length + p.2.length)).sum

/-- The manager after `start` and `addNUpdateEpCounter` for "ep1" on interface "veth1"
with attribute "app" = "web". -/
def afterFirstAdd : PrometheusManager :=
  (PrometheusManager.start epMetricCount).addNUpdateEpCounter exampleHash epMetricCount
    storeWithEp1 "ep1" "veth1" (calcHashEpAttributes exampleHash "veth1" [("app", "web")])
    [("app", "web")]

/-- The manager after `addNUpdateEpCounter` for "ep1" again, its attribute changed to
"app" = "database". -/
def afterSecondAdd : PrometheusManager :=
  afterFirstAdd.addNUpdateEpCounter exampleHash epMetricCount storeWithEp1 "ep1" "veth1"
    (calcHashEpAttributes exampleHash "veth1" [("app", "database")]) [("app", "database")]

/-! # Theorems -/

/-! ## Facts about the hash-map operations -/

theorem umap_find_assign_self {β : Type} (k : URI) (v : β) (m : List (URI × β)) :
    umap_find k (umap_assign k v m) = some v := by
  induction m with
  | nil => simp [umap_assign, umap_find]
  | cons p rest ih =>
    obtain ⟨a, w⟩ := p
    by_cases h : a = k
    · simp [umap_assign, umap_find, h]
    · simp [umap_assign, umap_find, h, ih]

theorem umap_find_assign_ne {β : Type} {k k' : URI} (v : β) (m : List (URI × β))
    (h : k' ≠ k) : umap_find k' (umap_assign k v m) = umap_find k' m := by
  induction m with
  | nil => simp [umap_assign, umap_find, Ne.symm h]
  | cons p rest ih =>
    obtain ⟨a, w⟩ := p
    by_cases hak : a = k
    · subst hak
      simp [umap_assign, umap_find, Ne.symm h]
    · by_cases hak' : a = k'
      · subst hak'
        simp [umap_assign, umap_find, h]
      · simp [umap_assign, umap_find, hak, hak', ih]

theorem umap_find_erase_self {β : Type} (k : URI) (m : List (URI × β)) :
    umap_find k (umap_erase k m) = none := by
  induction m with
  | nil => simp [umap_erase, umap_find]
  | cons p rest ih =>
    obtain ⟨a, w⟩ := p
    by_cases h : a = k
    · simpa [umap_erase, List.filter_cons, h] using ih
    · simpa [umap_erase, List.filter_cons, h, umap_find] using ih

theorem umap_find_erase_ne {β : Type} {k k' : URI} (m : List (URI × β)) (h : k' ≠ k) :
    umap_find k' (umap_erase k m) = umap_find k' m := by
  induction m with
  | nil => simp [umap_erase, umap_find]
  | cons p rest ih =>
    obtain ⟨a, w⟩ := p
    by_cases hak : a = k
    · subst hak
      simpa [umap_erase, List.filter_cons, umap_find, Ne.symm h] using ih
    · by_cases hak' : a = k'
      · subst hak'
        simp [umap_erase, List.filter_cons, umap_find, h]
      · simpa [umap_erase, List.filter_cons, umap_find, hak, hak'] using ih

theorem umap_find_append_some {β : Type} {k : URI} {v : β} (m r : List (URI × β))
    (h : umap_find k m = some v) : umap_find k (m ++ r) = some v := by
  induction m with
  | nil => simp [umap_find] at h
  | cons p rest ih =>
    obtain ⟨a, w⟩ := p
    by_cases hak : a = k
    · simpa [umap_find, hak] using h
    · simp only [umap_find, hak, if_false, List.cons_append] at h ⊢
      exact ih h

theorem umap_find_append_none {β : Type} {k : URI} (m r : List (URI × β))
    (h : umap_find k m = none) : umap_find k (m ++ r) = umap_find k r := by
  induction m with
  | nil => simp
  | cons p rest ih =>
    obtain ⟨a, w⟩ := p
    by_cases hak : a = k
    · simp [umap_find, hak] at h
    · simp only [umap_find, hak, if_false, List.cons_append] at h ⊢
      exact ih h

/-- After `emplace` the key is present; the value is the old one when there was one. -/
theorem umap_find_emplace_self {β : Type} (k : URI) (v : β) (m : List (URI × β)) :
    umap_find k (umap_emplace k v m) = some ((umap_find k m).getD v) := by
  unfold umap_emplace
  cases h : umap_find k m with
  | some w => simp [h]
  | none => simp [umap_find_append_none m _ h, umap_find]

theorem umap_find_emplace_ne {β : Type} {k k' : URI} (v : β) (m : List (URI × β))
    (h : k' ≠ k) : umap_find k' (umap_emplace k v m) = umap_find k' m := by
  unfold umap_emplace
  cases hk : umap_find k m with
  | some w => rfl
  | none =>
    cases hk' : umap_find k' m with
    | some w => exact umap_find_append_some m _ hk'
    | none => simp [umap_find_append_none m _ hk', umap_find, Ne.symm h]

/-- Folding a fallible step over a list preserves every reflexive, transitive relation
that each successful step respects. -/
theorem foldlM_rel {α σ : Type} (R : σ → σ → Prop) (hrefl : ∀ s, R s s)
    (htrans : ∀ a b c, R a b → R b c → R a c) (f : σ → α → Option σ)
    (hstep : ∀ s x s', f s x = some s' → R s s') :
    ∀ (xs : List α) (s s' : σ), xs.foldlM f s = some s' → R s s' := by
  intro xs
  induction xs with
  | nil =>
    intro s s' h
    simp only [List.foldlM_nil, Option.pure_def, Option.some.injEq] at h
    subst h
    exact hrefl s
  | cons x rest ih =>
    intro s s' h
    simp only [List.foldlM_cons, Option.bind_eq_bind, Option.bind_eq_some] at h
    obtain ⟨s1, h1, h2⟩ := h
    exact htrans _ _ _ (hstep _ _ _ h1) (ih _ _ h2)

/-- A property established by the step at one element of the list, under an invariant
the steps keep, and kept by every later step, holds after the whole fold. -/
theorem foldlM_establish {α σ : Type} (Inv P : σ → Prop) (f : σ → α → Option σ)
    (hInv : ∀ s x s', Inv s → f s x = some s' → Inv s')
    (hP : ∀ s x s', P s → f s x = some s' → P s')
    (x₀ : α) (hest : ∀ s s', Inv s → f s x₀ = some s' → P s') :
    ∀ (xs : List α), x₀ ∈ xs → ∀ (s s' : σ), Inv s → xs.foldlM f s = some s' → P s' := by
  intro xs
  induction xs with
  | nil => intro hx; simp at hx
  | cons x rest ih =>
    intro hx s s' hinv h
    simp only [List.foldlM_cons, Option.bind_eq_bind, Option.bind_eq_some] at h
    obtain ⟨s1, h1, h2⟩ := h
    rcases List.mem_cons.mp hx with hx | hx
    · subst hx
      exact foldlM_rel (fun a b => P a → P b) (fun _ hp => hp)
        (fun _ _ _ hab hbc hp => hbc (hab hp)) f (fun a y b hf hp => hP a y b hp hf)
        rest s1 s' h2 (hest _ _ hinv h1)
    · exact ih hx s1 s' (hInv _ _ _ hinv h1) h2

/-! ## Growth of the session map -/

@[simp]
theorem markUpdate_sess_map (m : SpanManager) (uri : URI) :
    (m.markUpdate uri).sess_map = m.sess_map := rfl

@[simp]
theorem markUpdate_l2EpUri (m : SpanManager) (uri : URI) :
    (m.markUpdate uri).l2EpUri = m.l2EpUri := rfl

@[simp]
theorem dispatchNotifications_sess_map (m : SpanManager) :
    (dispatchNotifications m).sess_map = m.sess_map := rfl

@[simp]
theorem dispatchNotifications_l2EpUri (m : SpanManager) :
    (dispatchNotifications m).l2EpUri = m.l2EpUri := rfl

theorem StLe_refl (a : SessionState) : StLe a a :=
  ⟨rfl, rfl, rfl, fun _ h => h⟩

theorem StLe_trans {a b c : SessionState} (h1 : StLe a b) (h2 : StLe b c) : StLe a c :=
  ⟨h2.1.trans h1.1, h2.2.1.trans h1.2.1, h2.2.2.1.trans h1.2.2.1,
    fun _ h => h2.2.2.2 (h1.2.2.2 h)⟩

theorem Grow_refl (a : List (URI × SessionState)) : Grow a a :=
  ⟨rfl, fun _ st h => ⟨st, h, StLe_refl st⟩⟩

theorem Grow_trans {a b c : List (URI × SessionState)} (h1 : Grow a b) (h2 : Grow b c) :
    Grow a c := by
  refine ⟨h1.1.trans h2.1, fun k st h => ?_⟩
  obtain ⟨st1, hf1, hle1⟩ := h1.2 k st h
  obtain ⟨st2, hf2, hle2⟩ := h2.2 k st1 hf1
  exact ⟨st2, hf2, StLe_trans hle1 hle2⟩

theorem StLe_addSrcEndpoint (s : SessionState) (e : SourceEndpoint) :
    StLe s (s.addSrcEndpoint e) := by
  refine ⟨rfl, rfl, rfl, fun x hx => ?_⟩
  unfold SessionState.addSrcEndpoint
  by_cases h : e ∈ s.srcEndpoints
  · simpa [h] using hx
  · simp [h, hx]

theorem mem_addSrcEndpoint (s : SessionState) (e : SourceEndpoint) :
    e ∈ (s.addSrcEndpoint e).srcEndpoints := by
  unfold SessionState.addSrcEndpoint
  by_cases h : e ∈ s.srcEndpoints
  · simp [h]
  · simp [h]

theorem addSrcEndpoint_of_mem {s : SessionState} {e : SourceEndpoint}
    (h : e ∈ s.srcEndpoints) : s.addSrcEndpoint e = s := by
  unfold SessionState.addSrcEndpoint
  simp [h]

theorem umap_keys_assign {β : Type} {k : URI} {w : β} (v : β) (m : List (URI × β))
    (h : umap_find k m = some w) :
    (umap_assign k v m).map Prod.fst = m.map Prod.fst := by
  induction m with
  | nil => simp [umap_find] at h
  | cons p rest ih =>
    obtain ⟨a, u⟩ := p
    by_cases hak : a = k
    · simp [umap_assign, hak]
    · simp only [umap_find, hak, if_false] at h
      simp [umap_assign, hak, ih h]

/-- Overwriting a tracked state by one that extends it makes the map grow. -/
theorem Grow_assign {k : URI} {st st' : SessionState} (m : List (URI × SessionState))
    (h : umap_find k m = some st) (hle : StLe st st') : Grow m (umap_assign k st' m) := by
  refine ⟨(umap_keys_assign st' m h).symm, fun k' s hs => ?_⟩
  by_cases hk : k' = k
  · subst hk
    rw [h] at hs
    cases hs
    exact ⟨st', umap_find_assign_self _ _ _, hle⟩
  · exact ⟨s, by rw [umap_find_assign_ne _ _ hk]; exact hs, StLe_refl s⟩

theorem addEndpoint_grow {framework : OFFramework} {lEp : LocalEp} {l2Ep : L2Ep} {dir : Nat}
    {m m' : SpanManager} (h : addEndpoint framework lEp l2Ep dir m = some m') :
    Grow m.sess_map m'.sess_map := by
  unfold addEndpoint at h
  split at h
  · cases h; exact Grow_refl _
  · split at h
    · cases h; exact Grow_refl _
    · dsimp only [markUpdate_sess_map] at h
      split at h
      · cases h; exact Grow_refl _
      · rename_i sesSt hfind
        simp only [Option.bind_eq_bind, Option.bind_eq_some, Option.pure_def,
          Option.some.injEq] at h
        obtain ⟨name, _, port, _, rfl⟩ := h
        exact Grow_assign _ hfind (StLe_addSrcEndpoint _ _)

theorem processLocalEp_grow {framework : OFFramework} {uri : URI} {dir : Nat}
    {m m' : SpanManager} (h : processLocalEp framework uri dir m = some m') :
    Grow m.sess_map m'.sess_map := by
  unfold processLocalEp at h
  split at h
  · cases h; exact Grow_refl _
  · split at h
    · cases h; exact Grow_refl _
    · split at h
      · cases h; exact Grow_refl _
      · split at h
        · exact addEndpoint_grow h
        · cases h; exact Grow_refl _

theorem addGroupEps_le {dir : Nat} (l2EpVec : List L2Ep) {s s' : SessionState}
    (h : addGroupEps dir l2EpVec s = some s') : StLe s s' := by
  refine foldlM_rel StLe StLe_refl (fun _ _ _ h1 h2 => StLe_trans h1 h2) _ ?_ l2EpVec s s' h
  intro st ep st' hstep
  simp only [Option.bind_eq_bind, Option.bind_eq_some, Option.pure_def,
    Option.some.injEq] at hstep
  obtain ⟨port, _, rfl⟩ := hstep
  exact StLe_addSrcEndpoint _ _

theorem processEpGroupRef_grow {dir : Nat} {l2EpVec : List L2Ep} {m m' : SpanManager}
    {sesRsrc : EpGroupToSpanSessionRSrc}
    (h : processEpGroupRef dir l2EpVec m sesRsrc = some m') :
    Grow m.sess_map m'.sess_map := by
  unfold processEpGroupRef at h
  simp only [Option.bind_eq_bind, Option.bind_eq_some] at h
  obtain ⟨target, _, h⟩ := h
  split at h
  · simp only [Option.pure_def, Option.some.injEq] at h
    subst h; exact Grow_refl _
  · rename_i seSt hfind
    simp only [Option.bind_eq_some, Option.pure_def, Option.some.injEq] at h
    obtain ⟨seSt', hadd, rfl⟩ := h
    exact Grow_assign _ hfind (addGroupEps_le _ hadd)

theorem processEpGroup_grow {framework : OFFramework} {uri : URI} {dir : Nat}
    {m m' : SpanManager} (h : processEpGroup framework uri dir m = some m') :
    Grow m.sess_map m'.sess_map := by
  unfold processEpGroup at h
  simp only [Option.bind_eq_bind, Option.bind_eq_some] at h
  obtain ⟨out, _, l2EpVec, _, h⟩ := h
  split at h
  · simp only [Option.pure_def, Option.some.injEq] at h
    subst h; exact Grow_refl _
  · split at h
    · simp only [Option.pure_def, Option.some.injEq] at h
      subst h; exact Grow_refl _
    · exact foldlM_rel (fun a b : SpanManager => Grow a.sess_map b.sess_map)
        (fun _ => Grow_refl _) (fun _ _ _ h1 h2 => Grow_trans h1 h2) _
        (fun _ _ _ hs => processEpGroupRef_grow hs) _ _ _ h

theorem processSrcMember_grow {framework : OFFramework} {m m' : SpanManager}
    {srcMem : SrcMember} (h : processSrcMember framework m srcMem = some m') :
    Grow m.sess_map m'.sess_map := by
  unfold processSrcMember at h
  split at h
  · cases h; exact Grow_refl _
  · split at h
    · cases h; exact Grow_refl _
    · split at h
      · split at h
        · cases h; exact Grow_refl _
        · split at h
          · cases h; exact Grow_refl _
          · exact processEpGroup_grow h
      · split at h
        · split at h
          · cases h; exact Grow_refl _
          · split at h
            · cases h; exact Grow_refl _
            · exact processLocalEp_grow h
        · cases h; exact Grow_refl _

theorem processSrcGrp_grow {framework : OFFramework} {m m' : SpanManager}
    {srcGrp : SrcGrp} (h : processSrcGrp framework m srcGrp = some m') :
    Grow m.sess_map m'.sess_map :=
  foldlM_rel (fun a b : SpanManager => Grow a.sess_map b.sess_map)
    (fun _ => Grow_refl _) (fun _ _ _ h1 h2 => Grow_trans h1 h2) _
    (fun _ _ _ hs => processSrcMember_grow hs) _ _ _ h

theorem processDstMember_le {from_string : String → Option address} {s s' : SessionState}
    {dstMem : DstMember} (h : processDstMember from_string s dstMem = some s') :
    StLe s s' := by
  unfold processDstMember at h
  split at h
  · cases h; exact StLe_refl _
  · split at h
    · cases h; exact StLe_refl _
    · simp only [Option.bind_eq_bind, Option.bind_eq_some] at h
      obtain ⟨ip, _, h⟩ := h
      split at h
      · simp only [Option.pure_def, Option.some.injEq] at h
        subst h
        exact ⟨rfl, rfl, rfl, fun _ hx => hx⟩
      · simp only [Option.pure_def, Option.some.injEq] at h
        subst h
        exact ⟨rfl, rfl, rfl, fun _ hx => hx⟩

theorem processDstMember_src {from_string : String → Option address} {s s' : SessionState}
    {dstMem : DstMember} (h : processDstMember from_string s dstMem = some s') :
    s'.srcEndpoints = s.srcEndpoints := by
  unfold processDstMember at h
  split at h
  · cases h; rfl
  · split at h
    · cases h; rfl
    · simp only [Option.bind_eq_bind, Option.bind_eq_some] at h
      obtain ⟨ip, _, h⟩ := h
      split at h
      · simp only [Option.pure_def, Option.some.injEq] at h
        subst h; rfl
      · simp only [Option.pure_def, Option.some.injEq] at h
        subst h; rfl

theorem processDstGrp_grow {from_string : String → Option address} {sessUri : URI}
    {m m' : SpanManager} {dstGrp : DstGrp}
    (h : processDstGrp from_string sessUri m dstGrp = some m') :
    Grow m.sess_map m'.sess_map := by
  unfold processDstGrp at h
  split at h
  · cases h; exact Grow_refl _
  · rename_i seSt hfind
    simp only [Option.bind_eq_bind, Option.bind_eq_some, Option.pure_def,
      Option.some.injEq] at h
    obtain ⟨seSt', hfold, rfl⟩ := h
    exact Grow_assign _ hfind
      (foldlM_rel StLe StLe_refl (fun _ _ _ h1 h2 => StLe_trans h1 h2) _
        (fun _ _ _ hs => processDstMember_le hs) _ _ _ hfold)

/-! ## Source endpoints taken from a group reference -/

theorem HasSrc_grow {a b : List (URI × SessionState)} {k : URI} {e : SourceEndpoint}
    (h : HasSrc a k e) (hg : Grow a b) : HasSrc b k e := by
  obtain ⟨st, hf, he⟩ := h
  obtain ⟨st', hf', hle⟩ := hg.2 k st hf
  exact ⟨st', hf', hle.2.2.2 he⟩

theorem Tracked_grow {a b : List (URI × SessionState)} {k : URI}
    (h : Tracked a k) (hg : Grow a b) : Tracked b k := by
  obtain ⟨st, hf⟩ := h
  obtain ⟨st', hf', _⟩ := hg.2 k st hf
  exact ⟨st', hf'⟩

theorem collectL2Eps_mem {uri : URI} {ep : L2Ep} :
    ∀ (out l2EpVec : List L2Ep), collectL2Eps uri out = some l2EpVec →
      ep ∈ out → ep.group = some uri → ep ∈ l2EpVec := by
  intro out
  induction out with
  | nil => intro _ _ hm; simp at hm
  | cons x rest ih =>
    intro vec h hm hg
    simp only [collectL2Eps, Option.bind_eq_bind, Option.bind_eq_some, Option.pure_def,
      Option.some.injEq] at h
    obtain ⟨egUri, hx, vec', hrest, rfl⟩ := h
    rcases List.mem_cons.mp hm with rfl | hm
    · rw [hg] at hx
      cases hx
      simp
    · have := ih vec' hrest hm hg
      split
      · exact List.mem_cons_of_mem _ this
      · exact this

/-- Adding the endpoints of a group to a state reads the interface name of each of
them and leaves each of them in the set. -/
theorem addGroupEps_mem {dir : Nat} {ep : L2Ep} (l2EpVec : List L2Ep) (hep : ep ∈ l2EpVec)
    {s s' : SessionState} (h : addGroupEps dir l2EpVec s = some s') :
    ∃ port, ep.interfaceName = some port ∧
      ({ name := ep.uri, port := port, dir := dir } : SourceEndpoint) ∈ s'.srcEndpoints := by
  refine foldlM_establish (fun _ => True)
    (fun st : SessionState => ∃ port, ep.interfaceName = some port ∧
      ({ name := ep.uri, port := port, dir := dir } : SourceEndpoint) ∈ st.srcEndpoints)
    _ (fun _ _ _ _ _ => trivial) ?_ ep ?_ l2EpVec hep s s' trivial h
  · intro st x st' hp hstep
    simp only [Option.bind_eq_bind, Option.bind_eq_some, Option.pure_def,
      Option.some.injEq] at hstep
    obtain ⟨port', _, rfl⟩ := hstep
    obtain ⟨port, hport, hmem⟩ := hp
    exact ⟨port, hport, (StLe_addSrcEndpoint _ _).2.2.2 hmem⟩
  · intro st st' _ hstep
    simp only [Option.bind_eq_bind, Option.bind_eq_some, Option.pure_def,
      Option.some.injEq] at hstep
    obtain ⟨port, hport, rfl⟩ := hstep
    exact ⟨port, hport, mem_addSrcEndpoint _ _⟩

/-- When the group resolves and refers back to a tracked session, `processEpGroup`
leaves every forwarding endpoint of the group in the source set of that session. -/
theorem processEpGroup_adds {framework : OFFramework} {G S : URI} {dir : Nat}
    {grp : EpGroup} {ep : L2Ep} {m m' : SpanManager}
    (hgrp : EpGroup.resolve framework G = some grp)
    (hback : ({ targetURI := some S } : EpGroupToSpanSessionRSrc) ∈ grp.spanSessionRSrc)
    (hep : ep ∈ framework.l2Eps) (hepg : ep.group = some G)
    (htr : Tracked m.sess_map S)
    (h : processEpGroup framework G dir m = some m') :
    ∃ port, ep.interfaceName = some port ∧
      HasSrc m'.sess_map S { name := ep.uri, port := port, dir := dir } := by
  unfold processEpGroup at h
  simp only [Option.bind_eq_bind, Option.bind_eq_some] at h
  obtain ⟨out, hout, l2EpVec, hvec, h⟩ := h
  have hout' : out = framework.l2Eps := by
    unfold L2Universe.resolve at hout
    split at hout
    · cases hout; rfl
    · cases hout
  subst hout'
  have hmem : ep ∈ l2EpVec := collectL2Eps_mem _ _ hvec hep hepg
  rw [hgrp] at h
  have hne : ¬ l2EpVec = [] := fun hnil => by rw [hnil] at hmem; simp at hmem
  simp only [hne, if_false] at h
  refine foldlM_establish (fun a : SpanManager => Tracked a.sess_map S)
    (fun a : SpanManager => ∃ port, ep.interfaceName = some port ∧
      HasSrc a.sess_map S { name := ep.uri, port := port, dir := dir })
    _ ?_ ?_ _ ?_ _ hback m m' htr h
  · intro a x b ha hstep
    exact Tracked_grow ha (processEpGroupRef_grow hstep)
  · intro a x b hp hstep
    obtain ⟨port, hport, hs⟩ := hp
    exact ⟨port, hport, HasSrc_grow hs (processEpGroupRef_grow hstep)⟩
  · intro a b ha hstep
    obtain ⟨st, hst⟩ := ha
    unfold processEpGroupRef at hstep
    simp only [Option.bind_eq_bind, Option.some_bind, hst, Option.bind_eq_some,
      Option.pure_def, Option.some.injEq] at hstep
    obtain ⟨st', hadd, rfl⟩ := hstep
    obtain ⟨port, hport, hin⟩ := addGroupEps_mem l2EpVec hmem hadd
    exact ⟨port, hport, st', by simp [umap_find_assign_self], hin⟩

theorem Session_resolve_uri {framework : OFFramework} {uri : URI} {sess : Session}
    (h : Session.resolve framework uri = some sess) : sess.uri = uri := by
  unfold Session.resolve at h
  simpa using List.find?_some h

theorem L2Ep_resolve_uri {framework : OFFramework} {uri : URI} {l2Ep : L2Ep}
    (h : L2Ep.resolve framework uri = some l2Ep) : l2Ep.uri = uri := by
  unfold L2Ep.resolve at h
  simpa using List.find?_some h

theorem LocalEp_resolve_uri {framework : OFFramework} {uri : URI} {lEp : LocalEp}
    (h : LocalEp.resolve framework uri = some lEp) : lEp.uri = uri := by
  unfold LocalEp.resolve at h
  simpa using List.find?_some h

/-- The part of `processSession` after the fresh state is stored only makes the map grow. -/
theorem processSession_body_grow {from_string : String → Option address}
    {framework : OFFramework} {sess : Session} {m0 m1 m2 : SpanManager}
    (h1 : sess.srcGrps.foldlM (processSrcGrp framework) m0 = some m1)
    (h2 : sess.dstGrps.foldlM (processDstGrp from_string sess.uri) m1 = some m2) :
    Grow m0.sess_map m2.sess_map :=
  Grow_trans
    (foldlM_rel (fun a b : SpanManager => Grow a.sess_map b.sess_map)
      (fun _ => Grow_refl _) (fun _ _ _ h1 h2 => Grow_trans h1 h2) _
      (fun _ _ _ hs => processSrcGrp_grow hs) _ _ _ h1)
    (foldlM_rel (fun a b : SpanManager => Grow a.sess_map b.sess_map)
      (fun _ => Grow_refl _) (fun _ _ _ h1 h2 => Grow_trans h1 h2) _
      (fun _ _ _ hs => processDstGrp_grow hs) _ _ _ h2)

/-- The three steps of `processSession`: the name is read, the fresh state is stored,
the source groups and then the destination groups are processed. -/
theorem processSession_some {from_string : String → Option address}
    {framework : OFFramework} {sess : Session} {m m' : SpanManager}
    (h : processSession from_string framework sess m = some m') :
    ∃ name m1, sess.name = some name ∧
      sess.srcGrps.foldlM (processSrcGrp framework)
        { m with sess_map := umap_assign sess.uri (sessionStateOf sess name) m.sess_map }
        = some m1 ∧
      sess.dstGrps.foldlM (processDstGrp from_string sess.uri) m1 = some m' := by
  unfold processSession at h
  simp only [Option.bind_eq_bind, Option.bind_eq_some] at h
  obtain ⟨name, hname, m1, h1, h2⟩ := h
  exact ⟨name, m1, hname, h1, h2⟩

/-- Processing a session whose source member refers to group `G` with direction `dir`,
where `G` resolves and refers back to the session, leaves every forwarding endpoint
of `G` in the source set of the session. -/
theorem processSession_adds {from_string : String → Option address}
    {framework : OFFramework} {sess : Session} {srcGrp : SrcGrp} {srcMem : SrcMember}
    {G : URI} {dir : Nat} {grp : EpGroup} {ep : L2Ep} {m m' : SpanManager}
    (hgrpIn : srcGrp ∈ sess.srcGrps) (hmemIn : srcMem ∈ srcGrp.srcMembers)
    (href : srcMem.memberToRefRSrc =
      some { targetClass := some class_id_t.EpGroup, targetURI := some G })
    (hdir : srcMem.dir = some dir)
    (hgrp : EpGroup.resolve framework G = some grp)
    (hback : ({ targetURI := some sess.uri } : EpGroupToSpanSessionRSrc) ∈ grp.spanSessionRSrc)
    (hep : ep ∈ framework.l2Eps) (hepg : ep.group = some G)
    (h : processSession from_string framework sess m = some m') :
    ∃ port, ep.interfaceName = some port ∧
      HasSrc m'.sess_map sess.uri { name := ep.uri, port := port, dir := dir } := by
  obtain ⟨name, m1, _, h1, h2⟩ := processSession_some h
  have hP1 : ∃ port, ep.interfaceName = some port ∧
      HasSrc m1.sess_map sess.uri { name := ep.uri, port := port, dir := dir } := by
    refine foldlM_establish (fun a : SpanManager => Tracked a.sess_map sess.uri)
      (fun a : SpanManager => ∃ port, ep.interfaceName = some port ∧
        HasSrc a.sess_map sess.uri { name := ep.uri, port := port, dir := dir })
      _ ?_ ?_ _ ?_ _ hgrpIn _ m1 ⟨_, umap_find_assign_self _ _ _⟩ h1
    · intro a x b ha hstep
      exact Tracked_grow ha (processSrcGrp_grow hstep)
    · intro a x b hp hstep
      obtain ⟨port, hport, hs⟩ := hp
      exact ⟨port, hport, HasSrc_grow hs (processSrcGrp_grow hstep)⟩
    · intro a b ha hstep
      refine foldlM_establish (fun a : SpanManager => Tracked a.sess_map sess.uri)
        (fun a : SpanManager => ∃ port, ep.interfaceName = some port ∧
          HasSrc a.sess_map sess.uri { name := ep.uri, port := port, dir := dir })
        _ ?_ ?_ _ ?_ _ hmemIn a b ha hstep
      · intro a x b ha hstep
        exact Tracked_grow ha (processSrcMember_grow hstep)
      · intro a x b hp hstep
        obtain ⟨port, hport, hs⟩ := hp
        exact ⟨port, hport, HasSrc_grow hs (processSrcMember_grow hstep)⟩
      · intro a b ha hstep
        unfold processSrcMember at hstep
        simp only [href, hdir, if_true] at hstep
        exact processEpGroup_adds hgrp hback hep hepg ha hstep
  obtain ⟨port, hport, hs⟩ := hP1
  refine ⟨port, hport, HasSrc_grow hs ?_⟩
  exact foldlM_rel (fun a b : SpanManager => Grow a.sess_map b.sess_map)
    (fun _ => Grow_refl _) (fun _ _ _ h1 h2 => Grow_trans h1 h2) _
    (fun _ _ _ hs => processDstGrp_grow hs) _ _ _ h2

/-- What `objectUpdated` does on a `Session` event for an identity that resolves. -/
theorem objectUpdated_session_some {from_string : String → Option address}
    {framework : OFFramework} {uri : URI} {sess : Session} {m m' : SpanManager}
    (hsess : Session.resolve framework uri = some sess)
    (h : objectUpdated from_string framework class_id_t.Session uri m = some m') :
    ∃ m1, processSession from_string framework sess m = some m1 ∧
      m' = dispatchNotifications (m1.markUpdate uri) := by
  unfold objectUpdated processEvent at h
  simp only [hsess, Option.map_eq_some', Option.bind_eq_bind, Option.bind_eq_some,
    Option.pure_def, Option.some.injEq, reduceCtorEq, if_false, if_true] at h
  obtain ⟨a, ⟨m1, h1, rfl⟩, rfl⟩ := h
  exact ⟨m1, h1, rfl⟩

/-! ## Claims -/

/-- C1 (as amended): when session `S` resolves and has a source member whose reference
targets endpoint group `G` with direction `d`, and `G` resolves in the store and
carries a group-to-session reference targeting `S`, then after a `Session` change
event for `S` has been processed the tracked source-endpoint set of `S` contains,
for every forwarding endpoint currently in `G`, the source endpoint made of that
endpoint's identity string, its interface name and `d`. -/
theorem C1_session_event_adds_group_endpoints
    (from_string : String → Option address) (framework : OFFramework) (S G : URI) (d : Nat)
    (sess : Session) (srcGrp : SrcGrp) (srcMem : SrcMember) (grp : EpGroup)
    (m m' : SpanManager)
    (hsess : Session.resolve framework S = some sess)
    (hgrpIn : srcGrp ∈ sess.srcGrps) (hmemIn : srcMem ∈ srcGrp.srcMembers)
    (href : srcMem.memberToRefRSrc =
      some { targetClass := some class_id_t.EpGroup, targetURI := some G })
    (hdir : srcMem.dir = some d)
    (hgrp : EpGroup.resolve framework G = some grp)
    (hback : ({ targetURI := some S } : EpGroupToSpanSessionRSrc) ∈ grp.spanSessionRSrc)
    (hrun : objectUpdated from_string framework class_id_t.Session S m = some m') :
    ∀ ep ∈ framework.l2Eps, ep.group = some G →
      ∃ st port, getSessionState m' S = some st ∧ ep.interfaceName = some port ∧
        ({ name := ep.uri, port := port, dir := d } : SourceEndpoint) ∈ st.srcEndpoints := by
  intro ep hep hepg
  obtain ⟨m1, h1, rfl⟩ := objectUpdated_session_some hsess hrun
  have huri := Session_resolve_uri hsess
  subst huri
  obtain ⟨port, hport, st, hst, hin⟩ :=
    processSession_adds hgrpIn hmemIn href hdir hgrp hback hep hepg h1
  exact ⟨st, port, hst, hport, hin⟩

/-- C1, Scenario 1: with the back reference in place the `Session` event for "sess1"
completes and "ep-a" on "eth0" with direction IN is a source of "sess1". -/
theorem C1_session_event_adds_group_endpoints_witness :
    objectUpdated some scenario1Store class_id_t.Session sess1Uri SpanManager.init
        = some scenario1Result ∧
      ∀ ep ∈ scenario1Store.l2Eps, ep.group = some epg1Uri →
        ∃ st port, getSessionState scenario1Result sess1Uri = some st ∧
          ep.interfaceName = some port ∧
          ({ name := ep.uri, port := port, dir := 1 } : SourceEndpoint) ∈ st.srcEndpoints :=
  ⟨by decide,
   C1_session_event_adds_group_endpoints some scenario1Store sess1Uri epg1Uri 1 sess1
     { srcMembers := [sess1Member] } sess1Member
     { uri := epg1Uri, spanSessionRSrc := [{ targetURI := some sess1Uri }] }
     SpanManager.init scenario1Result
     (by decide) (by decide) (by decide) (by decide) (by decide) (by decide) (by decide)
     (by decide)⟩

/-- C1 fails as stated: "sess1" has a source member referring to "epg1" with direction
IN and "ep-a" is a forwarding endpoint in "epg1", but "epg1" carries no reference back
to the session, and after the `Session` event the source set of "sess1" is empty. -/
theorem C1_counterexample :
    Session.resolve scenario1StoreNoBackRef sess1Uri = some sess1 ∧
      sess1Member ∈ (sess1.srcGrps.flatMap fun g => g.srcMembers) ∧
      epA ∈ scenario1StoreNoBackRef.l2Eps ∧ epA.group = some epg1Uri ∧
      ((objectUpdated some scenario1StoreNoBackRef class_id_t.Session sess1Uri
          SpanManager.init).bind fun m => getSessionState m sess1Uri).map
        (fun st => st.srcEndpoints) = some [] := by
  decide

/-- C2: when local endpoint `L` resolves under `uri` and its forwarding-target
reference names an identity `F` that does not resolve, `processLocalEp` (with any
direction) completes, leaves the session map as it was, so no source endpoint is
added to any tracked session, and leaves the deferred-resolution index with an entry
keyed by `F`, which maps `F` to `L` when `F` was not a key before. -/
theorem C2_processLocalEp_defers_unresolved_target
    (framework : OFFramework) (uri F : URI) (dir : Nat) (L : LocalEp) (m : SpanManager)
    (hL : LocalEp.resolve framework uri = some L)
    (hF : L.localEpToEpRSrc = some { targetURI := some F })
    (hun : L2Ep.resolve framework F = none) :
    ∃ m', processLocalEp framework uri dir m = some m' ∧
      m'.sess_map = m.sess_map ∧
      (∃ L', umap_find F m'.l2EpUri = some L') ∧
      (umap_find F m.l2EpUri = none → umap_find F m'.l2EpUri = some L) := by
  refine ⟨{ m with l2EpUri := umap_emplace F L m.l2EpUri }, ?_, rfl, ?_, ?_⟩
  · unfold processLocalEp
    simp only [hL, hF, hun]
  · exact ⟨_, umap_find_emplace_self F L m.l2EpUri⟩
  · intro hnone
    simp [umap_find_emplace_self, hnone]

/-- C2, Scenario 2: "lep1" refers to "fep1", which does not exist yet; nothing is added
to "sess1" and "fep1" is recorded in the deferred index for "lep1". -/
theorem C2_processLocalEp_defers_unresolved_target_witness :
    LocalEp.resolve scenario2Store lep1Uri = some lep1 ∧
      L2Ep.resolve scenario2Store fep1Uri = none ∧
      ∃ m', processLocalEp scenario2Store lep1Uri 1
          { scenario2Deferred with l2EpUri := [] } = some m' ∧
        m'.sess_map = scenario2Deferred.sess_map ∧
        (∃ L', umap_find fep1Uri m'.l2EpUri = some L') ∧
        (umap_find fep1Uri ([] : List (URI × LocalEp)) = none →
          umap_find fep1Uri m'.l2EpUri = some lep1) :=
  ⟨by decide, by decide,
   C2_processLocalEp_defers_unresolved_target scenario2Store lep1Uri fep1Uri 1 lep1
     { scenario2Deferred with l2EpUri := [] } (by decide) (by decide) (by decide)⟩

theorem findSrcMem_resolves {framework : OFFramework} {sessUri uri : URI} {srcMem : SrcMember}
    (h : findSrcMem framework sessUri uri = some srcMem) :
    ∃ sess, Session.resolve framework sessUri = some sess := by
  unfold findSrcMem at h
  split at h
  · cases h
  · exact ⟨_, by assumption⟩

theorem mem_uset_insert {α : Type} [DecidableEq α] (x : α) (s : List α) :
    x ∈ uset_insert x s := by
  unfold uset_insert
  by_cases h : x ∈ s
  · simp [h]
  · simp [h]

theorem mem_uset_insert_of_mem {α : Type} [DecidableEq α] {y : α} (x : α) {s : List α}
    (h : y ∈ s) : y ∈ uset_insert x s := by
  unfold uset_insert
  by_cases hx : x ∈ s
  · simp [hx, h]
  · simp [hx, h]

/-- Every identity marked for an update notification is dispatched under its own string. -/
theorem dispatched_of_notifyUpdate {m : SpanManager} {uri : URI} (h : uri ∈ m.notifyUpdate) :
    (updateKey uri, Task.spanUpdated uri) ∈ (dispatchNotifications m).dispatched := by
  unfold dispatchNotifications
  simp only [List.mem_append, List.mem_map]
  exact Or.inl (Or.inr ⟨uri, h, rfl⟩)

/-- When the enclosing session of a local endpoint resolves and is tracked, and both
names are present, `addEndpoint` adds the source endpoint and marks the session. -/
theorem addEndpoint_adds {framework : OFFramework} {L : LocalEp} {F : L2Ep} (dir : Nat)
    {S : URI} {st : SessionState} {srcMem : SrcMember} {n i : String} {m : SpanManager}
    (hS : getSession L = some S)
    (htr : getSessionState m S = some st)
    (hmem : findSrcMem framework S L.uri = some srcMem)
    (hname : L.name = some n) (hport : F.interfaceName = some i) :
    ∃ mA, addEndpoint framework L F dir m = some mA ∧
      HasSrc mA.sess_map S { name := n, port := i, dir := dir } ∧
      S ∈ mA.notifyUpdate ∧ mA.l2EpUri = m.l2EpUri := by
  obtain ⟨sess, hsess⟩ := findSrcMem_resolves hmem
  have hsu := Session_resolve_uri hsess
  unfold getSessionState at htr
  refine ⟨({ (m.markUpdate S) with
      sess_map := umap_assign S (st.addSrcEndpoint { name := n, port := i, dir := dir })
        m.sess_map } : SpanManager).markUpdate S, ?_, ?_, ?_, rfl⟩
  · unfold addEndpoint
    simp only [hS, hsess, hsu, markUpdate_sess_map, htr, hname, hport, Option.bind_eq_bind,
      Option.some_bind, Option.pure_def]
  · exact ⟨st.addSrcEndpoint { name := n, port := i, dir := dir },
      by simp [umap_find_assign_self], mem_addSrcEndpoint _ _⟩
  · simp only [SpanManager.markUpdate]
    exact mem_uset_insert _ _

/-- C3 (as amended): forwarding endpoint `F` resolves and has a deferred-index entry for
local endpoint `L`, the enclosing session `S` of `L` is tracked, and the source member
that `findSrcMem` selects in `S` for `L` has direction `d`. Then processing the
`ForwardingEndpoint` change event for `F` completes, the source set of `S` contains
(name of `L`, interface name of `F`, `d`), the deferred index has no entry for `F`
any more, and an update notification for `S` has been dispatched. -/
theorem C3_forwarding_endpoint_event_replays_deferred
    (from_string : String → Option address) (framework : OFFramework) (uriF S : URI)
    (F : L2Ep) (L : LocalEp) (st : SessionState) (srcMem : SrcMember) (d : Nat)
    (n i : String) (m : SpanManager)
    (hF : L2Ep.resolve framework uriF = some F)
    (hentry : umap_find uriF m.l2EpUri = some L)
    (hS : getSession L = some S)
    (htr : getSessionState m S = some st)
    (hmem : findSrcMem framework S L.uri = some srcMem)
    (hdir : srcMem.dir = some d)
    (hname : L.name = some n) (hport : F.interfaceName = some i) :
    ∃ m', objectUpdated from_string framework class_id_t.L2Ep uriF m = some m' ∧
      HasSrc m'.sess_map S { name := n, port := i, dir := d } ∧
      umap_find uriF m'.l2EpUri = none ∧
      (updateKey S, Task.spanUpdated S) ∈ m'.dispatched := by
  have hfu := L2Ep_resolve_uri hF
  subst hfu
  obtain ⟨mA, hadd, hsrc, hnot, _⟩ := addEndpoint_adds d hS htr hmem hname hport
  refine ⟨dispatchNotifications { mA with l2EpUri := umap_erase F.uri mA.l2EpUri },
    ?_, hsrc, ?_, ?_⟩
  · unfold getSessionState at htr
    unfold objectUpdated processEvent processL2Ep
    simp only [hF, hentry, hS, htr, hmem, hdir, hadd, Option.bind_eq_bind, Option.some_bind,
      Option.pure_def, Option.map_some', reduceCtorEq, if_false, if_true]
  · simp [umap_find_erase_self]
  · exact dispatched_of_notifyUpdate hnot

/-- C3, Scenario 2: once "fep1" exists its event replays the deferred entry of "lep1". -/
theorem C3_forwarding_endpoint_event_replays_deferred_witness :
    objectUpdated some scenario2Store class_id_t.Session sess1Uri SpanManager.init
        = some scenario2Deferred ∧
      ∃ m', objectUpdated some (scenario2StoreWith [lep1Member 1]) class_id_t.L2Ep fep1Uri
          scenario2Deferred = some m' ∧
        HasSrc m'.sess_map sess1Uri { name := "lep1", port := "eth1", dir := 1 } ∧
        umap_find fep1Uri m'.l2EpUri = none ∧
        (updateKey sess1Uri, Task.spanUpdated sess1Uri) ∈ m'.dispatched :=
  ⟨by decide,
   C3_forwarding_endpoint_event_replays_deferred some (scenario2StoreWith [lep1Member 1])
     fep1Uri sess1Uri fep1 lep1
     { uri := sess1Uri, name := "sess1", adminState := 1, destination := none,
       version := none, srcEndpoints := [] }
     (lep1Member 1) 1 "lep1" "eth1" scenario2Deferred
     (by decide) (by decide) (by decide) (by decide) (by decide) (by decide) (by decide)
     (by decide)⟩

/-- C3 fails as stated: "sess1" has two source members referring to "lep1", with
directions 1 and 2, and its `Session` event has deferred "fep1". The member with
direction 2 is a source member referencing "lep1", yet the event for "fep1" adds the
endpoint with direction 1 only. -/
theorem C3_counterexample :
    objectUpdated some { scenario2StoreWith [lep1Member 1, lep1Member 2] with l2Eps := [] }
        class_id_t.Session sess1Uri SpanManager.init = some scenario2Deferred ∧
      L2Ep.resolve (scenario2StoreWith [lep1Member 1, lep1Member 2]) fep1Uri = some fep1 ∧
      umap_find fep1Uri scenario2Deferred.l2EpUri = some lep1 ∧
      getSession lep1 = some sess1Uri ∧
      (getSessionState scenario2Deferred sess1Uri).isSome = true ∧
      lep1Member 2 ∈ ((scenario2StoreWith [lep1Member 1, lep1Member 2]).sessions.flatMap
        fun s => s.srcGrps.flatMap fun g => g.srcMembers) ∧
      ((objectUpdated some (scenario2StoreWith [lep1Member 1, lep1Member 2])
          class_id_t.L2Ep fep1Uri scenario2Deferred).bind
            fun m => getSessionState m sess1Uri).map (fun st => st.srcEndpoints)
        = some [{ name := "lep1", port := "eth1", dir := 1 }] := by
  decide

/-! ## What the processing functions leave alone -/

theorem Frame_refl (a : SpanManager) : Frame a a := ⟨rfl, rfl⟩

theorem Frame_trans {a b c : SpanManager} (h1 : Frame a b) (h2 : Frame b c) : Frame a c :=
  ⟨h2.1.trans h1.1, h2.2.trans h1.2⟩

theorem foldlM_frame {α : Type} (f : SpanManager → α → Option SpanManager)
    (hstep : ∀ s x s', f s x = some s' → Frame s s')
    (xs : List α) (s s' : SpanManager) (h : xs.foldlM f s = some s') : Frame s s' :=
  foldlM_rel Frame Frame_refl (fun _ _ _ h1 h2 => Frame_trans h1 h2) f hstep xs s s' h

theorem addEndpoint_frame {framework : OFFramework} {lEp : LocalEp} {l2Ep : L2Ep} {dir : Nat}
    {m m' : SpanManager} (h : addEndpoint framework lEp l2Ep dir m = some m') :
    Frame m m' := by
  unfold addEndpoint at h
  split at h
  · cases h; exact Frame_refl _
  · split at h
    · cases h; exact ⟨rfl, rfl⟩
    · dsimp only [markUpdate_sess_map] at h
      split at h
      · cases h; exact ⟨rfl, rfl⟩
      · simp only [Option.bind_eq_bind, Option.bind_eq_some, Option.pure_def,
          Option.some.injEq] at h
        obtain ⟨name, _, port, _, rfl⟩ := h
        exact ⟨rfl, rfl⟩

theorem processLocalEp_frame {framework : OFFramework} {uri : URI} {dir : Nat}
    {m m' : SpanManager} (h : processLocalEp framework uri dir m = some m') :
    Frame m m' := by
  unfold processLocalEp at h
  split at h
  · cases h; exact Frame_refl _
  · split at h
    · cases h; exact Frame_refl _
    · split at h
      · cases h; exact Frame_refl _
      · split at h
        · exact addEndpoint_frame h
        · cases h; exact ⟨rfl, rfl⟩

theorem processEpGroupRef_frame {dir : Nat} {l2EpVec : List L2Ep} {m m' : SpanManager}
    {sesRsrc : EpGroupToSpanSessionRSrc}
    (h : processEpGroupRef dir l2EpVec m sesRsrc = some m') : Frame m m' := by
  unfold processEpGroupRef at h
  simp only [Option.bind_eq_bind, Option.bind_eq_some] at h
  obtain ⟨target, _, h⟩ := h
  split at h
  · simp only [Option.pure_def, Option.some.injEq] at h
    subst h; exact Frame_refl _
  · simp only [Option.bind_eq_some, Option.pure_def, Option.some.injEq] at h
    obtain ⟨seSt', _, rfl⟩ := h
    exact ⟨rfl, rfl⟩

theorem processEpGroup_frame {framework : OFFramework} {uri : URI} {dir : Nat}
    {m m' : SpanManager} (h : processEpGroup framework uri dir m = some m') :
    Frame m m' := by
  unfold processEpGroup at h
  simp only [Option.bind_eq_bind, Option.bind_eq_some] at h
  obtain ⟨out, _, l2EpVec, _, h⟩ := h
  split at h
  · simp only [Option.pure_def, Option.some.injEq] at h
    subst h; exact Frame_refl _
  · split at h
    · simp only [Option.pure_def, Option.some.injEq] at h
      subst h; exact Frame_refl _
    · exact foldlM_frame _ (fun _ _ _ hs => processEpGroupRef_frame hs) _ _ _ h

theorem processSrcMember_frame {framework : OFFramework} {m m' : SpanManager}
    {srcMem : SrcMember} (h : processSrcMember framework m srcMem = some m') :
    Frame m m' := by
  unfold processSrcMember at h
  split at h
  · cases h; exact Frame_refl _
  · split at h
    · cases h; exact Frame_refl _
    · split at h
      · split at h
        · cases h; exact Frame_refl _
        · split at h
          · cases h; exact Frame_refl _
          · exact processEpGroup_frame h
      · split at h
        · split at h
          · cases h; exact Frame_refl _
          · split at h
            · cases h; exact Frame_refl _
            · exact processLocalEp_frame h
        · cases h; exact Frame_refl _

theorem processSrcGrp_frame {framework : OFFramework} {m m' : SpanManager}
    {srcGrp : SrcGrp} (h : processSrcGrp framework m srcGrp = some m') : Frame m m' :=
  foldlM_frame _ (fun _ _ _ hs => processSrcMember_frame hs) _ _ _ h

theorem processDstGrp_frame {from_string : String → Option address} {sessUri : URI}
    {m m' : SpanManager} {dstGrp : DstGrp}
    (h : processDstGrp from_string sessUri m dstGrp = some m') : Frame m m' := by
  unfold processDstGrp at h
  split at h
  · cases h; exact Frame_refl _
  · simp only [Option.bind_eq_bind, Option.bind_eq_some, Option.pure_def,
      Option.some.injEq] at h
    obtain ⟨seSt', _, rfl⟩ := h
    exact ⟨rfl, rfl⟩

theorem processSession_frame {from_string : String → Option address}
    {framework : OFFramework} {sess : Session} {m m' : SpanManager}
    (h : processSession from_string framework sess m = some m') : Frame m m' := by
  obtain ⟨name, m1, _, h1, h2⟩ := processSession_some h
  have f1 := foldlM_frame _ (fun _ _ _ hs => processSrcGrp_frame hs) _ _ _ h1
  have f2 := foldlM_frame _ (fun _ _ _ hs => processDstGrp_frame hs) _ _ _ h2
  exact ⟨(Frame_trans f1 f2).1, (Frame_trans f1 f2).2⟩

theorem processL2EpRef_frame {framework : OFFramework} {l2Ep : L2Ep} {egUri : URI}
    {m m' : SpanManager} {sesRsrc : EpGroupToSpanSessionRSrc}
    (h : processL2EpRef framework l2Ep egUri m sesRsrc = some m') : Frame m m' := by
  unfold processL2EpRef at h
  simp only [Option.bind_eq_bind, Option.bind_eq_some] at h
  obtain ⟨target, _, h⟩ := h
  split at h
  · simp only [Option.pure_def, Option.some.injEq] at h
    subst h; exact Frame_refl _
  · split at h
    · simp only [Option.pure_def, Option.some.injEq] at h
      subst h; exact Frame_refl _
    · split at h
      · simp only [Option.pure_def, Option.some.injEq] at h
        subst h; exact Frame_refl _
      · simp only [Option.bind_eq_some, Option.pure_def, Option.some.injEq] at h
        obtain ⟨port, _, rfl⟩ := h
        exact ⟨rfl, rfl⟩

theorem processL2Ep_frame {framework : OFFramework} {l2Ep : L2Ep} {m m' : SpanManager}
    (h : processL2Ep framework l2Ep m = some m') : Frame m m' := by
  unfold processL2Ep at h
  split at h
  · split at h
    · cases h; exact Frame_refl _
    · split at h
      · cases h; exact Frame_refl _
      · split at h
        · cases h; exact Frame_refl _
        · split at h
          · cases h; exact Frame_refl _
          · simp only [Option.bind_eq_bind, Option.bind_eq_some, Option.pure_def,
              Option.some.injEq] at h
            obtain ⟨mA, hadd, rfl⟩ := h
            exact ⟨(addEndpoint_frame hadd).1, (addEndpoint_frame hadd).2⟩
  · split at h
    · cases h; exact Frame_refl _
    · split at h
      · cases h; exact Frame_refl _
      · exact foldlM_frame _ (fun _ _ _ hs => processL2EpRef_frame hs) _ _ _ h

theorem processUniverseSession_frame {from_string : String → Option address}
    {framework : OFFramework} {m m' : SpanManager} {sess : Session}
    (h : processUniverseSession from_string framework m sess = some m') : Frame m m' := by
  unfold processUniverseSession at h
  simp only [Option.bind_eq_bind, Option.bind_eq_some, Option.pure_def,
    Option.some.injEq] at h
  obtain ⟨m1, h1, rfl⟩ := h
  split at h1
  · exact ⟨(processSession_frame h1).1, (processSession_frame h1).2⟩
  · cases h1; exact ⟨rfl, rfl⟩

/-- The branches of `objectUpdated` dispatch nothing themselves. -/
theorem processEvent_dispatched {from_string : String → Option address}
    {framework : OFFramework} {classId : class_id_t} {uri : URI} {m m' : SpanManager}
    (h : processEvent from_string framework classId uri m = some m') :
    m'.dispatched = m.dispatched := by
  unfold processEvent at h
  split at h
  · split at h
    · cases h; rfl
    · exact (foldlM_frame _ (fun _ _ _ hs => processUniverseSession_frame hs) _ _ _ h).1
  · split at h
    · split at h
      · cases h; rfl
      · split at h
        · cases h; rfl
        · split at h
          · cases h; rfl
          · split at h
            · cases h; rfl
            · exact (processLocalEp_frame h).1
    · split at h
      · split at h
        · cases h; rfl
        · exact (processL2Ep_frame h).1
      · split at h
        · split at h
          · simp only [Option.bind_eq_bind, Option.bind_eq_some, Option.pure_def,
              Option.some.injEq] at h
            obtain ⟨m1, h1, rfl⟩ := h
            exact (processSession_frame h1).1
          · split at h
            · cases h; rfl
            · cases h; rfl
        · cases h; rfl

/-- C4 (as amended): every task that `objectUpdated` submits is appended to the queue
with a key determined by its kind: an update-notification task for identity `u` is
queued under the string of `u`, a delete-notification task under the name of the
deleted session. The key of the delete task of a session therefore equals the key of
its update tasks exactly when the session name equals the identity string. -/
theorem C4_notification_task_keys
    (from_string : String → Option address) (framework : OFFramework) (classId : class_id_t)
    (uri : URI) (m m' : SpanManager)
    (h : objectUpdated from_string framework classId uri m = some m') :
    (∃ tasks, m'.dispatched = m.dispatched ++ tasks ∧
      ∀ p ∈ tasks, (∀ u, p.2 = Task.spanUpdated u → p.1 = u) ∧
        (∀ seSt, p.2 = Task.spanDeleted seSt → p.1 = seSt.name)) ∧
    ∀ (S : URI) (seSt : SessionState), deleteKey seSt = updateKey S ↔ seSt.name = S := by
  refine ⟨?_, fun _ _ => Iff.rfl⟩
  unfold objectUpdated at h
  simp only [Option.map_eq_some'] at h
  obtain ⟨m1, h1, rfl⟩ := h
  have hd := processEvent_dispatched h1
  refine ⟨m1.notifyUpdate.map (fun u => (updateKey u, Task.spanUpdated u))
    ++ m1.notifyDelete.map (fun s => (deleteKey s, Task.spanDeleted s)), ?_, ?_⟩
  · simp [dispatchNotifications, hd]
  · intro p hp
    simp only [List.mem_append, List.mem_map] at hp
    rcases hp with ⟨u, _, rfl⟩ | ⟨s, _, rfl⟩
    · exact ⟨fun u' hu => (by cases hu; rfl), fun s' hs => (by cases hs)⟩
    · exact ⟨fun u' hu => (by cases hu), fun s' hs => (by cases hs; rfl)⟩

/-- C4, Scenario 1: the `Session` event for "sess1" completes, and its one task, the
update notification, is queued under the identity string. -/
theorem C4_notification_task_keys_witness :
    objectUpdated some scenario1Store class_id_t.Session sess1Uri SpanManager.init
        = some scenario1Result ∧
    ((∃ tasks, scenario1Result.dispatched = SpanManager.init.dispatched ++ tasks ∧
      ∀ p ∈ tasks, (∀ u, p.2 = Task.spanUpdated u → p.1 = u) ∧
        (∀ seSt, p.2 = Task.spanDeleted seSt → p.1 = seSt.name)) ∧
    ∀ (S : URI) (seSt : SessionState), deleteKey seSt = updateKey S ↔ seSt.name = S) :=
  ⟨by decide,
   C4_notification_task_keys some scenario1Store class_id_t.Session sess1Uri
     SpanManager.init scenario1Result (by decide)⟩

/-- C4 fails as stated: the update notification of "sess1" is queued under the key
"/SpanUniverse/SpanSession/sess1/", its delete notification under the key "sess1". -/
theorem C4_counterexample :
    (objectUpdated some scenario1Store class_id_t.Session sess1Uri SpanManager.init).map
        (fun m => m.dispatched)
      = some [("/SpanUniverse/SpanSession/sess1/", Task.spanUpdated sess1Uri)] ∧
    getSessionState scenario1Result sess1Uri = some sess1State ∧
    (objectUpdated some scenario1StoreDeleted class_id_t.Session sess1Uri
        { scenario1Result with dispatched := [] }).map (fun m => m.dispatched)
      = some [("sess1", Task.spanDeleted sess1State)] ∧
    deleteKey sess1State ≠ updateKey sess1Uri := by
  decide

/-- After `objectUpdated` both notification sets are empty, as they are initially. -/
theorem objectUpdated_clears_notify {from_string : String → Option address}
    {framework : OFFramework} {classId : class_id_t} {uri : URI} {m m' : SpanManager}
    (h : objectUpdated from_string framework classId uri m = some m') :
    m'.notifyUpdate = [] ∧ m'.notifyDelete = [] := by
  unfold objectUpdated at h
  simp only [Option.map_eq_some'] at h
  obtain ⟨m1, _, rfl⟩ := h
  exact ⟨rfl, rfl⟩

/-- What `objectUpdated` does on a `Session` event for an identity that does not
resolve: the entry is erased after its state has been put into `notifyDelete`. -/
theorem objectUpdated_session_none (from_string : String → Option address)
    {framework : OFFramework} {uri : URI} (m : SpanManager)
    (hun : Session.resolve framework uri = none) :
    objectUpdated from_string framework class_id_t.Session uri m =
      some (dispatchNotifications
        (match umap_find uri m.sess_map with
         | none => m
         | some state =>
           { m with notifyDelete := uset_insert state m.notifyDelete,
                    sess_map := umap_erase uri m.sess_map })) := by
  unfold objectUpdated processEvent
  simp only [hun, reduceCtorEq, if_false, if_true]
  cases umap_find uri m.sess_map <;> rfl

/-- C5: a `Session` change event for `S` whose identity no longer resolves, arriving
between events (both notification sets empty), completes; afterwards
`getSessionState S` is none; when `S` was tracked with state `seSt`, exactly one task
is dispatched, the delete notification carrying `seSt` itself, so name and identity
are the ones `S` had before the event; when `S` was not tracked nothing is dispatched. -/
theorem C5_session_delete_event
    (from_string : String → Option address) (framework : OFFramework) (S : URI)
    (m : SpanManager)
    (hun : Session.resolve framework S = none)
    (hU : m.notifyUpdate = []) (hD : m.notifyDelete = []) :
    ∃ m', objectUpdated from_string framework class_id_t.Session S m = some m' ∧
      getSessionState m' S = none ∧
      (∀ seSt, getSessionState m S = some seSt →
        m'.dispatched = m.dispatched ++ [(deleteKey seSt, Task.spanDeleted seSt)]) ∧
      (getSessionState m S = none → m'.dispatched = m.dispatched) := by
  refine ⟨_, objectUpdated_session_none from_string m hun, ?_, ?_, ?_⟩
  · unfold getSessionState
    cases hf : umap_find S m.sess_map with
    | none => simpa using hf
    | some st => simp [umap_find_erase_self]
  · intro seSt hs
    unfold getSessionState at hs
    simp [hs, dispatchNotifications, hU, hD, uset_insert]
  · intro hs
    unfold getSessionState at hs
    simp [hs, dispatchNotifications, hU, hD]

/-- C5, Scenario 1 continued: "sess1" is removed from the store while tracked. -/
theorem C5_session_delete_event_witness :
    Session.resolve scenario1StoreDeleted sess1Uri = none ∧
    ∃ m', objectUpdated some scenario1StoreDeleted class_id_t.Session sess1Uri scenario1Result
        = some m' ∧
      getSessionState m' sess1Uri = none ∧
      (∀ seSt, getSessionState scenario1Result sess1Uri = some seSt →
        m'.dispatched = scenario1Result.dispatched
          ++ [(deleteKey seSt, Task.spanDeleted seSt)]) ∧
      (getSessionState scenario1Result sess1Uri = none →
        m'.dispatched = scenario1Result.dispatched) :=
  ⟨by decide,
   C5_session_delete_event some scenario1StoreDeleted sess1Uri scenario1Result
     (by decide) (by decide) (by decide)⟩

/-- C6: a `Session` change event for an identity `S` that no longer resolves completes
and leaves the state of every other session as it was: for every `T` different from
`S` the lookup of `T` gives the same state before and after, with the same name,
admin state, destination and source-endpoint set. -/
theorem C6_session_delete_frame
    (from_string : String → Option address) (framework : OFFramework) (S : URI)
    (m : SpanManager) (hun : Session.resolve framework S = none) :
    ∃ m', objectUpdated from_string framework class_id_t.Session S m = some m' ∧
      ∀ T, T ≠ S → getSessionState m' T = getSessionState m T := by
  refine ⟨_, objectUpdated_session_none from_string m hun, fun T hT => ?_⟩
  unfold getSessionState
  cases hf : umap_find S m.sess_map with
  | none => rfl
  | some st => simp [umap_find_erase_ne _ hT]

/-- C6, Scenario 1 continued: deleting "sess1" leaves every other identity as it was. -/
theorem C6_session_delete_frame_witness :
    Session.resolve scenario1StoreDeleted sess1Uri = none ∧
    ∃ m', objectUpdated some scenario1StoreDeleted class_id_t.Session sess1Uri scenario1Result
        = some m' ∧
      ∀ T, T ≠ sess1Uri → getSessionState m' T = getSessionState scenario1Result T :=
  ⟨by decide,
   C6_session_delete_frame some scenario1StoreDeleted sess1Uri scenario1Result (by decide)⟩

/-- C9: calling `addSrcEndpoint e` twice gives the same state as calling it once; the
endpoint `e` is in the set, every other endpoint is in the set exactly when it was
before, and a set without repetition stays without repetition, holding `e` once. -/
theorem C9_addSrcEndpoint_idempotent (s : SessionState) (e : SourceEndpoint) :
    (s.addSrcEndpoint e).addSrcEndpoint e = s.addSrcEndpoint e ∧
    e ∈ (s.addSrcEndpoint e).srcEndpoints ∧
    (∀ x, x ≠ e → (x ∈ (s.addSrcEndpoint e).srcEndpoints ↔ x ∈ s.srcEndpoints)) ∧
    (s.srcEndpoints.Nodup →
      (s.addSrcEndpoint e).srcEndpoints.Nodup ∧
        (s.addSrcEndpoint e).srcEndpoints.count e = 1) := by
  refine ⟨addSrcEndpoint_of_mem (mem_addSrcEndpoint s e), mem_addSrcEndpoint s e, ?_, ?_⟩
  · intro x hx
    unfold SessionState.addSrcEndpoint
    by_cases h : e ∈ s.srcEndpoints
    · simp [h]
    · simp [h, hx]
  · intro hnd
    have hnd' : (s.addSrcEndpoint e).srcEndpoints.Nodup := by
      unfold SessionState.addSrcEndpoint
      by_cases h : e ∈ s.srcEndpoints
      · simpa [h] using hnd
      · simp only [h, if_false]
        exact List.nodup_append.mpr ⟨hnd, List.nodup_singleton e, by
          intro a ha hb
          simp only [List.mem_singleton] at hb
          exact h (hb ▸ ha)⟩
    exact ⟨hnd', List.count_eq_one_of_mem hnd' (mem_addSrcEndpoint s e)⟩

/-- C9 on the state of "sess1": adding its endpoint again changes nothing. -/
theorem C9_addSrcEndpoint_idempotent_witness :
    sess1State.srcEndpoints.Nodup ∧
    ((sess1State.addSrcEndpoint { name := "ep-b", port := "eth2", dir := 2 }).addSrcEndpoint
        { name := "ep-b", port := "eth2", dir := 2 }
      = sess1State.addSrcEndpoint { name := "ep-b", port := "eth2", dir := 2 } ∧
    ({ name := "ep-b", port := "eth2", dir := 2 } : SourceEndpoint) ∈
      (sess1State.addSrcEndpoint { name := "ep-b", port := "eth2", dir := 2 }).srcEndpoints ∧
    (∀ x, x ≠ ({ name := "ep-b", port := "eth2", dir := 2 } : SourceEndpoint) →
      (x ∈ (sess1State.addSrcEndpoint { name := "ep-b", port := "eth2", dir := 2 }).srcEndpoints
        ↔ x ∈ sess1State.srcEndpoints)) ∧
    (sess1State.srcEndpoints.Nodup →
      (sess1State.addSrcEndpoint { name := "ep-b", port := "eth2", dir := 2 }).srcEndpoints.Nodup ∧
        (sess1State.addSrcEndpoint
          { name := "ep-b", port := "eth2", dir := 2 }).srcEndpoints.count
            { name := "ep-b", port := "eth2", dir := 2 } = 1)) :=
  ⟨by decide, C9_addSrcEndpoint_idempotent sess1State { name := "ep-b", port := "eth2", dir := 2 }⟩

theorem processL2EpRef_grow {framework : OFFramework} {l2Ep : L2Ep} {egUri : URI}
    {m m' : SpanManager} {sesRsrc : EpGroupToSpanSessionRSrc}
    (h : processL2EpRef framework l2Ep egUri m sesRsrc = some m') :
    Grow m.sess_map m'.sess_map := by
  unfold processL2EpRef at h
  simp only [Option.bind_eq_bind, Option.bind_eq_some] at h
  obtain ⟨target, _, h⟩ := h
  split at h
  · simp only [Option.pure_def, Option.some.injEq] at h
    subst h; exact Grow_refl _
  · rename_i seSt hfind
    split at h
    · simp only [Option.pure_def, Option.some.injEq] at h
      subst h; exact Grow_refl _
    · split at h
      · simp only [Option.pure_def, Option.some.injEq] at h
        subst h; exact Grow_refl _
      · simp only [Option.bind_eq_some, Option.pure_def, Option.some.injEq] at h
        obtain ⟨port, _, rfl⟩ := h
        exact Grow_assign _ hfind (StLe_addSrcEndpoint _ _)

theorem processL2Ep_grow {framework : OFFramework} {l2Ep : L2Ep} {m m' : SpanManager}
    (h : processL2Ep framework l2Ep m = some m') : Grow m.sess_map m'.sess_map := by
  unfold processL2Ep at h
  split at h
  · split at h
    · cases h; exact Grow_refl _
    · split at h
      · cases h; exact Grow_refl _
      · split at h
        · cases h; exact Grow_refl _
        · split at h
          · cases h; exact Grow_refl _
          · simp only [Option.bind_eq_bind, Option.bind_eq_some, Option.pure_def,
              Option.some.injEq] at h
            obtain ⟨mA, hadd, rfl⟩ := h
            exact (addEndpoint_grow hadd : Grow m.sess_map mA.sess_map)
  · split at h
    · cases h; exact Grow_refl _
    · split at h
      · cases h; exact Grow_refl _
      · exact foldlM_rel (fun a b : SpanManager => Grow a.sess_map b.sess_map)
          (fun _ => Grow_refl _) (fun _ _ _ h1 h2 => Grow_trans h1 h2) _
          (fun _ _ _ hs => processL2EpRef_grow hs) _ _ _ h

/-- The `LocalEp` and `L2Ep` branches of `objectUpdated` only make the session map grow. -/
theorem processEvent_endpoint_grow {from_string : String → Option address}
    {framework : OFFramework} {classId : class_id_t} {uri : URI} {m m' : SpanManager}
    (hc : classId = class_id_t.LocalEp ∨ classId = class_id_t.L2Ep)
    (h : processEvent from_string framework classId uri m = some m') :
    Grow m.sess_map m'.sess_map := by
  unfold processEvent at h
  rcases hc with rfl | rfl
  · simp only [reduceCtorEq, if_false, if_true] at h
    split at h
    · cases h; exact Grow_refl _
    · split at h
      · cases h; exact Grow_refl _
      · split at h
        · cases h; exact Grow_refl _
        · split at h
          · cases h; exact Grow_refl _
          · exact processLocalEp_grow h
  · simp only [reduceCtorEq, if_false, if_true] at h
    split at h
    · cases h; exact Grow_refl _
    · exact processL2Ep_grow h

/-- C10: a `LocalEndpoint` or `ForwardingEndpoint` change event that has been processed
removed nothing: every session tracked before the event is tracked after it, and
every source endpoint its set held before the event is still in its set. -/
theorem C10_endpoint_events_never_remove
    (from_string : String → Option address) (framework : OFFramework) (classId : class_id_t)
    (uri : URI) (m m' : SpanManager)
    (hc : classId = class_id_t.LocalEp ∨ classId = class_id_t.L2Ep)
    (h : objectUpdated from_string framework classId uri m = some m') :
    ∀ k st, getSessionState m k = some st →
      ∃ st', getSessionState m' k = some st' ∧
        ∀ e, e ∈ st.srcEndpoints → e ∈ st'.srcEndpoints := by
  intro k st hst
  unfold objectUpdated at h
  simp only [Option.map_eq_some'] at h
  obtain ⟨m1, h1, rfl⟩ := h
  obtain ⟨st', hf, hle⟩ := (processEvent_endpoint_grow hc h1).2 k st hst
  exact ⟨st', hf, fun e he => hle.2.2.2 he⟩

/-- C10, Scenario 2: the event for "fep1" keeps "sess1" and all it held. -/
theorem C10_endpoint_events_never_remove_witness :
    (class_id_t.L2Ep = class_id_t.LocalEp ∨ class_id_t.L2Ep = class_id_t.L2Ep) ∧
    objectUpdated some (scenario2StoreWith [lep1Member 1]) class_id_t.L2Ep fep1Uri
        { scenario2Deferred with sess_map := [(sess1Uri, sess1State)] }
      = some scenario2Replayed ∧
    ∀ k st, getSessionState { scenario2Deferred with sess_map := [(sess1Uri, sess1State)] } k
        = some st →
      ∃ st', getSessionState scenario2Replayed k = some st' ∧
        ∀ e, e ∈ st.srcEndpoints → e ∈ st'.srcEndpoints :=
  ⟨by decide, by decide,
   C10_endpoint_events_never_remove some (scenario2StoreWith [lep1Member 1]) class_id_t.L2Ep
     fep1Uri { scenario2Deferred with sess_map := [(sess1Uri, sess1State)] } scenario2Replayed
     (by decide) (by decide)⟩

/-! ## Running an event a second time -/

theorem umap_find_none_iff_keys {β : Type} (k : URI) (m : List (URI × β)) :
    umap_find k m = none ↔ k ∉ m.map Prod.fst := by
  induction m with
  | nil => simp [umap_find]
  | cons p rest ih =>
    obtain ⟨a, w⟩ := p
    by_cases hak : a = k
    · simp [umap_find, hak]
    · simp only [umap_find, hak, if_false, List.map_cons, List.mem_cons, ih]
      constructor
      · intro h hor
        rcases hor with h1 | h1
        · exact hak h1.symm
        · exact h h1
      · intro h h1
        exact h (Or.inr h1)

theorem Below_of_grow {F : URI → Prop} {a a' y : List (URI × SessionState)}
    (hg : Grow a a') (hb : Below F a' y) : Below F a y := by
  intro k hk st hst
  obtain ⟨st1, hf1, hle⟩ := hg.2 k st hst
  obtain ⟨st2, hf2, hsub⟩ := hb k hk st1 hf1
  exact ⟨st2, hf2, fun _ h => hsub (hle.2.2.2 h)⟩

theorem Below_refl (F : URI → Prop) (y : List (URI × SessionState)) : Below F y y :=
  fun _ _ st hst => ⟨st, hst, fun _ h => h⟩

theorem Sim_untracked {F : URI → Prop} {y a b : List (URI × SessionState)} {k : URI}
    (hsim : Sim F y a b) (hfa : umap_find k a = none) : umap_find k b = none := by
  rw [umap_find_none_iff_keys] at hfa ⊢
  rw [← hsim.1]
  exact hfa

theorem Sim_tracked {F : URI → Prop} {y a b : List (URI × SessionState)} {k : URI}
    {st : SessionState} (hsim : Sim F y a b) (hfa : umap_find k a = some st) :
    ∃ sb, umap_find k b = some sb ∧ (F k → sb = st) ∧ (¬ F k → umap_find k y = some sb) := by
  cases hfb : umap_find k b with
  | none =>
    rw [umap_find_none_iff_keys, ← hsim.1, ← umap_find_none_iff_keys, hfa] at hfb
    cases hfb
  | some sb =>
    refine ⟨sb, rfl, fun hk => ?_, fun hk => ?_⟩
    · have := hsim.2.1 k hk
      rw [hfa, hfb] at this
      cases this
      rfl
    · rw [← hsim.2.2 k hk, hfb]

/-- Overwriting a key present in both runs keeps the second run following the first,
when the new states agree on a key in `F` and the second is the reference state otherwise. -/
theorem Sim_assign {F : URI → Prop} {y a b : List (URI × SessionState)} {k : URI}
    {st sb st' sb' : SessionState} (hsim : Sim F y a b)
    (hfa : umap_find k a = some st) (hfb : umap_find k b = some sb)
    (hF : F k → sb' = st') (hN : ¬ F k → umap_find k y = some sb') :
    Sim F y (umap_assign k st' a) (umap_assign k sb' b) := by
  refine ⟨?_, fun k' hk' => ?_, fun k' hk' => ?_⟩
  · rw [umap_keys_assign st' a hfa, umap_keys_assign sb' b hfb]
    exact hsim.1
  · by_cases h : k' = k
    · subst h
      rw [umap_find_assign_self, umap_find_assign_self, hF hk']
    · rw [umap_find_assign_ne _ _ h, umap_find_assign_ne _ _ h]
      exact hsim.2.1 k' hk'
  · by_cases h : k' = k
    · subst h
      rw [umap_find_assign_self, hN hk']
    · rw [umap_find_assign_ne _ _ h]
      exact hsim.2.2 k' hk'

/-- Adding one endpoint under a key tracked in both runs. -/
theorem Sim_add {F : URI → Prop} {y a b : List (URI × SessionState)} {k : URI}
    {st sb : SessionState} (e : SourceEndpoint) (hsim : Sim F y a b)
    (hfa : umap_find k a = some st) (hfb : umap_find k b = some sb)
    (hF : F k → sb = st) (hN : ¬ F k → umap_find k y = some sb)
    (hbelow : Below F (umap_assign k (st.addSrcEndpoint e) a) y) :
    Sim F y (umap_assign k (st.addSrcEndpoint e) a) (umap_assign k (sb.addSrcEndpoint e) b) := by
  refine Sim_assign hsim hfa hfb (fun hk => by rw [hF hk]) (fun hk => ?_)
  obtain ⟨sy, hfy, hsub⟩ := hbelow k hk _ (umap_find_assign_self _ _ _)
  rw [hN hk] at hfy
  cases hfy
  rw [addSrcEndpoint_of_mem (hsub (mem_addSrcEndpoint st e))]
  exact hN hk

theorem addEndpoint_lockstep (F : URI → Prop) (y : List (URI × SessionState))
    (framework : OFFramework) (lEp : LocalEp) (l2Ep : L2Ep) (dir : Nat) :
    Lockstep F y (addEndpoint framework lEp l2Ep dir) := by
  intro a a' b h hbelow hsim
  unfold addEndpoint at h ⊢
  cases hgs : getSession lEp with
  | none =>
    simp only [hgs] at h ⊢
    cases h
    exact ⟨b, rfl, hsim⟩
  | some parent =>
    simp only [hgs] at h ⊢
    cases hres : Session.resolve framework parent with
    | none =>
      simp only [hres] at h ⊢
      cases h
      exact ⟨_, rfl, hsim⟩
    | some sess =>
      simp only [hres, markUpdate_sess_map] at h ⊢
      cases hfa : umap_find sess.uri a.sess_map with
      | none =>
        have hfb := Sim_untracked hsim hfa
        simp only [hfa, hfb] at h ⊢
        cases h
        exact ⟨_, rfl, hsim⟩
      | some st =>
        obtain ⟨sb, hfb, hF, hN⟩ := Sim_tracked hsim hfa
        simp only [hfa, hfb, Option.bind_eq_bind, Option.bind_eq_some, Option.pure_def,
          Option.some.injEq] at h ⊢
        obtain ⟨name, hname, port, hport, rfl⟩ := h
        refine ⟨_, ⟨name, hname, port, hport, rfl⟩, ?_⟩
        exact Sim_add _ hsim hfa hfb hF hN hbelow

theorem processLocalEp_lockstep (F : URI → Prop) (y : List (URI × SessionState))
    (framework : OFFramework) (uri : URI) (dir : Nat) :
    Lockstep F y (processLocalEp framework uri dir) := by
  intro a a' b h hbelow hsim
  unfold processLocalEp at h ⊢
  cases hl : LocalEp.resolve framework uri with
  | none =>
    simp only [hl] at h ⊢
    cases h
    exact ⟨b, rfl, hsim⟩
  | some lEp =>
    simp only [hl] at h ⊢
    cases hr : lEp.localEpToEpRSrc with
    | none =>
      simp only [hr] at h ⊢
      cases h
      exact ⟨b, rfl, hsim⟩
    | some epRSrc =>
      simp only [hr] at h ⊢
      cases ht : epRSrc.targetURI with
      | none =>
        simp only [ht] at h ⊢
        cases h
        exact ⟨b, rfl, hsim⟩
      | some epUri =>
        simp only [ht] at h ⊢
        cases he : L2Ep.resolve framework epUri with
        | none =>
          simp only [he] at h ⊢
          cases h
          exact ⟨_, rfl, hsim⟩
        | some l2Ep =>
          simp only [he] at h ⊢
          exact addEndpoint_lockstep F y framework lEp l2Ep dir a a' b h hbelow hsim

/-- Folding a step that runs in lockstep and only makes the map grow runs in lockstep. -/
theorem foldlM_lockstep {α : Type} (F : URI → Prop) (y : List (URI × SessionState))
    (f : SpanManager → α → Option SpanManager)
    (hgrow : ∀ s x s', f s x = some s' → Grow s.sess_map s'.sess_map)
    (hstep : ∀ x, Lockstep F y (fun m => f m x)) :
    ∀ xs : List α, Lockstep F y (fun m => xs.foldlM f m) := by
  intro xs
  induction xs with
  | nil =>
    intro a a' b h _ hsim
    simp only [List.foldlM_nil, Option.pure_def, Option.some.injEq] at h
    subst h
    exact ⟨b, rfl, hsim⟩
  | cons x rest ih =>
    intro a a' b h hbelow hsim
    simp only [List.foldlM_cons, Option.bind_eq_bind, Option.bind_eq_some] at h
    obtain ⟨a1, h1, h2⟩ := h
    have hg : Grow a1.sess_map a'.sess_map :=
      foldlM_rel (fun a b : SpanManager => Grow a.sess_map b.sess_map)
        (fun _ => Grow_refl _) (fun _ _ _ g1 g2 => Grow_trans g1 g2) f hgrow rest a1 a' h2
    obtain ⟨b1, hb1, hsim1⟩ := hstep x a a1 b h1 (Below_of_grow hg hbelow) hsim
    obtain ⟨b', hb', hsim'⟩ := ih a1 a' b1 h2 hbelow hsim1
    refine ⟨b', ?_, hsim'⟩
    simp only [List.foldlM_cons, Option.bind_eq_bind, Option.bind_eq_some]
    exact ⟨b1, hb1, hb'⟩

/-- Adding the endpoints of a group to a state that already holds all of them succeeds
and changes nothing. -/
theorem addGroupEps_absorb {dir : Nat} {sy : SessionState} :
    ∀ (l2EpVec : List L2Ep) (st st' : SessionState), addGroupEps dir l2EpVec st = some st' →
      st'.srcEndpoints ⊆ sy.srcEndpoints → addGroupEps dir l2EpVec sy = some sy := by
  intro l2EpVec
  induction l2EpVec with
  | nil => intro _ _ _ _; rfl
  | cons ep rest ih =>
    intro st st' h hsub
    unfold addGroupEps at h ⊢
    simp only [List.foldlM_cons, Option.bind_eq_bind, Option.bind_eq_some, Option.pure_def,
      Option.some.injEq] at h ⊢
    obtain ⟨st1, ⟨port, hport, rfl⟩, h2⟩ := h
    have hle : StLe _ st' := addGroupEps_le rest h2
    have hmem : ({ name := ep.uri, port := port, dir := dir } : SourceEndpoint) ∈
        sy.srcEndpoints := hsub (hle.2.2.2 (mem_addSrcEndpoint _ _))
    refine ⟨sy, ⟨port, hport, addSrcEndpoint_of_mem hmem⟩, ?_⟩
    exact ih _ st' h2 hsub

theorem processEpGroupRef_lockstep (F : URI → Prop) (y : List (URI × SessionState))
    (dir : Nat) (l2EpVec : List L2Ep) (sesRsrc : EpGroupToSpanSessionRSrc) :
    Lockstep F y (fun m => processEpGroupRef dir l2EpVec m sesRsrc) := by
  intro a a' b h hbelow hsim
  simp only [processEpGroupRef] at h ⊢
  cases ht : sesRsrc.targetURI with
  | none => simp [ht] at h
  | some target =>
    simp only [ht, Option.bind_eq_bind, Option.some_bind] at h ⊢
    cases hfa : umap_find target a.sess_map with
    | none =>
      have hfb := Sim_untracked hsim hfa
      simp only [hfa, hfb, Option.pure_def, Option.some.injEq] at h ⊢
      subst h
      exact ⟨b, rfl, hsim⟩
    | some st =>
      obtain ⟨sb, hfb, hF, hN⟩ := Sim_tracked hsim hfa
      simp only [hfa, hfb, Option.bind_eq_some, Option.pure_def, Option.some.injEq] at h ⊢
      obtain ⟨st', hadd, rfl⟩ := h
      by_cases hk : F target
      · have := hF hk
        subst this
        refine ⟨_, ⟨st', hadd, rfl⟩, ?_⟩
        exact Sim_assign hsim hfa hfb (fun _ => rfl) (fun hn => absurd hk hn)
      · obtain ⟨sy, hfy, hsub⟩ := hbelow target hk st' (umap_find_assign_self _ _ _)
        have hsb : sy = sb := by
          have := hN hk
          rw [hfy] at this
          cases this
          rfl
        subst hsb
        refine ⟨_, ⟨sy, addGroupEps_absorb l2EpVec st st' hadd hsub, rfl⟩, ?_⟩
        exact Sim_assign hsim hfa hfb (fun hf => absurd hf hk) (fun _ => hfy)

theorem processEpGroup_lockstep (F : URI → Prop) (y : List (URI × SessionState))
    (framework : OFFramework) (uri : URI) (dir : Nat) :
    Lockstep F y (processEpGroup framework uri dir) := by
  intro a a' b h hbelow hsim
  unfold processEpGroup at h ⊢
  simp only [Option.bind_eq_bind, Option.bind_eq_some] at h ⊢
  obtain ⟨out, hout, l2EpVec, hvec, h⟩ := h
  cases hg : EpGroup.resolve framework uri with
  | none =>
    simp only [hg, Option.pure_def, Option.some.injEq] at h
    subst h
    exact ⟨b, ⟨out, hout, l2EpVec, hvec, by simp [hg]⟩, hsim⟩
  | some lEpGrp =>
    simp only [hg] at h
    by_cases hnil : l2EpVec = []
    · simp only [hnil, if_true, Option.pure_def, Option.some.injEq] at h
      subst h
      exact ⟨b, ⟨out, hout, l2EpVec, hvec, by simp [hg, hnil]⟩, hsim⟩
    · simp only [hnil, if_false] at h
      obtain ⟨b', hb', hsim'⟩ := foldlM_lockstep F y (processEpGroupRef dir l2EpVec)
        (fun _ _ _ hs => processEpGroupRef_grow hs)
        (fun x => processEpGroupRef_lockstep F y dir l2EpVec x)
        lEpGrp.spanSessionRSrc a a' b h hbelow hsim
      exact ⟨b', ⟨out, hout, l2EpVec, hvec, by simpa [hg, hnil] using hb'⟩, hsim'⟩

theorem processSrcMember_lockstep (F : URI → Prop) (y : List (URI × SessionState))
    (framework : OFFramework) (srcMem : SrcMember) :
    Lockstep F y (fun m => processSrcMember framework m srcMem) := by
  intro a a' b h hbelow hsim
  simp only [processSrcMember] at h ⊢
  cases hr : srcMem.memberToRefRSrc with
  | none =>
    simp only [hr] at h ⊢
    cases h; exact ⟨b, rfl, hsim⟩
  | some memRef =>
    simp only [hr] at h ⊢
    cases hc : memRef.targetClass with
    | none =>
      simp only [hc] at h ⊢
      cases h; exact ⟨b, rfl, hsim⟩
    | some class_id =>
      simp only [hc] at h ⊢
      cases hu : memRef.targetURI with
      | none =>
        simp only [hu, ite_self] at h ⊢
        cases h; exact ⟨b, rfl, hsim⟩
      | some pUri =>
        simp only [hu] at h ⊢
        cases hd : srcMem.dir with
        | none =>
          simp only [hd, ite_self] at h ⊢
          cases h; exact ⟨b, rfl, hsim⟩
        | some dir =>
          simp only [hd] at h ⊢
          by_cases h1 : class_id = class_id_t.EpGroup
          · simp only [h1, if_true] at h ⊢
            exact processEpGroup_lockstep F y framework _ _ a a' b h hbelow hsim
          · simp only [h1, if_false] at h ⊢
            by_cases h2 : class_id = class_id_t.LocalEp
            · simp only [h2, if_true] at h ⊢
              exact processLocalEp_lockstep F y framework _ _ a a' b h hbelow hsim
            · simp only [h2, if_false] at h ⊢
              cases h; exact ⟨b, rfl, hsim⟩

theorem processSrcGrp_lockstep (F : URI → Prop) (y : List (URI × SessionState))
    (framework : OFFramework) (srcGrp : SrcGrp) :
    Lockstep F y (fun m => processSrcGrp framework m srcGrp) :=
  foldlM_lockstep F y (processSrcMember framework)
    (fun _ _ _ hs => processSrcMember_grow hs)
    (fun x => processSrcMember_lockstep F y framework x) srcGrp.srcMembers

theorem processDstGrp_lockstep (F : URI → Prop) (y : List (URI × SessionState))
    (from_string : String → Option address) (sessUri : URI) (hF : F sessUri)
    (dstGrp : DstGrp) :
    Lockstep F y (fun m => processDstGrp from_string sessUri m dstGrp) := by
  intro a a' b h _ hsim
  simp only [processDstGrp] at h ⊢
  cases hfa : umap_find sessUri a.sess_map with
  | none =>
    have hfb := Sim_untracked hsim hfa
    simp only [hfa, hfb] at h ⊢
    cases h
    exact ⟨b, rfl, hsim⟩
  | some st =>
    obtain ⟨sb, hfb, hsame, _⟩ := Sim_tracked hsim hfa
    have := hsame hF
    subst this
    simp only [hfa, hfb, Option.bind_eq_bind, Option.bind_eq_some, Option.pure_def,
      Option.some.injEq] at h ⊢
    obtain ⟨st', hfold, rfl⟩ := h
    refine ⟨_, ⟨st', hfold, rfl⟩, ?_⟩
    exact Sim_assign hsim hfa hfb (fun _ => rfl) (fun hn => absurd hF hn)

theorem processL2EpRef_lockstep (F : URI → Prop) (y : List (URI × SessionState))
    (framework : OFFramework) (l2Ep : L2Ep) (egUri : URI)
    (sesRsrc : EpGroupToSpanSessionRSrc) :
    Lockstep F y (fun m => processL2EpRef framework l2Ep egUri m sesRsrc) := by
  intro a a' b h hbelow hsim
  simp only [processL2EpRef] at h ⊢
  cases ht : sesRsrc.targetURI with
  | none => simp [ht] at h
  | some target =>
    simp only [ht, Option.bind_eq_bind, Option.some_bind] at h ⊢
    cases hfa : umap_find target a.sess_map with
    | none =>
      have hfb := Sim_untracked hsim hfa
      simp only [hfa, hfb, Option.pure_def, Option.some.injEq] at h ⊢
      subst h
      exact ⟨b, rfl, hsim⟩
    | some st =>
      obtain ⟨sb, hfb, hF, hN⟩ := Sim_tracked hsim hfa
      simp only [hfa, hfb] at h ⊢
      cases hm : findSrcMem framework target egUri with
      | none =>
        simp only [hm, Option.pure_def, Option.some.injEq] at h ⊢
        subst h
        exact ⟨b, rfl, hsim⟩
      | some srcMem =>
        simp only [hm] at h ⊢
        cases hd : srcMem.dir with
        | none =>
          simp only [hd, Option.pure_def, Option.some.injEq] at h ⊢
          subst h
          exact ⟨b, rfl, hsim⟩
        | some dir =>
          simp only [hd, Option.bind_eq_some, Option.pure_def, Option.some.injEq] at h ⊢
          obtain ⟨port, hport, rfl⟩ := h
          refine ⟨_, ⟨port, hport, rfl⟩, ?_⟩
          exact Sim_add _ hsim hfa hfb hF hN hbelow

/-- A function that runs in lockstep with no key set apart, started a second time from
its own result, succeeds and leaves every lookup as the first run left it. -/
theorem again_of_lockstep {f : SpanManager → Option SpanManager} {a a' b : SpanManager}
    (hl : Lockstep (fun _ => False) a'.sess_map f)
    (hg : Grow a.sess_map a'.sess_map) (h : f a = some a')
    (hb : b.sess_map = a'.sess_map) :
    ∃ b', f b = some b' ∧ ∀ k, umap_find k b'.sess_map = umap_find k a'.sess_map := by
  have hsim : Sim (fun _ => False) a'.sess_map a.sess_map b.sess_map :=
    ⟨by rw [hb]; exact hg.1, fun _ hk => hk.elim, fun _ _ => by rw [hb]⟩
  obtain ⟨b', hb', hsim'⟩ := hl a a' b h (Below_refl _ _) hsim
  exact ⟨b', hb', fun k => hsim'.2.2 k (fun hk => hk)⟩

theorem getEpgIfPartOfSession_keys (framework : OFFramework) (epgUri : URI)
    {a b : List (URI × SessionState)} (h : a.map Prod.fst = b.map Prod.fst) :
    getEpgIfPartOfSession framework epgUri a = getEpgIfPartOfSession framework epgUri b := by
  unfold getEpgIfPartOfSession
  have key : ∀ l : List (URI × SessionState),
      l.findSome? (fun sess =>
        match Session.resolve framework sess.1 with
        | none => none
        | some session => firstEpgTarget session.srcGrps)
      = (l.map Prod.fst).findSome? (fun u =>
        match Session.resolve framework u with
        | none => none
        | some session => firstEpgTarget session.srcGrps) := by
    intro l
    rw [List.findSome?_map]
    rfl
  rw [key a, key b, h]

/-- Processing a session a second time, from a manager whose session map is the result
of the first time, succeeds and leaves every lookup as the first run left it. -/
theorem processSession_again {from_string : String → Option address}
    {framework : OFFramework} {sess : Session} {m pA b : SpanManager}
    (h : processSession from_string framework sess m = some pA)
    (hb : b.sess_map = pA.sess_map) :
    ∃ pB, processSession from_string framework sess b = some pB ∧
      ∀ k, umap_find k pB.sess_map = umap_find k pA.sess_map := by
  obtain ⟨name, a1, hname, h1, h2⟩ := processSession_some h
  have hg1 := foldlM_rel (fun a b : SpanManager => Grow a.sess_map b.sess_map)
    (fun _ => Grow_refl _) (fun _ _ _ g1 g2 => Grow_trans g1 g2) _
    (fun _ _ _ hs => processSrcGrp_grow hs) _ _ _ h1
  have hg2 := foldlM_rel (fun a b : SpanManager => Grow a.sess_map b.sess_map)
    (fun _ => Grow_refl _) (fun _ _ _ g1 g2 => Grow_trans g1 g2) _
    (fun _ _ _ hs => processDstGrp_grow hs) _ _ _ h2
  have hg := Grow_trans hg1 hg2
  simp only at hg hg1
  obtain ⟨stS, hstS, _⟩ := hg.2 sess.uri _ (umap_find_assign_self _ _ _)
  have hsim : Sim (fun k => k = sess.uri) pA.sess_map
      (umap_assign sess.uri (sessionStateOf sess name) m.sess_map)
      (umap_assign sess.uri (sessionStateOf sess name) b.sess_map) := by
    refine ⟨?_, fun k hk => ?_, fun k hk => ?_⟩
    · rw [hb, umap_keys_assign _ _ hstS]
      exact hg.1
    · subst hk
      rw [umap_find_assign_self, umap_find_assign_self]
    · rw [umap_find_assign_ne _ _ hk, hb]
  obtain ⟨b1, hb1, hsim1⟩ := foldlM_lockstep (fun k => k = sess.uri) pA.sess_map
    (processSrcGrp framework) (fun _ _ _ hs => processSrcGrp_grow hs)
    (fun x => processSrcGrp_lockstep _ _ framework x) sess.srcGrps _ a1
    { b with sess_map := umap_assign sess.uri (sessionStateOf sess name) b.sess_map }
    h1 (Below_of_grow hg2 (Below_refl _ _)) hsim
  obtain ⟨pB, hpB, hsim2⟩ := foldlM_lockstep (fun k => k = sess.uri) pA.sess_map
    (processDstGrp from_string sess.uri) (fun _ _ _ hs => processDstGrp_grow hs)
    (fun x => processDstGrp_lockstep (fun k => k = sess.uri) pA.sess_map from_string sess.uri
      rfl x) sess.dstGrps a1 pA b1
    h2 (Below_refl _ _) hsim1
  refine ⟨pB, ?_, fun k => ?_⟩
  · unfold processSession
    simp only [hname, Option.bind_eq_bind, Option.some_bind, Option.bind_eq_some]
    exact ⟨b1, hb1, hpB⟩
  · by_cases hk : k = sess.uri
    · exact (hsim2.2.1 k hk).symm
    · exact hsim2.2.2 k hk

theorem Tracked_assign (k : URI) (v : SessionState) {m : List (URI × SessionState)}
    {k' : URI} (h : Tracked m k') : Tracked (umap_assign k v m) k' := by
  by_cases hk : k' = k
  · subst hk
    exact ⟨v, umap_find_assign_self _ _ _⟩
  · obtain ⟨st, hst⟩ := h
    exact ⟨st, by rw [umap_find_assign_ne _ _ hk]; exact hst⟩

/-- After `processSession` the session is tracked, and so is every session tracked before. -/
theorem processSession_tracked {from_string : String → Option address}
    {framework : OFFramework} {sess : Session} {m m' : SpanManager}
    (h : processSession from_string framework sess m = some m') :
    Tracked m'.sess_map sess.uri ∧ ∀ k, Tracked m.sess_map k → Tracked m'.sess_map k := by
  obtain ⟨name, a1, _, h1, h2⟩ := processSession_some h
  have hg := processSession_body_grow h1 h2
  exact ⟨Tracked_grow ⟨_, umap_find_assign_self _ _ _⟩ hg,
    fun k hk => Tracked_grow (Tracked_assign _ _ hk) hg⟩

theorem processUniverseSession_tracked {from_string : String → Option address}
    {framework : OFFramework} {sess : Session} {m m' : SpanManager}
    (h : processUniverseSession from_string framework m sess = some m') :
    Tracked m'.sess_map sess.uri ∧ ∀ k, Tracked m.sess_map k → Tracked m'.sess_map k := by
  unfold processUniverseSession at h
  simp only [Option.bind_eq_bind, Option.bind_eq_some, Option.pure_def,
    Option.some.injEq] at h
  obtain ⟨m1, h1, rfl⟩ := h
  split at h1
  · exact (processSession_tracked h1 : Tracked m1.sess_map sess.uri ∧ _)
  · rename_i st hst
    cases h1
    exact ⟨⟨st, hst⟩, fun _ hk => hk⟩

/-- After the `Universe` branch every session of the container is tracked. -/
theorem universe_run_tracks {from_string : String → Option address}
    {framework : OFFramework} (sessVec : List Session) {m m' : SpanManager}
    (h : sessVec.foldlM (processUniverseSession from_string framework) m = some m') :
    ∀ sess ∈ sessVec, Tracked m'.sess_map sess.uri := by
  intro sess hs
  exact foldlM_establish (fun _ => True) (fun a : SpanManager => Tracked a.sess_map sess.uri)
    (processUniverseSession from_string framework) (fun _ _ _ _ _ => trivial)
    (fun _ _ _ hp hstep => (processUniverseSession_tracked hstep).2 _ hp) sess
    (fun _ _ _ hstep => (processUniverseSession_tracked hstep).1) sessVec hs m m' trivial h

/-- The `Universe` branch run on a manager that tracks every session of the container
succeeds and leaves the session map as it is. -/
theorem universe_run_again (from_string : String → Option address)
    (framework : OFFramework) :
    ∀ (sessVec : List Session) (b : SpanManager),
      (∀ sess ∈ sessVec, Tracked b.sess_map sess.uri) →
      ∃ b', sessVec.foldlM (processUniverseSession from_string framework) b = some b' ∧
        b'.sess_map = b.sess_map := by
  intro sessVec
  induction sessVec with
  | nil => intro b _; exact ⟨b, rfl, rfl⟩
  | cons sess rest ih =>
    intro b hall
    obtain ⟨st, hst⟩ := hall sess (List.mem_cons_self _ _)
    obtain ⟨b', hb', hmap⟩ := ih (b.markUpdate sess.uri)
      (fun s hs => hall s (List.mem_cons_of_mem _ hs))
    refine ⟨b', ?_, hmap⟩
    simp only [List.foldlM_cons, Option.bind_eq_bind, Option.bind_eq_some]
    refine ⟨b.markUpdate sess.uri, ?_, hb'⟩
    unfold processUniverseSession
    simp only [hst, Option.bind_eq_bind, Option.some_bind, Option.pure_def]

/-- Processing a forwarding endpoint a second time, when the first time removed no
deferred entry of it, succeeds and leaves every lookup as the first run left it. -/
theorem processL2Ep_again {framework : OFFramework} {l2Ep : L2Ep} {m pA b : SpanManager}
    (h : processL2Ep framework l2Ep m = some pA)
    (hkeep : umap_find l2Ep.uri pA.l2EpUri = umap_find l2Ep.uri m.l2EpUri)
    (hb : b.sess_map = pA.sess_map) (hbl : b.l2EpUri = pA.l2EpUri) :
    ∃ pB, processL2Ep framework l2Ep b = some pB ∧
      ∀ k, umap_find k pB.sess_map = umap_find k pA.sess_map := by
  unfold processL2Ep at h ⊢
  rw [hbl, hkeep]
  cases he : umap_find l2Ep.uri m.l2EpUri with
  | some lEp =>
    simp only [he] at h ⊢
    cases hgs : getSession lEp with
    | none =>
      simp only [hgs] at h ⊢
      cases h
      exact ⟨b, rfl, fun k => by rw [hb]⟩
    | some sessUri =>
      simp only [hgs] at h ⊢
      cases hf : umap_find sessUri m.sess_map with
      | none =>
        simp only [hf] at h
        cases h
        rw [hb, hf]
        exact ⟨b, rfl, fun k => by rw [hb]⟩
      | some st =>
        simp only [hf] at h
        cases hm : findSrcMem framework sessUri lEp.uri with
        | none =>
          simp only [hm] at h
          cases h
          rw [hb, hf]
          exact ⟨b, rfl, fun k => by rw [hb]⟩
        | some pSmem =>
          simp only [hm] at h
          cases hd : pSmem.dir with
          | none =>
            simp only [hd] at h
            cases h
            rw [hb, hf]
            exact ⟨b, by simp only [hm, hd], fun k => by rw [hb]⟩
          | some dir =>
            simp only [hd, Option.bind_eq_bind, Option.bind_eq_some, Option.pure_def,
              Option.some.injEq] at h
            obtain ⟨mA, _, rfl⟩ := h
            simp only [umap_find_erase_self, he] at hkeep
            cases hkeep
  | none =>
    simp only [he] at h ⊢
    cases hgr : l2Ep.group with
    | none =>
      simp only [hgr] at h ⊢
      cases h
      exact ⟨b, rfl, fun k => by rw [hb]⟩
    | some egUri =>
      simp only [hgr] at h ⊢
      cases hepg : getEpgIfPartOfSession framework egUri m.sess_map with
      | none =>
        simp only [hepg] at h
        cases h
        rw [hb, hepg]
        exact ⟨b, rfl, fun k => by rw [hb]⟩
      | some epg =>
        simp only [hepg] at h
        have hg : Grow m.sess_map pA.sess_map :=
          foldlM_rel (fun a b : SpanManager => Grow a.sess_map b.sess_map)
            (fun _ => Grow_refl _) (fun _ _ _ g1 g2 => Grow_trans g1 g2) _
            (fun _ _ _ hs => processL2EpRef_grow hs) _ _ _ h
        rw [hb, ← getEpgIfPartOfSession_keys framework egUri hg.1, hepg]
        exact again_of_lockstep
          (foldlM_lockstep _ _ (processL2EpRef framework l2Ep egUri)
            (fun _ _ _ hs => processL2EpRef_grow hs)
            (fun x => processL2EpRef_lockstep _ _ framework l2Ep egUri x) epg.spanSessionRSrc)
          hg h hb

/-- The branches of `objectUpdated`, run a second time from a manager that has the
session map and the deferred index the first run produced, succeed and leave every
lookup as the first run left it, provided that the first run, if it was for a
forwarding endpoint, removed no deferred entry of that endpoint. -/
theorem processEvent_again {from_string : String → Option address}
    {framework : OFFramework} {classId : class_id_t} {uri : URI} {m p1 b : SpanManager}
    (h : processEvent from_string framework classId uri m = some p1)
    (hkeep : classId = class_id_t.L2Ep →
      umap_find uri p1.l2EpUri = umap_find uri m.l2EpUri)
    (hb : b.sess_map = p1.sess_map) (hbl : b.l2EpUri = p1.l2EpUri) :
    ∃ p2, processEvent from_string framework classId uri b = some p2 ∧
      ∀ k, umap_find k p2.sess_map = umap_find k p1.sess_map := by
  unfold processEvent at h ⊢
  by_cases hU : classId = class_id_t.Universe
  · simp only [hU, if_true] at h ⊢
    cases hr : Universe.resolve framework with
    | none =>
      simp only [hr] at h ⊢
      cases h
      exact ⟨b, rfl, fun k => by rw [hb]⟩
    | some sessVec =>
      simp only [hr] at h ⊢
      have hall : ∀ sess ∈ sessVec, Tracked b.sess_map sess.uri := by
        rw [hb]
        exact universe_run_tracks sessVec h
      obtain ⟨b', hb', hmap⟩ := universe_run_again from_string framework sessVec b hall
      exact ⟨b', hb', fun k => by rw [hmap, hb]⟩
  · simp only [hU, if_false] at h ⊢
    by_cases hL : classId = class_id_t.LocalEp
    · simp only [hL, if_true] at h ⊢
      cases hr : LocalEp.resolve framework uri with
      | none =>
        simp only [hr] at h ⊢
        cases h
        exact ⟨b, rfl, fun k => by rw [hb]⟩
      | some lEp =>
        simp only [hr] at h ⊢
        cases hgs : getSession lEp with
        | none =>
          simp only [hgs] at h ⊢
          cases h
          exact ⟨b, rfl, fun k => by rw [hb]⟩
        | some sesUri =>
          simp only [hgs] at h ⊢
          cases hm : findSrcMem framework sesUri lEp.uri with
          | none =>
            simp only [hm] at h ⊢
            cases h
            exact ⟨b, rfl, fun k => by rw [hb]⟩
          | some pSmem =>
            simp only [hm] at h ⊢
            cases hd : pSmem.dir with
            | none =>
              simp only [hd] at h ⊢
              cases h
              exact ⟨b, rfl, fun k => by rw [hb]⟩
            | some dir =>
              simp only [hd] at h ⊢
              exact again_of_lockstep (processLocalEp_lockstep _ _ framework uri dir)
                (processLocalEp_grow h) h hb
    · simp only [hL, if_false] at h ⊢
      by_cases hE : classId = class_id_t.L2Ep
      · simp only [hE, if_true] at h ⊢
        cases hr : L2Ep.resolve framework uri with
        | none =>
          simp only [hr] at h ⊢
          cases h
          exact ⟨b, rfl, fun k => by rw [hb]⟩
        | some l2Ep =>
          simp only [hr] at h ⊢
          have hu := L2Ep_resolve_uri hr
          subst hu
          exact processL2Ep_again h (hkeep hE) hb hbl
      · simp only [hE, if_false] at h ⊢
        by_cases hS : classId = class_id_t.Session
        · simp only [hS, if_true] at h ⊢
          cases hr : Session.resolve framework uri with
          | some sess =>
            simp only [hr, Option.bind_eq_bind, Option.bind_eq_some, Option.pure_def,
              Option.some.injEq] at h ⊢
            obtain ⟨pA, hA, rfl⟩ := h
            obtain ⟨pB, hB, hsame⟩ := processSession_again hA hb
            exact ⟨_, ⟨pB, hB, rfl⟩, hsame⟩
          | none =>
            simp only [hr] at h ⊢
            cases hf : umap_find uri m.sess_map with
            | none =>
              simp only [hf] at h
              cases h
              rw [hb, hf]
              exact ⟨b, rfl, fun k => by rw [hb]⟩
            | some st =>
              simp only [hf, Option.some.injEq] at h
              subst h
              simp only at hb
              rw [hb, umap_find_erase_self]
              exact ⟨b, rfl, fun k => by rw [hb]⟩
        · simp only [hS, if_false] at h ⊢
          cases h
          exact ⟨b, rfl, fun k => by rw [hb]⟩

/-- C7 (as amended): for every store state, every tracked state and every event, when
processing the event has completed and, in the case of a `ForwardingEndpoint` event,
has not removed a deferred-index entry of the event's identity, processing the same
event again with the store unchanged completes and yields the same session map: every
identity has the same state (name, admin state, destination, source-endpoint set)
after the second processing as after the first. -/
theorem C7_event_idempotent
    (from_string : String → Option address) (framework : OFFramework) (classId : class_id_t)
    (uri : URI) (m m1 : SpanManager)
    (h1 : objectUpdated from_string framework classId uri m = some m1)
    (hkeep : classId = class_id_t.L2Ep →
      umap_find uri m1.l2EpUri = umap_find uri m.l2EpUri) :
    ∃ m2, objectUpdated from_string framework classId uri m1 = some m2 ∧
      ∀ k, getSessionState m2 k = getSessionState m1 k := by
  unfold objectUpdated at h1 ⊢
  simp only [Option.map_eq_some'] at h1
  obtain ⟨p1, hp1, rfl⟩ := h1
  obtain ⟨p2, hp2, hsame⟩ := processEvent_again hp1 hkeep
    (dispatchNotifications_sess_map p1) (dispatchNotifications_l2EpUri p1)
  exact ⟨dispatchNotifications p2, by simp only [hp2, Option.map_some'], hsame⟩

/-- C7, Scenario 1: the `ForwardingEndpoint` event for "ep-a", which has no deferred
entry, processed a second time leaves the session map as the first processing left it. -/
theorem C7_event_idempotent_witness :
    objectUpdated some scenario1Store class_id_t.L2Ep epA.uri scenario1Result
        = some scenario1AfterEndpoint ∧
    (class_id_t.L2Ep = class_id_t.L2Ep →
      umap_find epA.uri scenario1AfterEndpoint.l2EpUri
        = umap_find epA.uri scenario1Result.l2EpUri) ∧
    ∃ m2, objectUpdated some scenario1Store class_id_t.L2Ep epA.uri scenario1AfterEndpoint
        = some m2 ∧
      ∀ k, getSessionState m2 k = getSessionState scenario1AfterEndpoint k :=
  ⟨by decide, by decide,
   C7_event_idempotent some scenario1Store class_id_t.L2Ep epA.uri scenario1Result
     scenario1AfterEndpoint (by decide) (by decide)⟩

/-- C7 fails as stated: "sess1" refers to "lep1" (target "fep1") and to group "epg1", and
"fep1" is created as a member of "epg1" while it waits in the deferred index. The first
`ForwardingEndpoint` event for "fep1" replays the deferred entry; the same event
processed again takes the group path and adds a second source endpoint. -/
theorem C7_counterexample :
    objectUpdated some (storeLep1AndEpg1 []) class_id_t.Session sess1Uri SpanManager.init
        = some scenario2Deferred ∧
    ((objectUpdated some (storeLep1AndEpg1 [fep1InEpg1]) class_id_t.L2Ep fep1Uri
        scenario2Deferred).bind fun m1 => getSessionState m1 sess1Uri).map
          (fun st => st.srcEndpoints)
      = some [{ name := "lep1", port := "eth1", dir := 1 }] ∧
    (((objectUpdated some (storeLep1AndEpg1 [fep1InEpg1]) class_id_t.L2Ep fep1Uri
        scenario2Deferred).bind fun m1 =>
          objectUpdated some (storeLep1AndEpg1 [fep1InEpg1]) class_id_t.L2Ep fep1Uri m1).bind
            fun m2 => getSessionState m2 sess1Uri).map (fun st => st.srcEndpoints)
      = some [{ name := "lep1", port := "eth1", dir := 1 },
              { name := "/EprL2Universe/EprL2Ep/fep1/", port := "eth1", dir := 1 }] := by
  decide

/-- C8 at the failing input: "sess0" refers to "epg0" and "sess1" to "epg1"; both are
tracked (the `Universe` event yields exactly this manager). When "ep-a" of "epg1" is
created before the membership, the `Session` event adds it to "sess1"; when it is
created after the membership, `getEpgIfPartOfSession` answers with "epg0", the first
group it meets, and "sess1" is left without "ep-a". When the map is iterated in the
other order the same happens to "sess0" and endpoint "ep-b" of "epg0". -/
theorem C8_order_dependence :
    (objectUpdated some (twoSessionStore false false) class_id_t.Universe "" SpanManager.init).map
        (fun m => m.sess_map) = some twoSessionManager.sess_map ∧
    getEpgIfPartOfSession (twoSessionStore true true) epg1Uri twoSessionManager.sess_map
      = some { uri := epg0Uri, spanSessionRSrc := [{ targetURI := some sess0Uri }] } ∧
    sourcesOf endpointThenMembership sess1Uri
      = some [{ name := "/EprL2Universe/EprL2Ep/ep-a/", port := "eth0", dir := 1 }] ∧
    sourcesOf membershipThenEndpoint sess1Uri = some [] ∧
    (objectUpdated some (twoSessionStoreRev false false) class_id_t.Universe ""
        SpanManager.init).map (fun m => m.sess_map) = some twoSessionManagerRev.sess_map ∧
    sourcesOf endpointThenMembershipRev sess0Uri
      = some [{ name := "/EprL2Universe/EprL2Ep/ep-b/", port := "eth2", dir := 1 }] ∧
    sourcesOf membershipThenEndpointRev sess0Uri = some [] := by
  decide

/-- C14 at the failing inputs: the `Session` event for "sess1" of Scenario 1 does not
complete when the forwarding-endpoint universe does not resolve (`l2u.get()`), when
some forwarding endpoint has no group (`ep->getGroup().get()`), when "ep-a" has no
interface name (`ep->getInterfaceName().get()`), when the session has no name
(`sess->getName().get()`), when the group-to-session reference has no target
(`sesRsrc->getTargetURI().get()`), or when the destination string is not an address
(`from_string` throws); the same holds for the `Universe` event. With all values
present the event completes. -/
theorem C14_absent_values_are_fatal :
    objectUpdated some storeNoL2Universe class_id_t.Session sess1Uri SpanManager.init = none ∧
    objectUpdated some storeEpWithoutGroup class_id_t.Session sess1Uri SpanManager.init = none ∧
    objectUpdated some storeEpWithoutInterface class_id_t.Session sess1Uri SpanManager.init
      = none ∧
    objectUpdated some storeSessionWithoutName class_id_t.Session sess1Uri SpanManager.init
      = none ∧
    objectUpdated some storeRefWithoutTarget class_id_t.Session sess1Uri SpanManager.init
      = none ∧
    objectUpdated parseScenarioAddress storeBadDestination class_id_t.Session sess1Uri
      SpanManager.init = none ∧
    objectUpdated some storeNoL2Universe class_id_t.Universe "" SpanManager.init = none ∧
    objectUpdated parseScenarioAddress scenario1Store class_id_t.Session sess1Uri
      SpanManager.init = some scenario1Result := by
  decide

/-- C20 at the failing inputs: in Scenario 1 only "sess1" is tracked and its only source
member refers to "epg1"; asked for "epgX", which no session refers to,
`getEpgIfPartOfSession` returns the group "epg1". With "sess0" (referring to "epg0")
and "sess1" (referring to "epg1") tracked, asked for "epg1" it returns "epg0". -/
theorem C20_getEpgIfPartOfSession_ignores_argument :
    getEpgIfPartOfSession scenario1Store epgXUri scenario1Result.sess_map
      = some { uri := epg1Uri, spanSessionRSrc := [{ targetURI := some sess1Uri }] } ∧
    epgXUri ≠ epg1Uri ∧
    getEpgIfPartOfSession (twoSessionStore true true) epg1Uri twoSessionManager.sess_map
      = some { uri := epg0Uri, spanSessionRSrc := [{ targetURI := some sess0Uri }] } ∧
    epg0Uri ≠ epg1Uri := by
  decide

/-! ## Identities marked for notification stay marked -/

theorem NotifyLe_refl (a : SpanManager) : NotifyLe a a := fun _ h => h

theorem NotifyLe_trans {a b c : SpanManager} (h1 : NotifyLe a b) (h2 : NotifyLe b c) :
    NotifyLe a c := fun u h => h2 u (h1 u h)

theorem NotifyLe_markUpdate (a : SpanManager) (uri : URI) : NotifyLe a (a.markUpdate uri) :=
  fun _ h => mem_uset_insert_of_mem uri h

theorem foldlM_notify {α : Type} (f : SpanManager → α → Option SpanManager)
    (hstep : ∀ s x s', f s x = some s' → NotifyLe s s')
    (xs : List α) (s s' : SpanManager) (h : xs.foldlM f s = some s') : NotifyLe s s' :=
  foldlM_rel NotifyLe NotifyLe_refl (fun _ _ _ h1 h2 => NotifyLe_trans h1 h2) f hstep xs s s' h

theorem addEndpoint_notify {framework : OFFramework} {lEp : LocalEp} {l2Ep : L2Ep} {dir : Nat}
    {m m' : SpanManager} (h : addEndpoint framework lEp l2Ep dir m = some m') :
    NotifyLe m m' := by
  unfold addEndpoint at h
  split at h
  · cases h; exact NotifyLe_refl _
  · split at h
    · cases h; exact NotifyLe_markUpdate _ _
    · dsimp only [markUpdate_sess_map] at h
      split at h
      · cases h; exact NotifyLe_markUpdate _ _
      · simp only [Option.bind_eq_bind, Option.bind_eq_some, Option.pure_def,
          Option.some.injEq] at h
        obtain ⟨name, _, port, _, rfl⟩ := h
        intro u hu
        exact mem_uset_insert_of_mem _ (mem_uset_insert_of_mem _ hu)

theorem processLocalEp_notify {framework : OFFramework} {uri : URI} {dir : Nat}
    {m m' : SpanManager} (h : processLocalEp framework uri dir m = some m') :
    NotifyLe m m' := by
  unfold processLocalEp at h
  split at h
  · cases h; exact NotifyLe_refl _
  · split at h
    · cases h; exact NotifyLe_refl _
    · split at h
      · cases h; exact NotifyLe_refl _
      · split at h
        · exact addEndpoint_notify h
        · cases h; exact fun _ hu => hu

theorem processEpGroupRef_notify {dir : Nat} {l2EpVec : List L2Ep} {m m' : SpanManager}
    {sesRsrc : EpGroupToSpanSessionRSrc}
    (h : processEpGroupRef dir l2EpVec m sesRsrc = some m') : NotifyLe m m' := by
  unfold processEpGroupRef at h
  simp only [Option.bind_eq_bind, Option.bind_eq_some] at h
  obtain ⟨target, _, h⟩ := h
  split at h
  · simp only [Option.pure_def, Option.some.injEq] at h
    subst h; exact NotifyLe_refl _
  · simp only [Option.bind_eq_some, Option.pure_def, Option.some.injEq] at h
    obtain ⟨seSt', _, rfl⟩ := h
    exact fun _ hu => mem_uset_insert_of_mem _ hu

theorem processEpGroup_notify {framework : OFFramework} {uri : URI} {dir : Nat}
    {m m' : SpanManager} (h : processEpGroup framework uri dir m = some m') :
    NotifyLe m m' := by
  unfold processEpGroup at h
  simp only [Option.bind_eq_bind, Option.bind_eq_some] at h
  obtain ⟨out, _, l2EpVec, _, h⟩ := h
  split at h
  · simp only [Option.pure_def, Option.some.injEq] at h
    subst h; exact NotifyLe_refl _
  · split at h
    · simp only [Option.pure_def, Option.some.injEq] at h
      subst h; exact NotifyLe_refl _
    · exact foldlM_notify _ (fun _ _ _ hs => processEpGroupRef_notify hs) _ _ _ h

theorem processSrcMember_notify {framework : OFFramework} {m m' : SpanManager}
    {srcMem : SrcMember} (h : processSrcMember framework m srcMem = some m') :
    NotifyLe m m' := by
  unfold processSrcMember at h
  split at h
  · cases h; exact NotifyLe_refl _
  · split at h
    · cases h; exact NotifyLe_refl _
    · split at h
      · split at h
        · cases h; exact NotifyLe_refl _
        · split at h
          · cases h; exact NotifyLe_refl _
          · exact processEpGroup_notify h
      · split at h
        · split at h
          · cases h; exact NotifyLe_refl _
          · split at h
            · cases h; exact NotifyLe_refl _
            · exact processLocalEp_notify h
        · cases h; exact NotifyLe_refl _

theorem processSrcGrp_notify {framework : OFFramework} {m m' : SpanManager}
    {srcGrp : SrcGrp} (h : processSrcGrp framework m srcGrp = some m') : NotifyLe m m' :=
  foldlM_notify _ (fun _ _ _ hs => processSrcMember_notify hs) _ _ _ h

theorem processDstGrp_notify {from_string : String → Option address} {sessUri : URI}
    {m m' : SpanManager} {dstGrp : DstGrp}
    (h : processDstGrp from_string sessUri m dstGrp = some m') : NotifyLe m m' := by
  unfold processDstGrp at h
  split at h
  · cases h; exact NotifyLe_refl _
  · simp only [Option.bind_eq_bind, Option.bind_eq_some, Option.pure_def,
      Option.some.injEq] at h
    obtain ⟨seSt', _, rfl⟩ := h
    exact fun _ hu => hu

theorem processSession_notify {from_string : String → Option address}
    {framework : OFFramework} {sess : Session} {m m' : SpanManager}
    (h : processSession from_string framework sess m = some m') : NotifyLe m m' := by
  obtain ⟨name, m1, _, h1, h2⟩ := processSession_some h
  have f1 := foldlM_notify _ (fun _ _ _ hs => processSrcGrp_notify hs) _ _ _ h1
  have f2 := foldlM_notify _ (fun _ _ _ hs => processDstGrp_notify hs) _ _ _ h2
  exact fun u hu => f2 u (f1 u hu)

theorem processUniverseSession_notify {from_string : String → Option address}
    {framework : OFFramework} {m m' : SpanManager} {sess : Session}
    (h : processUniverseSession from_string framework m sess = some m') :
    NotifyLe m m' ∧ sess.uri ∈ m'.notifyUpdate := by
  unfold processUniverseSession at h
  simp only [Option.bind_eq_bind, Option.bind_eq_some, Option.pure_def,
    Option.some.injEq] at h
  obtain ⟨m1, h1, rfl⟩ := h
  refine ⟨?_, mem_uset_insert _ _⟩
  split at h1
  · exact NotifyLe_trans (processSession_notify h1) (NotifyLe_markUpdate _ _)
  · cases h1; exact NotifyLe_markUpdate _ _

/-- C11: when the session container resolves and the `SessionContainer` change event
has been processed, every session enumerated from the store is tracked in the session
map, and an update notification has been dispatched for every one of them, whether it
was tracked before the event or materialized by it. -/
theorem C11_container_event_tracks_and_notifies_all
    (from_string : String → Option address) (framework : OFFramework) (uri : URI)
    (sessVec : List Session) (m m' : SpanManager)
    (hres : Universe.resolve framework = some sessVec)
    (h : objectUpdated from_string framework class_id_t.Universe uri m = some m') :
    ∀ sess ∈ sessVec,
      (∃ st, getSessionState m' sess.uri = some st) ∧
      (updateKey sess.uri, Task.spanUpdated sess.uri) ∈ m'.dispatched := by
  intro sess hs
  unfold objectUpdated processEvent at h
  simp only [hres, if_true, Option.map_eq_some'] at h
  obtain ⟨p1, hp1, rfl⟩ := h
  refine ⟨universe_run_tracks sessVec hp1 sess hs, dispatched_of_notifyUpdate ?_⟩
  exact foldlM_establish (fun _ => True) (fun a : SpanManager => sess.uri ∈ a.notifyUpdate)
    (processUniverseSession from_string framework) (fun _ _ _ _ _ => trivial)
    (fun _ _ _ hp hstep => (processUniverseSession_notify hstep).1 _ hp) sess
    (fun _ _ _ hstep => (processUniverseSession_notify hstep).2) sessVec hs m p1 trivial hp1

/-- C12: when the identity resolves to a store object and the `Session` change event
has been processed, the session is tracked under that identity with the name of the
store object and with its admin state (1 when the store object has none), and an
update notification for the identity has been dispatched. -/
theorem C12_session_event_materializes_name_and_state
    (from_string : String → Option address) (framework : OFFramework) (uri : URI)
    (sess : Session) (m m' : SpanManager)
    (hres : Session.resolve framework uri = some sess)
    (h : objectUpdated from_string framework class_id_t.Session uri m = some m') :
    (∃ st, getSessionState m' uri = some st ∧ sess.name = some st.name ∧
      st.adminState = sess.state.getD 1) ∧
    (updateKey uri, Task.spanUpdated uri) ∈ m'.dispatched := by
  obtain ⟨m1, h1, rfl⟩ := objectUpdated_session_some hres h
  have huri := Session_resolve_uri hres
  subst huri
  obtain ⟨name, a1, hname, hs1, hs2⟩ := processSession_some h1
  have hg := processSession_body_grow hs1 hs2
  obtain ⟨st, hst, hle⟩ := hg.2 sess.uri _ (umap_find_assign_self _ _ _)
  refine ⟨⟨st, hst, ?_, ?_⟩, dispatched_of_notifyUpdate (mem_uset_insert _ _)⟩
  · rw [hname, hle.2.1]
    rfl
  · rw [hle.2.2.1]
    rfl

/-- C11 with "sess0" tracked and "sess1" not yet: after the `Universe` event both are
tracked and both have an update notification. -/
theorem C11_container_event_tracks_and_notifies_all_witness :
    Universe.resolve (twoSessionStore false false)
        = some (twoSessionStore false false).sessions ∧
    objectUpdated some (twoSessionStore false false) class_id_t.Universe "" onlySess0Manager
        = some twoSessionAfterUniverse ∧
    ∀ sess ∈ (twoSessionStore false false).sessions,
      (∃ st, getSessionState twoSessionAfterUniverse sess.uri = some st) ∧
      (updateKey sess.uri, Task.spanUpdated sess.uri) ∈ twoSessionAfterUniverse.dispatched :=
  ⟨by decide, by decide,
   C11_container_event_tracks_and_notifies_all some (twoSessionStore false false) ""
     (twoSessionStore false false).sessions onlySess0Manager twoSessionAfterUniverse
     (by decide) (by decide)⟩

/-- C12, Scenario 1: after the `Session` event "sess1" is tracked with name "sess1" and
admin state 1, the store object having none, and is notified. -/
theorem C12_session_event_materializes_name_and_state_witness :
    Session.resolve scenario1Store sess1Uri = some sess1 ∧
    objectUpdated some scenario1Store class_id_t.Session sess1Uri SpanManager.init
        = some scenario1Result ∧
    ((∃ st, getSessionState scenario1Result sess1Uri = some st ∧ sess1.name = some st.name ∧
      st.adminState = sess1.state.getD 1) ∧
    (updateKey sess1Uri, Task.spanUpdated sess1Uri) ∈ scenario1Result.dispatched) :=
  ⟨by decide, by decide,
   C12_session_event_materializes_name_and_state some scenario1Store sess1Uri sess1
     SpanManager.init scenario1Result (by decide) (by decide)⟩

/-! ## Local-endpoint events that find no path to a session -/

theorem getSessionStr_no_marker :
    ∀ elements : List String, "SpanLocalEp" ∉ elements → getSessionStr elements = "" := by
  intro elements
  induction elements with
  | nil => intro _; rfl
  | cons e rest ih =>
    intro h
    have he : e ≠ "SpanLocalEp" := fun heq => h (by simp [heq])
    have hr : "SpanLocalEp" ∉ rest := fun hm => h (List.mem_cons_of_mem _ hm)
    simp only [getSessionStr, he, if_false]
    exact ih hr

theorem getSession_no_marker {lEp : LocalEp}
    (h : "SpanLocalEp" ∉ URI.getElements lEp.uri) : getSession lEp = none := by
  unfold getSession
  have : getSessionStr (URI.getElements lEp.uri).reverse = "" :=
    getSessionStr_no_marker _ (fun hm => h (List.mem_reverse.mp hm))
  simp [this]

theorem findSrcMem_foldl_none (uri : URI) :
    ∀ srcGrpVec : List SrcGrp,
      (∀ g ∈ srcGrpVec, findSrcMemInGrp uri g.srcMembers = none) →
      srcGrpVec.foldl (fun pSrcMem srcGrp =>
        match findSrcMemInGrp uri srcGrp.srcMembers with
        | some srcMem => some srcMem
        | none => pSrcMem) none = none := by
  intro srcGrpVec
  induction srcGrpVec with
  | nil => intro _; rfl
  | cons g rest ih =>
    intro h
    simp only [List.foldl_cons, h g (List.mem_cons_self _ _)]
    exact ih (fun g' hg' => h g' (List.mem_cons_of_mem _ hg'))

theorem findSrcMem_none_of_no_ref {framework : OFFramework} {sessUri uri : URI}
    (h : hasSrcMemberRef framework sessUri uri = false) :
    findSrcMem framework sessUri uri = none := by
  unfold hasSrcMemberRef at h
  unfold findSrcMem
  cases hr : Session.resolve framework sessUri with
  | none => rfl
  | some sess =>
    simp only [hr] at h ⊢
    apply findSrcMem_foldl_none
    intro g hg
    unfold findSrcMemInGrp
    rw [List.find?_eq_none]
    intro mem hmem
    have h1 := (List.any_eq_false.mp h) g hg
    have h2 := (List.any_eq_false.mp (by simpa using h1)) mem hmem
    simpa using h2

/-- When both notification sets are empty, dispatching changes nothing. -/
theorem dispatchNotifications_of_empty {m : SpanManager}
    (hU : m.notifyUpdate = []) (hD : m.notifyDelete = []) : dispatchNotifications m = m := by
  cases m
  simp only [dispatchNotifications] at hU hD ⊢
  subst hU hD
  simp

/-- C15: a `LocalEndpoint` change event, arriving between events (both notification sets
empty), whose identity does not resolve, or whose identity has no "SpanLocalEp" element,
or whose enclosing session has no source member referencing it, or for which the member
found has no direction, completes and leaves the session map and the deferred index as
they were and dispatches nothing. -/
theorem C15_local_endpoint_event_without_path
    (from_string : String → Option address) (framework : OFFramework) (uri : URI)
    (m : SpanManager)
    (hU : m.notifyUpdate = []) (hD : m.notifyDelete = [])
    (hcase : LocalEp.resolve framework uri = none ∨
      (∃ L, LocalEp.resolve framework uri = some L ∧ "SpanLocalEp" ∉ URI.getElements L.uri) ∨
      (∃ L S, LocalEp.resolve framework uri = some L ∧ getSession L = some S ∧
        hasSrcMemberRef framework S L.uri = false) ∨
      (∃ L S srcMem, LocalEp.resolve framework uri = some L ∧ getSession L = some S ∧
        findSrcMem framework S L.uri = some srcMem ∧ srcMem.dir = none)) :
    ∃ m', objectUpdated from_string framework class_id_t.LocalEp uri m = some m' ∧
      m'.sess_map = m.sess_map ∧ m'.l2EpUri = m.l2EpUri ∧ m'.dispatched = m.dispatched := by
  have hev : processEvent from_string framework class_id_t.LocalEp uri m = some m := by
    unfold processEvent
    simp only [reduceCtorEq, if_false, if_true]
    rcases hcase with h | ⟨L, hL, hmark⟩ | ⟨L, S, hL, hS, hno⟩ | ⟨L, S, srcMem, hL, hS, hmem, hdir⟩
    · simp only [h]
    · simp only [hL, getSession_no_marker hmark]
    · simp only [hL, hS, findSrcMem_none_of_no_ref hno]
    · simp only [hL, hS, hmem, hdir]
  refine ⟨m, ?_, rfl, rfl, rfl⟩
  unfold objectUpdated
  rw [hev, Option.map_some', dispatchNotifications_of_empty hU hD]

/-- C15, Scenario 1 with "lep1" in the store: "sess1" has no source member referring to
"lep1", and the event for "lep1" changes nothing. -/
theorem C15_local_endpoint_event_without_path_witness :
    scenario1Result.notifyUpdate = [] ∧ scenario1Result.notifyDelete = [] ∧
    (LocalEp.resolve scenario1StoreWithLep1 lep1Uri = some lep1 ∧
      getSession lep1 = some sess1Uri ∧
      hasSrcMemberRef scenario1StoreWithLep1 sess1Uri lep1.uri = false) ∧
    ∃ m', objectUpdated some scenario1StoreWithLep1 class_id_t.LocalEp lep1Uri scenario1Result
        = some m' ∧
      m'.sess_map = scenario1Result.sess_map ∧ m'.l2EpUri = scenario1Result.l2EpUri ∧
      m'.dispatched = scenario1Result.dispatched :=
  ⟨by decide, by decide, by decide,
   C15_local_endpoint_event_without_path some scenario1StoreWithLep1 lep1Uri scenario1Result
     (by decide) (by decide)
     (Or.inr (Or.inr (Or.inl ⟨lep1, sess1Uri, by decide, by decide, by decide⟩)))⟩

/-! ## The destination of a session -/

theorem processDstMember_noop {from_string : String → Option address} (seSt : SessionState)
    {dstMem : DstMember} (h : ∀ s, dstMem.dstSummary = some s → s.dest = none) :
    processDstMember from_string seSt dstMem = some seSt := by
  unfold processDstMember
  cases hs : dstMem.dstSummary with
  | none => rfl
  | some s => simp only [h s hs]

theorem processDstMember_fold_noop {from_string : String → Option address} :
    ∀ (post : List DstMember) (seSt : SessionState),
      (∀ x ∈ post, ∀ s, x.dstSummary = some s → s.dest = none) →
      post.foldlM (processDstMember from_string) seSt = some seSt := by
  intro post
  induction post with
  | nil => intro _ _; rfl
  | cons x rest ih =>
    intro seSt h
    simp only [List.foldlM_cons, processDstMember_noop seSt (h x (List.mem_cons_self _ _)),
      Option.bind_eq_bind, Option.some_bind]
    exact ih seSt (fun y hy => h y (List.mem_cons_of_mem _ hy))

/-- The state after the destination members `pre`, the member with summary `summ` that
has an address, and members `post` without an address: the address is the one of
`summ`; the version is the one of `summ` when it has one, otherwise the version the
state had after `pre`. -/
theorem processDstMember_fold_last {from_string : String → Option address}
    {pre post : List DstMember} {summ : DstSummary} {dest : String} {seSt seSt' : SessionState}
    (hdest : summ.dest = some dest)
    (hpost : ∀ x ∈ post, ∀ s, x.dstSummary = some s → s.dest = none)
    (h : (pre ++ { dstSummary := some summ } :: post).foldlM (processDstMember from_string) seSt
      = some seSt') :
    ∃ ip stPre, from_string dest = some ip ∧
      pre.foldlM (processDstMember from_string) seSt = some stPre ∧
      seSt'.destination = some ip ∧
      (∀ v, summ.version = some v → seSt'.version = some v) ∧
      (summ.version = none → seSt'.version = stPre.version) ∧
      seSt'.srcEndpoints = stPre.srcEndpoints := by
  simp only [List.foldlM_append, List.foldlM_cons, Option.bind_eq_bind,
    Option.bind_eq_some] at h
  obtain ⟨stPre, hpre, st1, hmem, hrest⟩ := h
  rw [processDstMember_fold_noop post st1 hpost] at hrest
  cases hrest
  unfold processDstMember at hmem
  simp only [hdest, Option.bind_eq_bind, Option.bind_eq_some] at hmem
  obtain ⟨ip, hip, hmem⟩ := hmem
  refine ⟨ip, stPre, hip, hpre, ?_⟩
  cases hv : summ.version with
  | none =>
    simp only [hv, Option.pure_def, Option.some.injEq] at hmem
    subst hmem
    exact ⟨rfl, fun v hv' => (by cases hv'), fun _ => rfl, rfl⟩
  | some v =>
    simp only [hv, Option.pure_def, Option.some.injEq] at hmem
    subst hmem
    exact ⟨rfl, fun v' hv' => (by cases hv'; rfl), fun hn => (by cases hn), rfl⟩

/-- C13 (as amended): after `processDstGrp` on a tracked session, when the last
destination member that has an address has summary `summ`, the destination of the
session is the address of `summ`, and the version of the session is the version of
`summ` whenever `summ` has a version; a summary without a version leaves the version
as the members before it left it. For a session with a single destination member with
address `a` and version `v`, the state materialized by the `Session` event has the
destination parsed from `a` and version `v`. -/
theorem C13_destination_and_version
    (from_string : String → Option address) :
    (∀ (sessUri : URI) (m m' : SpanManager) (dstGrp : DstGrp) (pre post : List DstMember)
        (summ : DstSummary) (dest : String) (seSt : SessionState),
      dstGrp.dstMembers = pre ++ { dstSummary := some summ } :: post →
      summ.dest = some dest →
      (∀ x ∈ post, ∀ s, x.dstSummary = some s → s.dest = none) →
      getSessionState m sessUri = some seSt →
      processDstGrp from_string sessUri m dstGrp = some m' →
      ∃ seSt' ip stPre, getSessionState m' sessUri = some seSt' ∧
        from_string dest = some ip ∧ seSt'.destination = some ip ∧
        (∀ v, summ.version = some v → seSt'.version = some v) ∧
        pre.foldlM (processDstMember from_string) seSt = some stPre ∧
        (summ.version = none → seSt'.version = stPre.version)) ∧
    (∀ (framework : OFFramework) (uri : URI) (sess : Session) (a : String) (v : Nat)
        (m m' : SpanManager),
      Session.resolve framework uri = some sess →
      sess.dstGrps = [{ dstMembers := [{ dstSummary := some { dest := some a,
                                                               version := some v } }] }] →
      objectUpdated from_string framework class_id_t.Session uri m = some m' →
      ∃ seSt ip, getSessionState m' uri = some seSt ∧ from_string a = some ip ∧
        seSt.destination = some ip ∧ seSt.version = some v) := by
  have partA : ∀ (sessUri : URI) (m m' : SpanManager) (dstGrp : DstGrp)
      (pre post : List DstMember) (summ : DstSummary) (dest : String) (seSt : SessionState),
      dstGrp.dstMembers = pre ++ { dstSummary := some summ } :: post →
      summ.dest = some dest →
      (∀ x ∈ post, ∀ s, x.dstSummary = some s → s.dest = none) →
      getSessionState m sessUri = some seSt →
      processDstGrp from_string sessUri m dstGrp = some m' →
      ∃ seSt' ip stPre, getSessionState m' sessUri = some seSt' ∧
        from_string dest = some ip ∧ seSt'.destination = some ip ∧
        (∀ v, summ.version = some v → seSt'.version = some v) ∧
        pre.foldlM (processDstMember from_string) seSt = some stPre ∧
        (summ.version = none → seSt'.version = stPre.version) := by
    intro sessUri m m' dstGrp pre post summ dest seSt hmem hdest hpost htr h
    unfold getSessionState at htr
    unfold processDstGrp at h
    simp only [htr, hmem, Option.bind_eq_bind, Option.bind_eq_some, Option.pure_def,
      Option.some.injEq] at h
    obtain ⟨seSt', hfold, rfl⟩ := h
    obtain ⟨ip, stPre, hip, hpre, hd, hv, hn, _⟩ := processDstMember_fold_last hdest hpost hfold
    exact ⟨seSt', ip, stPre, umap_find_assign_self _ _ _, hip, hd, hv, hpre, hn⟩
  refine ⟨partA, ?_⟩
  intro framework uri sess a v m m' hres hdst h
  obtain ⟨m1, h1, rfl⟩ := objectUpdated_session_some hres h
  have huri := Session_resolve_uri hres
  subst huri
  obtain ⟨name, a1, _, hs1, hs2⟩ := processSession_some h1
  have hg := foldlM_rel (fun a b : SpanManager => Grow a.sess_map b.sess_map)
    (fun _ => Grow_refl _) (fun _ _ _ g1 g2 => Grow_trans g1 g2) _
    (fun _ _ _ hs => processSrcGrp_grow hs) _ _ _ hs1
  obtain ⟨st1, hst1, _⟩ := hg.2 sess.uri _ (umap_find_assign_self _ _ _)
  rw [hdst] at hs2
  simp only [List.foldlM_cons, List.foldlM_nil, Option.bind_eq_bind, Option.bind_eq_some,
    Option.pure_def, Option.some.injEq] at hs2
  obtain ⟨m2, hm2, rfl⟩ := hs2
  obtain ⟨seSt', ip, _, hf, hip, hd, hv, _, _⟩ :=
    partA sess.uri a1 m2 _ [] [] { dest := some a, version := some v } a st1 rfl rfl
      (fun x hx => by cases hx) hst1 hm2
  exact ⟨seSt', ip, hf, hip, hd, hv v rfl⟩

/-- C13, Scenario 1: "sess1" has the single destination 10.0.0.5 with version 1, and the
materialized state has this destination and this version. -/
theorem C13_destination_and_version_witness :
    Session.resolve scenario1Store sess1Uri = some sess1 ∧
    objectUpdated some scenario1Store class_id_t.Session sess1Uri SpanManager.init
        = some scenario1Result ∧
    ∃ seSt ip, getSessionState scenario1Result sess1Uri = some seSt ∧
      (some "10.0.0.5" : Option address) = some ip ∧
      seSt.destination = some ip ∧ seSt.version = some 1 :=
  ⟨by decide, by decide,
   (C13_destination_and_version some).2 scenario1Store sess1Uri sess1 "10.0.0.5" 1
     SpanManager.init scenario1Result (by decide) (by decide) (by decide)⟩

/-- C13 fails as stated: with destination members (10.0.0.5, version 2) and then
(10.0.0.6, no version) the session ends with the address of the second summary and the
version of the first. -/
theorem C13_counterexample :
    ((objectUpdated some storeTwoDestinations class_id_t.Session sess1Uri
        SpanManager.init).bind fun m => getSessionState m sess1Uri).map
          (fun st => (st.destination, st.version))
      = some (some "10.0.0.6", some 2) ∧
    ({ dest := some "10.0.0.6", version := none } : DstSummary).version ≠ some 2 := by
  decide

/-! ## Every added source endpoint has a path -/

theorem Adds_refl (J : URI → SourceEndpoint → Prop) (a : List (URI × SessionState)) :
    Adds J a a :=
  fun _ st' _ hf he => Or.inl ⟨st', hf, he⟩

theorem Adds_trans {J : URI → SourceEndpoint → Prop} {a b c : List (URI × SessionState)}
    (h1 : Adds J a b) (h2 : Adds J b c) : Adds J a c := by
  intro T st' e hf he
  rcases h2 T st' e hf he with ⟨st, hfb, heb⟩ | hj
  · exact h1 T st e hfb heb
  · exact Or.inr hj

theorem Adds_mono {J J' : URI → SourceEndpoint → Prop} {a b : List (URI × SessionState)}
    (hJ : ∀ T e, J T e → J' T e) (h : Adds J a b) : Adds J' a b := by
  intro T st' e hf he
  rcases h T st' e hf he with hl | hj
  · exact Or.inl hl
  · exact Or.inr (hJ T e hj)

/-- The relation `foldlM_rel` speaks of, when the step is known to respect it only on
the elements of the list. -/
theorem foldlM_rel_mem {α σ : Type} (R : σ → σ → Prop) (hrefl : ∀ s, R s s)
    (htrans : ∀ a b c, R a b → R b c → R a c) (f : σ → α → Option σ) :
    ∀ (xs : List α), (∀ s x s', x ∈ xs → f s x = some s' → R s s') →
      ∀ (s s' : σ), xs.foldlM f s = some s' → R s s' := by
  intro xs
  induction xs with
  | nil =>
    intro _ s s' h
    simp only [List.foldlM_nil, Option.pure_def, Option.some.injEq] at h
    subst h
    exact hrefl s
  | cons x rest ih =>
    intro hstep s s' h
    simp only [List.foldlM_cons, Option.bind_eq_bind, Option.bind_eq_some] at h
    obtain ⟨s1, h1, h2⟩ := h
    exact htrans _ _ _ (hstep _ _ _ (List.mem_cons_self _ _) h1)
      (ih (fun a y b hy hf => hstep a y b (List.mem_cons_of_mem _ hy) hf) _ _ h2)

theorem foldlM_adds {α : Type} (J : URI → SourceEndpoint → Prop)
    (f : SpanManager → α → Option SpanManager)
    (hstep : ∀ s x s', f s x = some s' → Adds J s.sess_map s'.sess_map)
    (xs : List α) (s s' : SpanManager) (h : xs.foldlM f s = some s') :
    Adds J s.sess_map s'.sess_map :=
  foldlM_rel (fun a b : SpanManager => Adds J a.sess_map b.sess_map)
    (fun _ => Adds_refl J _) (fun _ _ _ h1 h2 => Adds_trans h1 h2) f hstep xs s s' h

/-- Storing under `k` a state whose source endpoints were all there or are justified. -/
theorem Adds_assign {J : URI → SourceEndpoint → Prop} (a : List (URI × SessionState))
    (k : URI) (st' : SessionState)
    (h : ∀ e ∈ st'.srcEndpoints,
      (∃ st, umap_find k a = some st ∧ e ∈ st.srcEndpoints) ∨ J k e) :
    Adds J a (umap_assign k st' a) := by
  intro T s e hf he
  by_cases hk : T = k
  · subst hk
    rw [umap_find_assign_self] at hf
    cases hf
    exact h e he
  · rw [umap_find_assign_ne _ _ hk] at hf
    exact Or.inl ⟨s, hf, he⟩

theorem mem_addSrcEndpoint_iff (s : SessionState) (e x : SourceEndpoint) :
    x ∈ (s.addSrcEndpoint e).srcEndpoints ↔ x ∈ s.srcEndpoints ∨ x = e := by
  unfold SessionState.addSrcEndpoint
  by_cases h : e ∈ s.srcEndpoints
  · simp only [h, if_true]
    constructor
    · exact fun hx => Or.inl hx
    · rintro (hx | rfl)
      · exact hx
      · exact h
  · simp [h]

/-- Adding one justified endpoint to a tracked state. -/
theorem Adds_assign_add {J : URI → SourceEndpoint → Prop} {a : List (URI × SessionState)}
    {k : URI} {st : SessionState} (e : SourceEndpoint)
    (hf : umap_find k a = some st) (hj : J k e) :
    Adds J a (umap_assign k (st.addSrcEndpoint e) a) := by
  apply Adds_assign
  intro x hx
  rcases (mem_addSrcEndpoint_iff st e x).mp hx with h | rfl
  · exact Or.inl ⟨st, hf, h⟩
  · exact Or.inr hj

theorem addEndpoint_adds_justified {framework : OFFramework} {lEp : LocalEp} {l2Ep : L2Ep}
    {dir : Nat} {m m' : SpanManager} (h : addEndpoint framework lEp l2Ep dir m = some m') :
    Adds (fun T e => getSession lEp = some T ∧ lEp.name = some e.name ∧ e.dir = dir)
      m.sess_map m'.sess_map := by
  unfold addEndpoint at h
  split at h
  · cases h; exact Adds_refl _ _
  · rename_i parent hgs
    split at h
    · cases h; exact Adds_refl _ _
    · rename_i sess hres
      dsimp only [markUpdate_sess_map] at h
      split at h
      · cases h; exact Adds_refl _ _
      · rename_i sesSt hfind
        simp only [Option.bind_eq_bind, Option.bind_eq_some, Option.pure_def,
          Option.some.injEq] at h
        obtain ⟨name, hname, port, _, rfl⟩ := h
        have hsu := Session_resolve_uri hres
        refine Adds_assign_add _ hfind ⟨?_, hname, rfl⟩
        rw [hsu]
        exact hgs

theorem ValidPath_mono {framework : OFFramework} {K K' : LocalEp → Prop} {S : URI}
    {e : SourceEndpoint} (hK : ∀ l, K l → K' l) (h : ValidPath framework K S e) :
    ValidPath framework K' S e := by
  obtain ⟨srcMem, memRef, target, h1, h2, h3, h4, h5⟩ := h
  refine ⟨srcMem, memRef, target, h1, h2, h3, h4, ?_⟩
  rcases h5 with ⟨lEp, hk, hu, hn⟩ | hg
  · exact Or.inl ⟨lEp, hK lEp hk, hu, hn⟩
  · exact Or.inr hg

theorem LocalEp_resolve_mem {framework : OFFramework} {uri : URI} {lEp : LocalEp}
    (h : LocalEp.resolve framework uri = some lEp) : InStore framework lEp := by
  unfold LocalEp.resolve at h
  exact List.mem_of_find?_eq_some h

theorem processLocalEp_adds_justified {framework : OFFramework} {uri : URI} {dir : Nat}
    {m m' : SpanManager} (h : processLocalEp framework uri dir m = some m') :
    Adds (fun T e => ∃ lEp : LocalEp, LocalEp.resolve framework uri = some lEp ∧
        getSession lEp = some T ∧ lEp.name = some e.name ∧ e.dir = dir)
      m.sess_map m'.sess_map := by
  unfold processLocalEp at h
  split at h
  · cases h; exact Adds_refl _ _
  · rename_i lEp hl
    split at h
    · cases h; exact Adds_refl _ _
    · split at h
      · cases h; exact Adds_refl _ _
      · split at h
        · exact Adds_mono (fun T e hj => ⟨lEp, hl, hj⟩) (addEndpoint_adds_justified h)
        · cases h; exact Adds_refl _ _

theorem addGroupEps_justified {dir : Nat} :
    ∀ (l2EpVec : List L2Ep) (s s' : SessionState), addGroupEps dir l2EpVec s = some s' →
      ∀ e ∈ s'.srcEndpoints, e ∈ s.srcEndpoints ∨
        ∃ ep ∈ l2EpVec, ep.uri = e.name ∧ ep.interfaceName = some e.port ∧ e.dir = dir := by
  intro l2EpVec
  induction l2EpVec with
  | nil =>
    intro s s' h e he
    simp only [addGroupEps, List.foldlM_nil, Option.pure_def, Option.some.injEq] at h
    subst h
    exact Or.inl he
  | cons ep rest ih =>
    intro s s' h e he
    unfold addGroupEps at h
    simp only [List.foldlM_cons, Option.bind_eq_bind, Option.bind_eq_some, Option.pure_def,
      Option.some.injEq] at h
    obtain ⟨s1, ⟨port, hport, rfl⟩, h2⟩ := h
    rcases ih _ s' h2 e he with h1 | ⟨ep', hep', hj⟩
    · rcases (mem_addSrcEndpoint_iff s _ e).mp h1 with h0 | rfl
      · exact Or.inl h0
      · exact Or.inr ⟨ep, List.mem_cons_self _ _, rfl, hport, rfl⟩
    · exact Or.inr ⟨ep', List.mem_cons_of_mem _ hep', hj⟩

theorem processEpGroupRef_adds_justified {dir : Nat} {l2EpVec : List L2Ep}
    {m m' : SpanManager} {sesRsrc : EpGroupToSpanSessionRSrc}
    (h : processEpGroupRef dir l2EpVec m sesRsrc = some m') :
    Adds (fun _ e => ∃ ep ∈ l2EpVec, ep.uri = e.name ∧ ep.interfaceName = some e.port ∧
        e.dir = dir) m.sess_map m'.sess_map := by
  unfold processEpGroupRef at h
  simp only [Option.bind_eq_bind, Option.bind_eq_some] at h
  obtain ⟨target, _, h⟩ := h
  split at h
  · simp only [Option.pure_def, Option.some.injEq] at h
    subst h; exact Adds_refl _ _
  · rename_i seSt hfind
    simp only [Option.bind_eq_some, Option.pure_def, Option.some.injEq] at h
    obtain ⟨seSt', hadd, rfl⟩ := h
    apply Adds_assign
    intro e he
    rcases addGroupEps_justified l2EpVec seSt seSt' hadd e he with h0 | hj
    · exact Or.inl ⟨seSt, hfind, h0⟩
    · exact Or.inr hj

theorem collectL2Eps_sub {uri : URI} :
    ∀ (out l2EpVec : List L2Ep), collectL2Eps uri out = some l2EpVec →
      ∀ ep ∈ l2EpVec, ep ∈ out ∧ ep.group = some uri := by
  intro out
  induction out with
  | nil =>
    intro vec h ep hep
    simp only [collectL2Eps, Option.some.injEq] at h
    subst h
    simp at hep
  | cons x rest ih =>
    intro vec h ep hep
    simp only [collectL2Eps, Option.bind_eq_bind, Option.bind_eq_some, Option.pure_def,
      Option.some.injEq] at h
    obtain ⟨egUri, hx, vec', hrest, rfl⟩ := h
    by_cases hu : uri = egUri
    · simp only [hu, if_true, List.mem_cons] at hep
      rcases hep with rfl | hep
      · exact ⟨List.mem_cons_self _ _, by rw [hx, hu]⟩
      · obtain ⟨h1, h2⟩ := ih vec' hrest ep hep
        exact ⟨List.mem_cons_of_mem _ h1, h2⟩
    · simp only [hu, if_false] at hep
      obtain ⟨h1, h2⟩ := ih vec' hrest ep hep
      exact ⟨List.mem_cons_of_mem _ h1, h2⟩

theorem processEpGroup_adds_justified {framework : OFFramework} {uri : URI} {dir : Nat}
    {m m' : SpanManager} (h : processEpGroup framework uri dir m = some m') :
    Adds (fun _ e => ∃ ep ∈ framework.l2Eps, ep.group = some uri ∧ ep.uri = e.name ∧
        ep.interfaceName = some e.port ∧ e.dir = dir) m.sess_map m'.sess_map := by
  unfold processEpGroup at h
  simp only [Option.bind_eq_bind, Option.bind_eq_some] at h
  obtain ⟨out, hout, l2EpVec, hvec, h⟩ := h
  have hout' : out = framework.l2Eps := by
    unfold L2Universe.resolve at hout
    split at hout
    · cases hout; rfl
    · cases hout
  subst hout'
  split at h
  · simp only [Option.pure_def, Option.some.injEq] at h
    subst h; exact Adds_refl _ _
  · split at h
    · simp only [Option.pure_def, Option.some.injEq] at h
      subst h; exact Adds_refl _ _
    · refine Adds_mono ?_ (foldlM_adds _ _
        (fun _ _ _ hs => processEpGroupRef_adds_justified hs) _ _ _ h)
      rintro _ e ⟨ep, hep, h1, h2, h3⟩
      obtain ⟨hin, hg⟩ := collectL2Eps_sub _ _ hvec ep hep
      exact ⟨ep, hin, hg, h1, h2, h3⟩

theorem processSrcMember_adds_justified {framework : OFFramework} {S : URI}
    {m m' : SpanManager} {srcMem : SrcMember} (hmem : MemberOf framework S srcMem)
    (h : processSrcMember framework m srcMem = some m') :
    Adds (fun _ e => ValidPath framework (InStore framework) S e) m.sess_map m'.sess_map := by
  unfold processSrcMember at h
  split at h
  · cases h; exact Adds_refl _ _
  · rename_i memRef href
    split at h
    · cases h; exact Adds_refl _ _
    · split at h
      · split at h
        · cases h; exact Adds_refl _ _
        · rename_i pUri hu
          split at h
          · cases h; exact Adds_refl _ _
          · rename_i dir hd
            refine Adds_mono ?_ (processEpGroup_adds_justified h)
            rintro _ e ⟨ep, hin, hg, h1, h2, h3⟩
            exact ⟨srcMem, memRef, pUri, hmem, by rw [hd, h3], href, hu,
              Or.inr ⟨ep, hin, hg, h1, h2⟩⟩
      · split at h
        · split at h
          · cases h; exact Adds_refl _ _
          · rename_i pUri hu
            split at h
            · cases h; exact Adds_refl _ _
            · rename_i dir hd
              refine Adds_mono ?_ (processLocalEp_adds_justified h)
              rintro _ e ⟨lEp, h1, _, h3, h4⟩
              exact ⟨srcMem, memRef, pUri, hmem, by rw [hd, h4], href, hu,
                Or.inl ⟨lEp, LocalEp_resolve_mem h1, LocalEp_resolve_uri h1, h3⟩⟩
        · cases h; exact Adds_refl _ _

theorem processDstGrp_adds_justified (J : URI → SourceEndpoint → Prop)
    {from_string : String → Option address} {sessUri : URI}
    {m m' : SpanManager} {dstGrp : DstGrp}
    (h : processDstGrp from_string sessUri m dstGrp = some m') :
    Adds J m.sess_map m'.sess_map := by
  unfold processDstGrp at h
  split at h
  · cases h; exact Adds_refl _ _
  · rename_i seSt hfind
    simp only [Option.bind_eq_bind, Option.bind_eq_some, Option.pure_def,
      Option.some.injEq] at h
    obtain ⟨seSt', hfold, rfl⟩ := h
    have hsrc : seSt'.srcEndpoints = seSt.srcEndpoints :=
      foldlM_rel (fun a b : SessionState => b.srcEndpoints = a.srcEndpoints) (fun _ => rfl)
        (fun _ _ _ h1 h2 => h2.trans h1) _ (fun _ _ _ hs => processDstMember_src hs) _ _ _ hfold
    apply Adds_assign
    intro e he
    exact Or.inl ⟨seSt, hfind, hsrc ▸ he⟩

theorem processSrcGrp_adds_justified {framework : OFFramework} {sess : Session}
    {m m' : SpanManager} {srcGrp : SrcGrp}
    (hin : sess ∈ framework.sessions) (hg : srcGrp ∈ sess.srcGrps)
    (h : processSrcGrp framework m srcGrp = some m') :
    Adds (fun _ e => ValidPath framework (InStore framework) sess.uri e)
      m.sess_map m'.sess_map :=
  foldlM_rel_mem (fun a b : SpanManager =>
      Adds (fun _ e => ValidPath framework (InStore framework) sess.uri e)
        a.sess_map b.sess_map)
    (fun _ => Adds_refl _ _) (fun _ _ _ g1 g2 => Adds_trans g1 g2) _ srcGrp.srcMembers
    (fun _ _ _ hm hs =>
      processSrcMember_adds_justified ⟨sess, srcGrp, hin, rfl, hg, hm⟩ hs) _ _ h

/-- Every source endpoint present after `processSession` was present before in the same
session or has a valid path to the processed session. -/
theorem processSession_adds_justified {from_string : String → Option address}
    {framework : OFFramework} {sess : Session} {m m' : SpanManager}
    (hin : sess ∈ framework.sessions)
    (h : processSession from_string framework sess m = some m') :
    Adds (fun _ e => ValidPath framework (InStore framework) sess.uri e)
      m.sess_map m'.sess_map := by
  obtain ⟨name, m1, _, h1, h2⟩ := processSession_some h
  have h0 : Adds (fun _ e => ValidPath framework (InStore framework) sess.uri e) m.sess_map
      (umap_assign sess.uri (sessionStateOf sess name) m.sess_map) := by
    apply Adds_assign
    intro e he
    simp [sessionStateOf, SessionState.new, SessionState.setAdminState] at he
  have hsrc : Adds (fun _ e => ValidPath framework (InStore framework) sess.uri e)
      (umap_assign sess.uri (sessionStateOf sess name) m.sess_map) m1.sess_map :=
    foldlM_rel_mem (fun a b : SpanManager =>
        Adds (fun _ e => ValidPath framework (InStore framework) sess.uri e)
          a.sess_map b.sess_map)
      (fun _ => Adds_refl _ _) (fun _ _ _ g1 g2 => Adds_trans g1 g2) _ sess.srcGrps
      (fun _ _ _ hg hs => processSrcGrp_adds_justified hin hg hs) _ m1 h1
  exact Adds_trans h0 (Adds_trans hsrc
    (foldlM_adds _ _ (fun _ _ _ hs => processDstGrp_adds_justified _ hs) _ _ _ h2))

theorem findSrcMem_foldl_spec (uri : URI) {srcMem : SrcMember} :
    ∀ (srcGrpVec : List SrcGrp) (acc : Option SrcMember),
      srcGrpVec.foldl (fun pSrcMem srcGrp =>
        match findSrcMemInGrp uri srcGrp.srcMembers with
        | some sm => some sm
        | none => pSrcMem) acc = some srcMem →
      acc = some srcMem ∨
        ∃ g ∈ srcGrpVec, findSrcMemInGrp uri g.srcMembers = some srcMem := by
  intro srcGrpVec
  induction srcGrpVec with
  | nil => intro acc h; exact Or.inl h
  | cons g rest ih =>
    intro acc h
    simp only [List.foldl_cons] at h
    rcases ih _ h with h1 | ⟨g', hg', hf⟩
    · cases hg : findSrcMemInGrp uri g.srcMembers with
      | none =>
        simp only [hg] at h1
        exact Or.inl h1
      | some sm =>
        simp only [hg, Option.some.injEq] at h1
        subst h1
        exact Or.inr ⟨g, List.mem_cons_self _ _, hg⟩
    · exact Or.inr ⟨g', List.mem_cons_of_mem _ hg', hf⟩

/-- The member `findSrcMem` returns is a source member of the session, and its
reference targets the identity asked for. -/
theorem findSrcMem_spec {framework : OFFramework} {sessUri uri : URI} {srcMem : SrcMember}
    (h : findSrcMem framework sessUri uri = some srcMem) :
    MemberOf framework sessUri srcMem ∧
      ∃ memRef, srcMem.memberToRefRSrc = some memRef ∧ memRef.targetURI = some uri := by
  unfold findSrcMem at h
  split at h
  · cases h
  · rename_i sess hres
    rcases findSrcMem_foldl_spec uri _ _ h with h0 | ⟨g, hg, hf⟩
    · cases h0
    · unfold findSrcMemInGrp at hf
      have hmem := List.mem_of_find?_eq_some hf
      have hp := List.find?_some hf
      refine ⟨⟨sess, g, ?_, Session_resolve_uri hres, hg, hmem⟩, ?_⟩
      · unfold Session.resolve at hres
        exact List.mem_of_find?_eq_some hres
      · cases hr : srcMem.memberToRefRSrc with
        | none => simp [hr] at hp
        | some memRef =>
          simp only [hr, decide_eq_true_eq] at hp
          exact ⟨memRef, rfl, hp⟩

theorem processL2EpRef_adds_justified (known : LocalEp → Prop) {framework : OFFramework}
    {l2Ep : L2Ep} {egUri : URI} {m m' : SpanManager} {sesRsrc : EpGroupToSpanSessionRSrc}
    (hin : l2Ep ∈ framework.l2Eps) (hgrp : l2Ep.group = some egUri)
    (h : processL2EpRef framework l2Ep egUri m sesRsrc = some m') :
    Adds (fun T e => ValidPath framework known T e) m.sess_map m'.sess_map := by
  unfold processL2EpRef at h
  simp only [Option.bind_eq_bind, Option.bind_eq_some] at h
  obtain ⟨target, _, h⟩ := h
  split at h
  · simp only [Option.pure_def, Option.some.injEq] at h
    subst h; exact Adds_refl _ _
  · rename_i seSt hfind
    split at h
    · simp only [Option.pure_def, Option.some.injEq] at h
      subst h; exact Adds_refl _ _
    · rename_i srcMem hm
      split at h
      · simp only [Option.pure_def, Option.some.injEq] at h
        subst h; exact Adds_refl _ _
      · rename_i dir hd
        simp only [Option.bind_eq_some, Option.pure_def, Option.some.injEq] at h
        obtain ⟨port, hport, rfl⟩ := h
        obtain ⟨hmo, memRef, href, htgt⟩ := findSrcMem_spec hm
        exact Adds_assign_add _ hfind
          ⟨srcMem, memRef, egUri, hmo, hd, href, htgt, Or.inr ⟨l2Ep, hin, hgrp, rfl, hport⟩⟩

theorem umap_find_mem {β : Type} {k : URI} {v : β} :
    ∀ m : List (URI × β), umap_find k m = some v → (k, v) ∈ m := by
  intro m
  induction m with
  | nil => intro h; simp [umap_find] at h
  | cons p rest ih =>
    intro h
    obtain ⟨a, w⟩ := p
    by_cases hak : a = k
    · simp only [umap_find, hak, if_true, Option.some.injEq] at h
      subst h hak
      exact List.mem_cons_self _ _
    · simp only [umap_find, hak, if_false] at h
      exact List.mem_cons_of_mem _ (ih h)

theorem processL2Ep_adds_justified {framework : OFFramework} {l2Ep : L2Ep}
    {m m' : SpanManager} (hin : l2Ep ∈ framework.l2Eps)
    (h : processL2Ep framework l2Ep m = some m') :
    Adds (fun T e => ValidPath framework (Deferred m) T e) m.sess_map m'.sess_map := by
  unfold processL2Ep at h
  split at h
  · rename_i lEp hentry
    split at h
    · cases h; exact Adds_refl _ _
    · rename_i sessUri hgs
      split at h
      · cases h; exact Adds_refl _ _
      · split at h
        · cases h; exact Adds_refl _ _
        · rename_i pSmem hm
          split at h
          · cases h; exact Adds_refl _ _
          · rename_i dir hd
            simp only [Option.bind_eq_bind, Option.bind_eq_some, Option.pure_def,
              Option.some.injEq] at h
            obtain ⟨mA, hadd, rfl⟩ := h
            obtain ⟨hmo, memRef, href, htgt⟩ := findSrcMem_spec hm
            refine Adds_mono ?_ (addEndpoint_adds_justified hadd : Adds _ m.sess_map mA.sess_map)
            rintro T e ⟨hT, hname, hdir⟩
            rw [hgs] at hT
            cases hT
            exact ⟨pSmem, memRef, lEp.uri, hmo, by rw [hd, hdir], href, htgt,
              Or.inl ⟨lEp, ⟨l2Ep.uri, umap_find_mem _ hentry⟩, rfl, hname⟩⟩
  · split at h
    · cases h; exact Adds_refl _ _
    · rename_i egUri hgrp
      split at h
      · cases h; exact Adds_refl _ _
      · exact foldlM_adds _ _
          (fun _ _ _ hs => processL2EpRef_adds_justified _ hin hgrp hs) _ _ _ h

theorem processUniverseSession_adds_justified {from_string : String → Option address}
    {framework : OFFramework} {m m' : SpanManager} {sess : Session}
    (hin : sess ∈ framework.sessions)
    (h : processUniverseSession from_string framework m sess = some m') :
    Adds (fun _ e => ∃ S, ValidPath framework (InStore framework) S e)
      m.sess_map m'.sess_map := by
  unfold processUniverseSession at h
  simp only [Option.bind_eq_bind, Option.bind_eq_some, Option.pure_def,
    Option.some.injEq] at h
  obtain ⟨m1, h1, rfl⟩ := h
  split at h1
  · exact Adds_mono (fun _ e hv => ⟨sess.uri, hv⟩)
      (processSession_adds_justified hin h1 : Adds _ m.sess_map m1.sess_map)
  · cases h1; exact Adds_refl _ _

theorem Adds_erase (J : URI → SourceEndpoint → Prop) (a : List (URI × SessionState))
    (k : URI) : Adds J a (umap_erase k a) := by
  intro T st' e hf he
  by_cases hk : T = k
  · subst hk
    rw [umap_find_erase_self] at hf
    cases hf
  · rw [umap_find_erase_ne _ hk] at hf
    exact Or.inl ⟨st', hf, he⟩

/-- Every source endpoint present after an event was present before in the same
session or is justified by the event, through a local endpoint of the store or of the
deferred index, or through a forwarding endpoint of the store. -/
theorem processEvent_adds_justified {from_string : String → Option address}
    {framework : OFFramework} {classId : class_id_t} {uri : URI} {m m' : SpanManager}
    (h : processEvent from_string framework classId uri m = some m') :
    Adds (JustifiedBy (fun l => InStore framework l ∨ Deferred m l)
        { framework := framework, classId := classId, uri := uri })
      m.sess_map m'.sess_map := by
  unfold processEvent at h
  by_cases hU : classId = class_id_t.Universe
  · simp only [hU, if_true] at h
    subst hU
    split at h
    · cases h; exact Adds_refl _ _
    · rename_i sessVec hres
      have hv : sessVec = framework.sessions := by
        unfold Universe.resolve at hres
        split at hres
        · cases hres; rfl
        · cases hres
      subst hv
      refine Adds_mono ?_ (foldlM_rel_mem (fun a b : SpanManager =>
          Adds (fun _ e => ∃ S, ValidPath framework (InStore framework) S e)
            a.sess_map b.sess_map)
        (fun _ => Adds_refl _ _) (fun _ _ _ g1 g2 => Adds_trans g1 g2) _ framework.sessions
        (fun _ _ _ hin hs => processUniverseSession_adds_justified hin hs) _ _ h)
      rintro T e ⟨S, hv⟩
      exact ⟨S, ValidPath_mono (fun _ hl => Or.inl hl) hv,
        fun hc => (by rcases hc with hc | hc <;> cases hc), fun hc => (by cases hc)⟩
  · simp only [hU, if_false] at h
    by_cases hL : classId = class_id_t.LocalEp
    · simp only [hL, if_true] at h
      subst hL
      split at h
      · cases h; exact Adds_refl _ _
      · rename_i lEp hl
        split at h
        · cases h; exact Adds_refl _ _
        · rename_i sesUri hgs
          split at h
          · cases h; exact Adds_refl _ _
          · rename_i pSmem hm
            split at h
            · cases h; exact Adds_refl _ _
            · rename_i dir hd
              obtain ⟨hmo, memRef, href, htgt⟩ := findSrcMem_spec hm
              refine Adds_mono ?_ (processLocalEp_adds_justified h)
              rintro T e ⟨lEp', hl', hT, hname, hdir⟩
              rw [hl] at hl'
              cases hl'
              rw [hgs] at hT
              cases hT
              exact ⟨sesUri, ⟨pSmem, memRef, lEp.uri, hmo, by rw [hd, hdir], href, htgt,
                Or.inl ⟨lEp, Or.inl (LocalEp_resolve_mem hl), rfl, hname⟩⟩,
                fun _ => rfl, fun hc => (by cases hc)⟩
    · simp only [hL, if_false] at h
      by_cases hE : classId = class_id_t.L2Ep
      · simp only [hE, if_true] at h
        subst hE
        split at h
        · cases h; exact Adds_refl _ _
        · rename_i l2Ep hr
          have hin : l2Ep ∈ framework.l2Eps := by
            unfold L2Ep.resolve at hr
            exact List.mem_of_find?_eq_some hr
          refine Adds_mono ?_ (processL2Ep_adds_justified hin h)
          intro T e hv
          exact ⟨T, ValidPath_mono (fun _ hl => Or.inr hl) hv, fun _ => rfl,
            fun hc => (by cases hc)⟩
      · simp only [hE, if_false] at h
        by_cases hS : classId = class_id_t.Session
        · simp only [hS, if_true] at h
          subst hS
          split at h
          · rename_i sess hres
            simp only [Option.bind_eq_bind, Option.bind_eq_some, Option.pure_def,
              Option.some.injEq] at h
            obtain ⟨pA, hA, rfl⟩ := h
            have hin : sess ∈ framework.sessions := by
              unfold Session.resolve at hres
              exact List.mem_of_find?_eq_some hres
            refine Adds_mono ?_
              (processSession_adds_justified hin hA : Adds _ m.sess_map pA.sess_map)
            intro T e hv
            exact ⟨sess.uri, ValidPath_mono (fun _ hl => Or.inl hl) hv,
              fun hc => (by rcases hc with hc | hc <;> cases hc),
              fun _ => Session_resolve_uri hres⟩
          · split at h
            · cases h; exact Adds_refl _ _
            · cases h; exact Adds_erase _ _ _
        · simp only [hS, if_false] at h
          cases h; exact Adds_refl _ _

/-! ## The deferred index only takes objects of the store -/

theorem DefLe_refl (framework : OFFramework) (a : SpanManager) : DefLe framework a a :=
  fun _ h => Or.inl h

theorem DefLe_trans {framework : OFFramework} {a b c : SpanManager}
    (h1 : DefLe framework a b) (h2 : DefLe framework b c) : DefLe framework a c := by
  intro l hl
  rcases h2 l hl with h | h
  · exact h1 l h
  · exact Or.inr h

theorem DefLe_of_eq {framework : OFFramework} {a b : SpanManager}
    (h : b.l2EpUri = a.l2EpUri) : DefLe framework a b := by
  rintro l ⟨k, hk⟩
  exact Or.inl ⟨k, h ▸ hk⟩

theorem foldlM_defle {α : Type} (framework : OFFramework)
    (f : SpanManager → α → Option SpanManager)
    (hf : ∀ s x s', f s x = some s' → DefLe framework s s') :
    ∀ (xs : List α) (s s' : SpanManager), xs.foldlM f s = some s' → DefLe framework s s' :=
  foldlM_rel (DefLe framework) (DefLe_refl framework) (fun _ _ _ h1 h2 => DefLe_trans h1 h2)
    f hf

theorem foldlM_l2EpUri {α : Type} (f : SpanManager → α → Option SpanManager)
    (hf : ∀ s x s', f s x = some s' → s'.l2EpUri = s.l2EpUri) :
    ∀ (xs : List α) (s s' : SpanManager), xs.foldlM f s = some s' →
      s'.l2EpUri = s.l2EpUri :=
  foldlM_rel (fun a b : SpanManager => b.l2EpUri = a.l2EpUri) (fun _ => rfl)
    (fun _ _ _ h1 h2 => h2.trans h1) f hf

theorem addEndpoint_l2EpUri {framework : OFFramework} {lEp : LocalEp} {l2Ep : L2Ep}
    {dir : Nat} {m m' : SpanManager} (h : addEndpoint framework lEp l2Ep dir m = some m') :
    m'.l2EpUri = m.l2EpUri := by
  unfold addEndpoint at h
  split at h
  · cases h; rfl
  · dsimp only [markUpdate_sess_map] at h
    split at h
    · cases h; rfl
    · split at h
      · cases h; rfl
      · simp only [Option.bind_eq_bind, Option.bind_eq_some, Option.pure_def,
          Option.some.injEq] at h
        obtain ⟨_, _, _, _, rfl⟩ := h
        rfl

theorem processLocalEp_defle {framework : OFFramework} {uri : URI} {dir : Nat}
    {m m' : SpanManager} (h : processLocalEp framework uri dir m = some m') :
    DefLe framework m m' := by
  unfold processLocalEp at h
  split at h
  · cases h; exact DefLe_refl _ _
  · rename_i lEp hl
    split at h
    · cases h; exact DefLe_refl _ _
    · split at h
      · cases h; exact DefLe_refl _ _
      · rename_i epUri _
        split at h
        · exact DefLe_of_eq (addEndpoint_l2EpUri h)
        · cases h
          rintro l ⟨k, hk⟩
          dsimp only at hk
          unfold umap_emplace at hk
          split at hk
          · exact Or.inl ⟨k, hk⟩
          · rcases List.mem_append.mp hk with hk | hk
            · exact Or.inl ⟨k, hk⟩
            · simp only [List.mem_singleton, Prod.mk.injEq] at hk
              obtain ⟨_, rfl⟩ := hk
              exact Or.inr (LocalEp_resolve_mem hl)

theorem processEpGroupRef_l2EpUri {dir : Nat} {l2EpVec : List L2Ep}
    {m m' : SpanManager} {sesRsrc : EpGroupToSpanSessionRSrc}
    (h : processEpGroupRef dir l2EpVec m sesRsrc = some m') :
    m'.l2EpUri = m.l2EpUri := by
  unfold processEpGroupRef at h
  simp only [Option.bind_eq_bind, Option.bind_eq_some] at h
  obtain ⟨target, _, h⟩ := h
  split at h
  · simp only [Option.pure_def, Option.some.injEq] at h
    subst h; rfl
  · simp only [Option.bind_eq_some, Option.pure_def, Option.some.injEq] at h
    obtain ⟨_, _, rfl⟩ := h
    rfl

theorem processEpGroup_l2EpUri {framework : OFFramework} {uri : URI} {dir : Nat}
    {m m' : SpanManager} (h : processEpGroup framework uri dir m = some m') :
    m'.l2EpUri = m.l2EpUri := by
  unfold processEpGroup at h
  simp only [Option.bind_eq_bind, Option.bind_eq_some] at h
  obtain ⟨out, _, l2EpVec, _, h⟩ := h
  split at h
  · simp only [Option.pure_def, Option.some.injEq] at h
    subst h; rfl
  · split at h
    · simp only [Option.pure_def, Option.some.injEq] at h
      subst h; rfl
    · exact foldlM_l2EpUri _ (fun _ _ _ hs => processEpGroupRef_l2EpUri hs) _ _ _ h

theorem processSrcMember_defle {framework : OFFramework} {m m' : SpanManager}
    {srcMem : SrcMember} (h : processSrcMember framework m srcMem = some m') :
    DefLe framework m m' := by
  unfold processSrcMember at h
  split at h
  · cases h; exact DefLe_refl _ _
  · split at h
    · cases h; exact DefLe_refl _ _
    · split at h
      · split at h
        · cases h; exact DefLe_refl _ _
        · split at h
          · cases h; exact DefLe_refl _ _
          · exact DefLe_of_eq (processEpGroup_l2EpUri h)
      · split at h
        · split at h
          · cases h; exact DefLe_refl _ _
          · split at h
            · cases h; exact DefLe_refl _ _
            · exact processLocalEp_defle h
        · cases h; exact DefLe_refl _ _

theorem processSrcGrp_defle {framework : OFFramework} {m m' : SpanManager}
    {srcGrp : SrcGrp} (h : processSrcGrp framework m srcGrp = some m') :
    DefLe framework m m' :=
  foldlM_defle framework _ (fun _ _ _ hs => processSrcMember_defle hs) _ _ _ h

theorem processDstGrp_l2EpUri {from_string : String → Option address} {sessUri : URI}
    {m m' : SpanManager} {dstGrp : DstGrp}
    (h : processDstGrp from_string sessUri m dstGrp = some m') :
    m'.l2EpUri = m.l2EpUri := by
  unfold processDstGrp at h
  split at h
  · cases h; rfl
  · simp only [Option.bind_eq_bind, Option.bind_eq_some, Option.pure_def,
      Option.some.injEq] at h
    obtain ⟨_, _, rfl⟩ := h
    rfl

theorem processSession_defle {from_string : String → Option address}
    {framework : OFFramework} {sess : Session} {m m' : SpanManager}
    (h : processSession from_string framework sess m = some m') :
    DefLe framework m m' := by
  obtain ⟨name, m1, _, h1, h2⟩ := processSession_some h
  have hsrc := foldlM_defle framework _ (fun _ _ _ hs => processSrcGrp_defle hs) _ _ _ h1
  have hdst := foldlM_l2EpUri _ (fun _ _ _ hs => processDstGrp_l2EpUri hs) _ _ _ h2
  exact DefLe_trans (DefLe_trans (DefLe_of_eq rfl) hsrc) (DefLe_of_eq hdst)

theorem processL2EpRef_l2EpUri {framework : OFFramework} {l2Ep : L2Ep} {egUri : URI}
    {m m' : SpanManager} {sesRsrc : EpGroupToSpanSessionRSrc}
    (h : processL2EpRef framework l2Ep egUri m sesRsrc = some m') :
    m'.l2EpUri = m.l2EpUri := by
  unfold processL2EpRef at h
  simp only [Option.bind_eq_bind, Option.bind_eq_some] at h
  obtain ⟨target, _, h⟩ := h
  split at h
  · simp only [Option.pure_def, Option.some.injEq] at h
    subst h; rfl
  · split at h
    · simp only [Option.pure_def, Option.some.injEq] at h
      subst h; rfl
    · split at h
      · simp only [Option.pure_def, Option.some.injEq] at h
        subst h; rfl
      · simp only [Option.bind_eq_some, Option.pure_def, Option.some.injEq] at h
        obtain ⟨_, _, rfl⟩ := h
        rfl

theorem processL2Ep_defle {framework : OFFramework} {l2Ep : L2Ep}
    {m m' : SpanManager} (h : processL2Ep framework l2Ep m = some m') :
    DefLe framework m m' := by
  unfold processL2Ep at h
  split at h
  · split at h
    · cases h; exact DefLe_refl _ _
    · split at h
      · cases h; exact DefLe_refl _ _
      · split at h
        · cases h; exact DefLe_refl _ _
        · split at h
          · cases h; exact DefLe_refl _ _
          · simp only [Option.bind_eq_bind, Option.bind_eq_some, Option.pure_def,
              Option.some.injEq] at h
            obtain ⟨mA, hadd, rfl⟩ := h
            rintro l ⟨k, hk⟩
            dsimp only at hk
            unfold umap_erase at hk
            have hk' := (List.mem_filter.mp hk).1
            rw [addEndpoint_l2EpUri hadd] at hk'
            exact Or.inl ⟨k, hk'⟩
  · split at h
    · cases h; exact DefLe_refl _ _
    · split at h
      · cases h; exact DefLe_refl _ _
      · exact DefLe_of_eq (foldlM_l2EpUri _ (fun _ _ _ hs => processL2EpRef_l2EpUri hs) _ _ _ h)

theorem processUniverseSession_defle {from_string : String → Option address}
    {framework : OFFramework} {m m' : SpanManager} {sess : Session}
    (h : processUniverseSession from_string framework m sess = some m') :
    DefLe framework m m' := by
  unfold processUniverseSession at h
  simp only [Option.bind_eq_bind, Option.bind_eq_some, Option.pure_def,
    Option.some.injEq] at h
  obtain ⟨m1, h1, rfl⟩ := h
  split at h1
  · exact DefLe_trans (processSession_defle h1) (DefLe_of_eq rfl)
  · cases h1; exact DefLe_refl _ _

theorem processEvent_defle {from_string : String → Option address}
    {framework : OFFramework} {classId : class_id_t} {uri : URI} {m m' : SpanManager}
    (h : processEvent from_string framework classId uri m = some m') :
    DefLe framework m m' := by
  unfold processEvent at h
  split at h
  · split at h
    · cases h; exact DefLe_refl _ _
    · exact foldlM_defle framework _ (fun _ _ _ hs => processUniverseSession_defle hs) _ _ _ h
  · split at h
    · split at h
      · cases h; exact DefLe_refl _ _
      · split at h
        · cases h; exact DefLe_refl _ _
        · split at h
          · cases h; exact DefLe_refl _ _
          · split at h
            · cases h; exact DefLe_refl _ _
            · exact processLocalEp_defle h
    · split at h
      · split at h
        · cases h; exact DefLe_refl _ _
        · exact processL2Ep_defle h
      · split at h
        · split at h
          · simp only [Option.bind_eq_bind, Option.bind_eq_some, Option.pure_def,
              Option.some.injEq] at h
            obtain ⟨pA, hA, rfl⟩ := h
            exact DefLe_trans (processSession_defle hA) (DefLe_of_eq rfl)
          · split at h
            · cases h; exact DefLe_refl _ _
            · cases h; exact DefLe_of_eq rfl
        · cases h; exact DefLe_refl _ _

/-- Every local endpoint that waits in the deferred index after an event waited there
before or is an object of the store of the event. -/
theorem objectUpdated_defle {from_string : String → Option address}
    {framework : OFFramework} {classId : class_id_t} {uri : URI} {m m' : SpanManager}
    (h : objectUpdated from_string framework classId uri m = some m') :
    DefLe framework m m' := by
  unfold objectUpdated at h
  simp only [Option.map_eq_some'] at h
  obtain ⟨p, hp, rfl⟩ := h
  exact DefLe_trans (processEvent_defle hp) (DefLe_of_eq rfl)

theorem JustifiedBy_mono {K K' : LocalEp → Prop} {ev : Event} {T : URI}
    {e : SourceEndpoint} (hK : ∀ l, K l → K' l) (h : JustifiedBy K ev T e) :
    JustifiedBy K' ev T e := by
  obtain ⟨S, hv, h1, h2⟩ := h
  exact ⟨S, ValidPath_mono hK hv, h1, h2⟩

/-- Along a sequence of events started from a manager whose deferred local endpoints are
all `K`, every source endpoint of the final map was in the initial map or is justified by
one event of the sequence, through a local endpoint that is `K` or was an object of the
store of that event or of an earlier one. -/
theorem runEvents_adds_justified (from_string : String → Option address) :
    ∀ (evs : List Event) (K : LocalEp → Prop) (m m' : SpanManager),
      (∀ l, Deferred m l → K l) →
      runEvents from_string evs m = some m' →
      ∀ T st e, umap_find T m'.sess_map = some st → e ∈ st.srcEndpoints →
        (∃ st0, umap_find T m.sess_map = some st0 ∧ e ∈ st0.srcEndpoints) ∨
          ∃ pre ev post, evs = pre ++ ev :: post ∧
            JustifiedBy (fun l => K l ∨ KnownIn (pre ++ [ev]) l) ev T e := by
  intro evs
  induction evs with
  | nil =>
    intro K m m' _ h T st e hf he
    simp only [runEvents, List.foldlM_nil, Option.pure_def, Option.some.injEq] at h
    subst h
    exact Or.inl ⟨st, hf, he⟩
  | cons ev rest ih =>
    intro K m m' hK h T st e hf he
    simp only [runEvents, List.foldlM_cons, Option.bind_eq_bind, Option.bind_eq_some] at h
    obtain ⟨m1, h1, h2⟩ := h
    have hK1 : ∀ l, Deferred m1 l → K l ∨ InStore ev.framework l := by
      intro l hl
      rcases objectUpdated_defle h1 l hl with h0 | h0
      · exact Or.inl (hK l h0)
      · exact Or.inr h0
    rcases ih (fun l => K l ∨ InStore ev.framework l) m1 m' hK1 h2 T st e hf he with
      ⟨st1, hf1, he1⟩ | ⟨pre, ev', post, hsplit, hj⟩
    · unfold objectUpdated at h1
      simp only [Option.map_eq_some'] at h1
      obtain ⟨p1, hp1, rfl⟩ := h1
      rcases processEvent_adds_justified hp1 T st1 e hf1 he1 with hl | hj
      · exact Or.inl hl
      · refine Or.inr ⟨[], ev, rest, rfl, JustifiedBy_mono ?_ hj⟩
        rintro l (hl | hl)
        · exact Or.inr ⟨ev, by simp, hl⟩
        · exact Or.inl (hK l hl)
    · refine Or.inr ⟨ev :: pre, ev', post, by rw [hsplit]; rfl, JustifiedBy_mono ?_ hj⟩
      rintro l ((hl | hl) | ⟨x, hx, hl⟩)
      · exact Or.inl hl
      · exact Or.inr ⟨ev, by simp, hl⟩
      · exact Or.inr ⟨x, List.mem_cons_of_mem _ hx, hl⟩

/-- C16 (as amended): after any sequence of events processed from the initial manager,
every source endpoint `e` in the set of a tracked session `T` is justified by one event
`ev` of the sequence: in the store of `ev` some session `S` has a source member with the
direction of `e` whose reference targets either a local endpoint with the name of `e`
that was an object of the store of `ev` or of an earlier event, or the group of the
forwarding endpoint of that store named by `e` with the interface of `e`. For a
`LocalEp` or `L2Ep` event `S` is `T` itself; for a `Session` event `S` is the session of
the event, which need not be `T`. -/
theorem C16_source_endpoints_have_a_path
    (from_string : String → Option address) (evs : List Event) (m' : SpanManager)
    (h : runEvents from_string evs SpanManager.init = some m') :
    ∀ T st e, getSessionState m' T = some st → e ∈ st.srcEndpoints →
      ∃ pre ev post, evs = pre ++ ev :: post ∧
        JustifiedBy (KnownIn (pre ++ [ev])) ev T e := by
  intro T st e hf he
  have hinit : ∀ l, Deferred SpanManager.init l → False := by
    rintro l ⟨k, hk⟩
    simp [SpanManager.init] at hk
  rcases runEvents_adds_justified from_string evs (fun _ => False) SpanManager.init m'
      hinit h T st e hf he with ⟨st0, hf0, _⟩ | ⟨pre, ev, post, hsplit, hj⟩
  · simp [SpanManager.init, umap_find] at hf0
  · refine ⟨pre, ev, post, hsplit, JustifiedBy_mono ?_ hj⟩
    rintro l (hl | hl)
    · exact hl.elim
    · exact hl

/-- C16, Scenario 1: the endpoint of "sess1" after its `Session` event is justified. -/
theorem C16_source_endpoints_have_a_path_witness :
    runEvents some [⟨scenario1Store, class_id_t.Session, sess1Uri⟩] SpanManager.init
      = some scenario1Result ∧
    ∀ T st e, getSessionState scenario1Result T = some st → e ∈ st.srcEndpoints →
      ∃ pre ev post, [(⟨scenario1Store, class_id_t.Session, sess1Uri⟩ : Event)]
          = pre ++ ev :: post ∧
        JustifiedBy (KnownIn (pre ++ [ev])) ev T e :=
  ⟨by decide,
   C16_source_endpoints_have_a_path some [⟨scenario1Store, class_id_t.Session, sess1Uri⟩]
     scenario1Result (by decide)⟩

/-- C16 fails as stated: "sess1" refers to "epg1" with direction 1, and "epg1" refers
back to "sess0", which has no source member at all. The `Session` event for "sess1"
adds "ep-a" to the tracked session "sess0". -/
theorem C16_counterexample :
    (objectUpdated some storeCrossReference class_id_t.Universe "" SpanManager.init).map
        (fun m => m.sess_map)
      = some [(sess0Uri, { uri := sess0Uri, name := "sess0", adminState := 1,
                           destination := none, version := none,
                           srcEndpoints := [{ name := "/EprL2Universe/EprL2Ep/ep-a/",
                                              port := "eth0", dir := 1 }] }),
              (sess1Uri, { uri := sess1Uri, name := "sess1", adminState := 1,
                           destination := none, version := none, srcEndpoints := [] })] ∧
    sourcesOf (objectUpdated some storeCrossReference class_id_t.Session sess1Uri
        twoSessionManager) sess0Uri
      = some [{ name := "/EprL2Universe/EprL2Ep/ep-a/", port := "eth0", dir := 1 }] ∧
    hasSrcMemberRef storeCrossReference sess0Uri epg1Uri = false ∧
    (Session.resolve storeCrossReference sess0Uri).map
        (fun s => s.srcGrps.flatMap fun g => g.srcMembers) = some [] := by
  decide

/-! ## JsonRpcRenderer: the status returned by `connect` -/

/-- C19: `JsonRpcRenderer::connect` returns false on a renderer on which `start` has not
been called (no `JsonRpc` object yet, in particular the freshly constructed renderer);
after `start` with connection `conn_` it returns the status the `JsonRpc` built on
`conn_` reports after its `connect`, which for a `JsonRpc` that forwards to its
connection is the status the connection reports once `connect` has been invoked on it;
so with a connection whose `connect` always marks it connected the result is true. -/
theorem C19_connect_requires_start_and_reports_status {Conn J : Type}
    (ops : JsonRpcOps Conn J) (connOps : ConnOps Conn) (r : JsonRpcRenderer Conn J)
    (swName : String) (conn_ : Conn) (hfwd : Forwards ops connOps) :
    (JsonRpcRenderer.connect ops (JsonRpcRenderer.init : JsonRpcRenderer Conn J)).1 = false ∧
    (r.jRpc = none → (JsonRpcRenderer.connect ops r).1 = false) ∧
    (JsonRpcRenderer.connect ops (JsonRpcRenderer.start ops r swName conn_)).1
      = connOps.isConnected (connOps.connect conn_) ∧
    ((∀ c, connOps.isConnected (connOps.connect c) = true) →
      (JsonRpcRenderer.connect ops (JsonRpcRenderer.start ops r swName conn_)).1 = true) := by
  have h3 : (JsonRpcRenderer.connect ops (JsonRpcRenderer.start ops r swName conn_)).1
      = connOps.isConnected (connOps.connect conn_) := by
    rw [← hfwd conn_]
    unfold JsonRpcRenderer.connect JsonRpcRenderer.start
    by_cases ht : r.timerStarted = true <;> simp [ht]
  refine ⟨?_, ?_, h3, fun hm => ?_⟩
  · simp [JsonRpcRenderer.connect, JsonRpcRenderer.init]
  · intro hj
    unfold JsonRpcRenderer.connect
    by_cases ht : r.timerStarted = true <;> simp [ht, hj]
  · rw [h3, hm]

/-- C19 on the fixture of the renderer tests: `start("br-int", conn)` on a fresh renderer
with a `MockRpcConnection`, then `connect`. -/
theorem C19_connect_requires_start_and_reports_status_witness :
    Forwards mockJsonRpcOps mockConnOps ∧
    (JsonRpcRenderer.connect mockJsonRpcOps
      (JsonRpcRenderer.start mockJsonRpcOps JsonRpcRenderer.init "br-int"
        { connected := false })).1 = true :=
  ⟨fun _ => rfl,
   (C19_connect_requires_start_and_reports_status mockJsonRpcOps mockConnOps
      JsonRpcRenderer.init "br-int" { connected := false } (fun _ => rfl)).2.2.2
      (fun _ => rfl)⟩

/-! ## KeyedRateLimiter: spacing of the accepted events -/

theorem age_self (N c : Nat) : age N c c = 0 := by
  simp [age]

theorem age_le {N c i : Nat} (hc : c < N) : age N c i ≤ N - 1 := by
  unfold age
  split <;> omega

theorem next_cases {N c : Nat} (hc : c < N) :
    (c + 1 < N ∧ (c + 1) % N = c + 1) ∨ (c + 1 = N ∧ (c + 1) % N = 0) := by
  by_cases h : c + 1 < N
  · exact Or.inl ⟨h, Nat.mod_eq_of_lt h⟩
  · have h1 : c + 1 = N := by omega
    exact Or.inr ⟨h1, by rw [h1, Nat.mod_self]⟩

theorem age_next_self {N c : Nat} (hc : c < N) : age N c ((c + 1) % N) = N - 1 := by
  unfold age
  rcases next_cases hc with ⟨h1, h2⟩ | ⟨h1, h2⟩ <;> rw [h2] <;> split <;> omega

theorem age_next_ne {N c i : Nat} (hc : c < N) (hi : i < N) (hne : i ≠ (c + 1) % N) :
    age N ((c + 1) % N) i = age N c i + 1 := by
  unfold age
  rcases next_cases hc with ⟨h1, h2⟩ | ⟨h1, h2⟩ <;> rw [h2] at hne ⊢ <;>
    split <;> split <;> omega

theorem getD_set_self {α : Type} (d v : α) :
    ∀ (b : List α) (i : Nat), i < b.length → (b.set i v).getD i d = v := by
  intro b
  induction b with
  | nil => intro i hi; simp at hi
  | cons x rest ih =>
    intro i hi
    cases i with
    | zero => rfl
    | succ j =>
      simp only [List.set_cons_succ, List.getD_cons_succ]
      exact ih j (by simpa using hi)

theorem getD_set_ne {α : Type} (d v : α) :
    ∀ (b : List α) (i j : Nat), i ≠ j → (b.set i v).getD j d = b.getD j d := by
  intro b
  induction b with
  | nil => intro i j _; rfl
  | cons x rest ih =>
    intro i j hij
    cases i with
    | zero =>
      cases j with
      | zero => exact absurd rfl hij
      | succ j => rfl
    | succ i =>
      cases j with
      | zero => rfl
      | succ j =>
        simp only [List.set_cons_succ, List.getD_cons_succ]
        exact ih i j (fun h => hij (by rw [h]))

theorem getD_map_nil {α : Type} :
    ∀ (b : List (List α)) (i : Nat), (b.map (fun _ => ([] : List α))).getD i [] = [] := by
  intro b
  induction b with
  | nil => intro i; rfl
  | cons x rest ih =>
    intro i
    cases i with
    | zero => rfl
    | succ j =>
      simp only [List.map_cons, List.getD_cons_succ]
      exact ih j

theorem getD_replicate_nil {α : Type} :
    ∀ (n i : Nat), (List.replicate n ([] : List α)).getD i [] = [] := by
  intro n
  induction n with
  | zero => intro i; rfl
  | succ n ih =>
    intro i
    cases i with
    | zero => rfl
    | succ j =>
      simp only [List.replicate_succ, List.getD_cons_succ]
      exact ih j

theorem any_mem_iff {α : Type} [DecidableEq α] (key : α) :
    ∀ (b : List (List α)), b.any (fun ks => decide (key ∈ ks)) = true ↔
      ∃ i, i < b.length ∧ key ∈ b.getD i [] := by
  intro b
  induction b with
  | nil => simp
  | cons x rest ih =>
    rw [List.any_cons, Bool.or_eq_true, ih]
    constructor
    · rintro (h | ⟨i, hi, hk⟩)
      · exact ⟨0, by simp, by simpa using h⟩
      · exact ⟨i + 1, by simpa using hi, by simpa using hk⟩
    · rintro ⟨i, hi, hk⟩
      cases i with
      | zero => exact Or.inl (by simpa using hk)
      | succ j => exact Or.inr ⟨j, by simpa using hi, by simpa using hk⟩

theorem mem_uset_insert_iff {α : Type} [DecidableEq α] (x y : α) (s : List α) :
    y ∈ uset_insert x s ↔ y ∈ s ∨ y = x := by
  unfold uset_insert
  split
  · constructor
    · exact fun h => Or.inl h
    · rintro (h | rfl)
      · exact h
      · assumption
  · simp

theorem mem_bucketAt_insertCur {K : Type} [DecidableEq K] (key k : K)
    (l : KeyedRateLimiter K) (i : Nat) (hc : l.curBucket < l.buckets.length) :
    k ∈ bucketAt (l.insertCur key) i ↔ k ∈ bucketAt l i ∨ (i = l.curBucket ∧ k = key) := by
  unfold bucketAt KeyedRateLimiter.insertCur
  by_cases hi : i = l.curBucket
  · subst hi
    simp only [getD_set_self _ _ _ _ hc, mem_uset_insert_iff, true_and]
  · rw [getD_set_ne _ _ _ _ _ (fun h => hi h.symm)]
    simp [hi]

theorem sub_one_mul_add {N : Nat} (T : Nat) (hN : 1 ≤ N) : (N - 1) * T + T = T * N := by
  obtain ⟨n, rfl⟩ : ∃ n, N = n + 1 := ⟨N - 1, by omega⟩
  simp only [Nat.add_sub_cancel]
  rw [Nat.mul_comm T (n + 1), Nat.succ_mul]

theorem Inv_mono {K : Type} {N T : Nat} {l : KeyedRateLimiter K} {t t' : Nat}
    {H : List (K × Nat)} (h : Inv N T l t H) (ht : t ≤ t') : Inv N T l t' H where
  len := h.len
  cur := h.cur
  start := le_trans h.start ht
  recent := by
    intro k t1 hk
    obtain ⟨h1, h2⟩ := h.recent k t1 hk
    refine ⟨le_trans h1 ht, ?_⟩
    rcases h2 with h2 | h2
    · exact Or.inl h2
    · exact Or.inr (lt_of_lt_of_le h2 ht)
  origin := h.origin

/-- The loop of `event` ends within `now - curBucketStart` iterations, keeps the
invariant, and leaves the start of the current bucket at most one tick before `now`. -/
theorem advance_inv {K : Type} {N T now : Nat} (H : List (K × Nat)) :
    ∀ (fuel : Nat) (l : KeyedRateLimiter K), Inv N T l now H →
      (1 ≤ T ∨ ¬ l.curBucketStart + T < now) → now - l.curBucketStart ≤ fuel →
      ∃ l', KeyedRateLimiter.advance N T now fuel l = some l' ∧ Inv N T l' now H ∧
        ¬ l'.curBucketStart + T < now := by
  intro fuel
  induction fuel with
  | zero =>
    intro l hinv _ hf
    have hc : ¬ l.curBucketStart + T < now := by omega
    exact ⟨l, by simp [KeyedRateLimiter.advance, hc], hinv, hc⟩
  | succ fuel ih =>
    intro l hinv hT hf
    by_cases hc : l.curBucketStart + T < now
    · have hT1 : 1 ≤ T := by
        rcases hT with h | h
        · exact h
        · exact absurd hc h
      have hcur := hinv.cur
      have hnext : (l.curBucket + 1) % N < N := Nat.mod_lt _ (by omega)
      have hinv1 : Inv N T
          { curBucketStart := l.curBucketStart + T,
            curBucket := (l.curBucket + 1) % N,
            buckets := l.buckets.set ((l.curBucket + 1) % N) [] } now H := by
        refine ⟨by simp [hinv.len], hnext, by simp only; omega, ?_, ?_⟩
        · intro k t1 hk
          obtain ⟨h1, h2⟩ := hinv.recent k t1 hk
          refine ⟨h1, ?_⟩
          rcases h2 with ⟨i, hi, hmem, hage⟩ | h2
          · by_cases hin : i = (l.curBucket + 1) % N
            · right
              rw [hin, age_next_self hcur] at hage
              omega
            · left
              refine ⟨i, hi, ?_, ?_⟩
              · unfold bucketAt at hmem ⊢
                simp only
                rw [getD_set_ne _ _ _ _ _ (fun h => hin h.symm)]
                exact hmem
              · simp only
                rw [age_next_ne hcur hi hin, Nat.add_mul, Nat.one_mul]
                omega
          · exact Or.inr h2
        · intro i k hi hmem
          unfold bucketAt at hmem
          simp only at hmem
          by_cases hin : i = (l.curBucket + 1) % N
          · subst hin
            rw [getD_set_self _ _ _ _ (by rw [hinv.len]; exact hnext)] at hmem
            simp at hmem
          · rw [getD_set_ne _ _ _ _ _ (fun h => hin h.symm)] at hmem
            obtain ⟨t1, ht1, hle⟩ := hinv.origin i k hi hmem
            refine ⟨t1, ht1, ?_⟩
            simp only
            rw [age_next_ne hcur hi hin, Nat.add_mul, Nat.one_mul]
            omega
      obtain ⟨l', hl', hinv', hexit⟩ := ih _ hinv1 (Or.inl hT1) (by simp only; omega)
      refine ⟨l', ?_, hinv', hexit⟩
      simp only [KeyedRateLimiter.advance, hc, if_true]
      exact hl'
    · exact ⟨l, by simp [KeyedRateLimiter.advance, hc], hinv, hc⟩

/-- One call of `event` on a limiter that satisfies the invariant: it returns; when it
returns true every earlier accepted call for the key is more than `(N - 1) * T` before
its first reading; it returns true when every earlier accepted call for the key is more
than `T * N` before; and the invariant holds afterwards at the last reading. -/
theorem event_step {K : Type} [DecidableEq K] {N T : Nat} (hN : 1 ≤ N)
    {l : KeyedRateLimiter K} {tnow : Nat} {H : List (K × Nat)} (hinv : Inv N T l tnow H)
    (key : K) {now clearNow : Nat} (h1 : tnow ≤ now) (h2 : now ≤ clearNow) :
    ∃ res l', l.event N T key now clearNow = some (res, l') ∧
      (res = true → ∀ t1, (key, t1) ∈ H → t1 + (N - 1) * T < now) ∧
      ((∀ t1, (key, t1) ∈ H → t1 + T * N < now) → res = true) ∧
      Inv N T l' (l.lastReading N T now clearNow)
        (if res = true then (key, l.lastReading N T now clearNow) :: H else H) ∧
      now ≤ l.lastReading N T now clearNow ∧ l.lastReading N T now clearNow ≤ clearNow := by
  have hNT := sub_one_mul_add T hN
  have hfar : l.curBucketStart + T * N < now → ∀ k t1, (k, t1) ∈ H →
      t1 + (N - 1) * T < now := by
    intro hslow k t1 hk
    obtain ⟨_, h3⟩ := hinv.recent k t1 hk
    rcases h3 with ⟨i, _, _, hage⟩ | h3
    · have : t1 ≤ l.curBucketStart + T := le_trans (Nat.le_add_right _ _) hage
      omega
    · omega
  unfold KeyedRateLimiter.event KeyedRateLimiter.lastReading
  by_cases hslow : l.curBucketStart + T * N < now
  · simp only [hslow, if_true]
    have hlen : (l.do_clear clearNow).curBucket < (l.do_clear clearNow).buckets.length := by
      simp only [KeyedRateLimiter.do_clear, List.length_map, hinv.len]
      omega
    refine ⟨true, _, rfl, fun _ t1 hk => hfar hslow key t1 hk, fun _ => rfl, ?_, h2, le_refl _⟩
    simp only [if_true]
    refine ⟨?_, ?_, ?_, ?_, ?_⟩
    · simp [KeyedRateLimiter.insertCur, KeyedRateLimiter.do_clear, hinv.len]
    · simp only [KeyedRateLimiter.insertCur, KeyedRateLimiter.do_clear]
      omega
    · simp [KeyedRateLimiter.insertCur, KeyedRateLimiter.do_clear]
    · intro k t1 hk
      rcases List.mem_cons.mp hk with hk | hk
      · cases hk
        refine ⟨le_refl _, Or.inl ⟨0, by omega, ?_, ?_⟩⟩
        · rw [mem_bucketAt_insertCur _ _ _ _ hlen]
          exact Or.inr ⟨rfl, rfl⟩
        · simp [KeyedRateLimiter.insertCur, KeyedRateLimiter.do_clear, age_self]
      · have := hfar hslow k t1 hk
        have h3 := (hinv.recent k t1 hk).1
        exact ⟨by omega, Or.inr (by omega)⟩
    · intro i k _ hmem
      rw [mem_bucketAt_insertCur _ _ _ _ hlen] at hmem
      rcases hmem with hmem | ⟨_, rfl⟩
      · simp [bucketAt, KeyedRateLimiter.do_clear, getD_map_nil] at hmem
      · exact ⟨clearNow, List.mem_cons_self _ _,
          by simp [KeyedRateLimiter.insertCur, KeyedRateLimiter.do_clear]⟩
  · simp only [hslow, if_false]
    have hT : 1 ≤ T ∨ ¬ l.curBucketStart + T < now := by
      by_cases hT0 : T = 0
      · subst hT0
        right
        simp only [Nat.zero_mul] at hslow
        exact hslow
      · left; omega
    obtain ⟨l1, hl1, hinv1, hexit⟩ :=
      advance_inv H (now - l.curBucketStart) l (Inv_mono hinv h1) hT (le_refl _)
    simp only [hl1, Option.bind_eq_bind, Option.some_bind]
    have hlen1 : l1.curBucket < l1.buckets.length := by rw [hinv1.len]; exact hinv1.cur
    by_cases hany : l1.buckets.any (fun ks => decide (key ∈ ks)) = true
    · simp only [hany, if_true, Option.pure_def]
      refine ⟨false, l1, rfl, fun hf => (by cases hf), ?_, (by simpa using hinv1), le_refl _, h2⟩
      intro hall
      exfalso
      obtain ⟨i, hi, hmem⟩ := (any_mem_iff key _).mp hany
      rw [hinv1.len] at hi
      obtain ⟨t1, ht1, hle⟩ := hinv1.origin i key hi hmem
      have hage : age N l1.curBucket i * T ≤ (N - 1) * T :=
        Nat.mul_le_mul_right _ (age_le hinv1.cur)
      have := hall t1 ht1
      omega
    · simp only [hany, Option.pure_def]
      refine ⟨true, _, rfl, ?_, fun _ => rfl, ?_, le_refl _, h2⟩
      · intro _ t1 hk
        obtain ⟨_, h3⟩ := hinv1.recent key t1 hk
        rcases h3 with ⟨i, hi, hmem, _⟩ | h3
        · exact absurd ((any_mem_iff key _).mpr ⟨i, by rw [hinv1.len]; exact hi, hmem⟩) hany
        · exact h3
      · simp only [if_true]
        refine ⟨?_, ?_, ?_, ?_, ?_⟩
        · simp [KeyedRateLimiter.insertCur, hinv1.len]
        · exact hinv1.cur
        · exact hinv1.start
        · intro k t1 hk
          rcases List.mem_cons.mp hk with hk | hk
          · cases hk
            refine ⟨le_refl _, Or.inl ⟨l1.curBucket, hinv1.cur, ?_, ?_⟩⟩
            · rw [mem_bucketAt_insertCur _ _ _ _ hlen1]
              exact Or.inr ⟨rfl, rfl⟩
            · simp only [KeyedRateLimiter.insertCur, age_self, Nat.zero_mul]
              omega
          · obtain ⟨h3, h4⟩ := hinv1.recent k t1 hk
            refine ⟨h3, ?_⟩
            rcases h4 with ⟨i, hi, hmem, hage⟩ | h4
            · refine Or.inl ⟨i, hi, ?_, hage⟩
              rw [mem_bucketAt_insertCur _ _ _ _ hlen1]
              exact Or.inl hmem
            · exact Or.inr h4
        · intro i k hi hmem
          rw [mem_bucketAt_insertCur _ _ _ _ hlen1] at hmem
          rcases hmem with hmem | ⟨rfl, rfl⟩
          · obtain ⟨t1, ht1, hle⟩ := hinv1.origin i k hi hmem
            exact ⟨t1, List.mem_cons_of_mem _ ht1, hle⟩
          · refine ⟨now, List.mem_cons_self _ _, ?_⟩
            have := hinv1.start
            simp only [KeyedRateLimiter.insertCur]
            omega

theorem Inv_new {K : Type} {N T : Nat} (hN : 1 ≤ N) (t0 : Nat) :
    Inv N T (KeyedRateLimiter.new N t0 : KeyedRateLimiter K) t0 [] where
  len := by simp [KeyedRateLimiter.new]
  cur := by simp only [KeyedRateLimiter.new]; omega
  start := le_refl _
  recent := by intro k t1 hk; simp at hk
  origin := by
    intro i k _ hmem
    simp [bucketAt, KeyedRateLimiter.new, getD_replicate_nil] at hmem

theorem Inv_clear {K : Type} {N T : Nat} (hN : 1 ≤ N) {l : KeyedRateLimiter K}
    {tnow : Nat} {H : List (K × Nat)} (h : Inv N T l tnow H) (t : Nat) :
    Inv N T (l.clear t) t [] where
  len := by simp [KeyedRateLimiter.clear, KeyedRateLimiter.do_clear, h.len]
  cur := by simp only [KeyedRateLimiter.clear, KeyedRateLimiter.do_clear]; omega
  start := le_refl _
  recent := by intro k t1 hk; simp at hk
  origin := by
    intro i k _ hmem
    simp [bucketAt, KeyedRateLimiter.clear, KeyedRateLimiter.do_clear, getD_map_nil] at hmem

theorem pairwise_le_head {a b : Nat} {xs : List Nat} (hab : a ≤ b)
    (h : List.Pairwise (fun x y => x ≤ y) (b :: xs)) :
    List.Pairwise (fun x y => x ≤ y) (a :: xs) := by
  rw [List.pairwise_cons] at h ⊢
  exact ⟨fun x hx => le_trans hab (h.1 x hx), h.2⟩

/-- A sequence of `event` calls with non-decreasing clock readings, on a limiter that
satisfies the invariant, runs to the end, and any two accepted calls for one key, as well
as any accepted call and any earlier accepted call recorded in `H`, are more than
`(N - 1) * T` apart. -/
theorem runCalls_spaced {K : Type} [DecidableEq K] {N T : Nat} (hN : 1 ≤ N) :
    ∀ (calls : List (Call K)) (l : KeyedRateLimiter K) (tnow : Nat) (H : List (K × Nat)),
      Inv N T l tnow H → (∀ c ∈ calls, c.isEvent = true) →
      List.Pairwise (fun x y => x ≤ y) (tnow :: calls.flatMap Call.readings) →
      ∃ log l', runCalls N T calls l = some (log, l') ∧
        log.Pairwise (fun a b => a.key = b.key → a.result = true → b.result = true →
          a.last + (N - 1) * T < b.first) ∧
        ∀ k t1, (k, t1) ∈ H → ∀ b ∈ log, b.key = k → b.result = true →
          t1 + (N - 1) * T < b.first := by
  intro calls
  induction calls with
  | nil =>
    intro l tnow H _ _ _
    exact ⟨[], l, rfl, List.Pairwise.nil, fun _ _ _ b hb => (by simp at hb)⟩
  | cons c rest ih =>
    intro l tnow H hinv hev hs
    cases c with
    | clear t =>
      have := hev (Call.clear t) (List.mem_cons_self _ _)
      simp [Call.isEvent] at this
    | event key now clearNow =>
      simp only [List.flatMap_cons, Call.readings, List.cons_append, List.nil_append] at hs
      have h1 : tnow ≤ now := (List.pairwise_cons.mp hs).1 now (List.mem_cons_self _ _)
      have hs1 := (List.pairwise_cons.mp hs).2
      have h2 : now ≤ clearNow :=
        (List.pairwise_cons.mp hs1).1 clearNow (List.mem_cons_self _ _)
      have hs2 := (List.pairwise_cons.mp hs1).2
      obtain ⟨res, l1, hevent, hsp, _, hinv1, _, hlast⟩ := event_step hN hinv key h1 h2
      obtain ⟨log, l2, hrun, hpw, hH⟩ := ih l1 _ _ hinv1
        (fun c hc => hev c (List.mem_cons_of_mem _ hc)) (pairwise_le_head hlast hs2)
      refine ⟨⟨key, now, l.lastReading N T now clearNow, res⟩ :: log, l2, ?_, ?_, ?_⟩
      · simp only [runCalls, hevent, hrun]
      · rw [List.pairwise_cons]
        refine ⟨?_, hpw⟩
        intro b hb hkey hres hbres
        simp only at hkey hres
        subst hres
        exact hH key _ (by simp) b hb hkey.symm hbres
      · intro k t1 hk b hb hkey hbres
        rcases List.mem_cons.mp hb with hb | hb
        · subst hb
          simp only at hkey hbres
          subst hkey hbres
          exact hsp rfl t1 hk
        · refine hH k t1 ?_ b hb hkey hbres
          split
          · exact List.mem_cons_of_mem _ hk
          · exact hk

/-- A sequence of `event` and `clear` calls with non-decreasing clock readings, on a
limiter that satisfies the invariant, runs to the end and re-establishes the invariant,
at one of the readings, for a list of accepted calls that were recorded before or are in
the log. -/
theorem runCalls_inv {K : Type} [DecidableEq K] {N T : Nat} (hN : 1 ≤ N) :
    ∀ (calls : List (Call K)) (l : KeyedRateLimiter K) (tnow : Nat) (H : List (K × Nat)),
      Inv N T l tnow H →
      List.Pairwise (fun x y => x ≤ y) (tnow :: calls.flatMap Call.readings) →
      ∃ log l' tnow' H', runCalls N T calls l = some (log, l') ∧ Inv N T l' tnow' H' ∧
        tnow' ∈ tnow :: calls.flatMap Call.readings ∧
        ∀ k t1, (k, t1) ∈ H' → (k, t1) ∈ H ∨
          ∃ o ∈ log, o.key = k ∧ o.last = t1 ∧ o.result = true := by
  intro calls
  induction calls with
  | nil =>
    intro l tnow H hinv _
    exact ⟨[], l, tnow, H, rfl, hinv, List.mem_cons_self _ _, fun _ _ hk => Or.inl hk⟩
  | cons c rest ih =>
    intro l tnow H hinv hs
    cases c with
    | clear t =>
      simp only [List.flatMap_cons, Call.readings, List.cons_append, List.nil_append] at hs
      have hs1 := (List.pairwise_cons.mp hs).2
      obtain ⟨log, l2, tnow2, H2, hrun, hinv2, hmem, hH⟩ :=
        ih (l.clear t) t [] (Inv_clear hN hinv t) hs1
      refine ⟨log, l2, tnow2, H2, ?_, hinv2, ?_, ?_⟩
      · simp only [runCalls, hrun]
      · simp only [List.flatMap_cons, Call.readings, List.cons_append, List.nil_append]
        exact List.mem_cons_of_mem _ hmem
      · intro k t1 hk
        rcases hH k t1 hk with h | h
        · simp at h
        · exact Or.inr h
    | event key now clearNow =>
      simp only [List.flatMap_cons, Call.readings, List.cons_append, List.nil_append] at hs
      have h1 : tnow ≤ now := (List.pairwise_cons.mp hs).1 now (List.mem_cons_self _ _)
      have hs1 := (List.pairwise_cons.mp hs).2
      have h2 : now ≤ clearNow :=
        (List.pairwise_cons.mp hs1).1 clearNow (List.mem_cons_self _ _)
      have hs2 := (List.pairwise_cons.mp hs1).2
      obtain ⟨res, l1, hevent, _, _, hinv1, _, hlast⟩ := event_step hN hinv key h1 h2
      obtain ⟨log, l2, tnow2, H2, hrun, hinv2, hmem, hH⟩ := ih l1 _ _ hinv1
        (pairwise_le_head hlast hs2)
      refine ⟨⟨key, now, l.lastReading N T now clearNow, res⟩ :: log, l2, tnow2, H2,
        ?_, hinv2, ?_, ?_⟩
      · simp only [runCalls, hevent, hrun]
      · simp only [List.flatMap_cons, Call.readings, List.cons_append, List.nil_append]
        rcases List.mem_cons.mp hmem with hm | hm
        · rw [hm]
          unfold KeyedRateLimiter.lastReading
          split <;> simp
        · simp [hm]
      · intro k t1 hk
        rcases hH k t1 hk with h | ⟨o, ho, h⟩
        · by_cases hres : res = true
          · simp only [hres, if_true] at h
            rcases List.mem_cons.mp h with h | h
            · cases h
              exact Or.inr ⟨_, List.mem_cons_self _ _, rfl, rfl, hres⟩
            · exact Or.inl h
          · simp only [hres, if_false] at h
            exact Or.inl h
        · exact Or.inr ⟨o, List.mem_cons_of_mem _ ho, h⟩

/-- C17: for `NBUCKETS ≥ 1` and non-decreasing clock readings, every sequence of `event`
calls on a fresh limiter runs to the end, and any two calls for the same key that both
return true are more than `(NBUCKETS - 1) * BUCKET_TIME` apart: the last reading of the
earlier call plus that span is before the first reading of the later call. -/
theorem C17_accepted_events_are_spaced {K : Type} [DecidableEq K]
    (NBUCKETS BUCKET_TIME t0 : Nat) (hN : 1 ≤ NBUCKETS) (calls : List (Call K))
    (hev : ∀ c ∈ calls, c.isEvent = true)
    (hs : List.Pairwise (fun x y => x ≤ y) (t0 :: calls.flatMap Call.readings)) :
    ∃ log l, runCalls NBUCKETS BUCKET_TIME calls (KeyedRateLimiter.new NBUCKETS t0)
        = some (log, l) ∧
      log.Pairwise (fun a b => a.key = b.key → a.result = true → b.result = true →
        a.last + (NBUCKETS - 1) * BUCKET_TIME < b.first) := by
  obtain ⟨log, l, hrun, hpw, _⟩ :=
    runCalls_spaced hN calls (KeyedRateLimiter.new NBUCKETS t0) t0 []
      (Inv_new hN t0) hev hs
  exact ⟨log, l, hrun, hpw⟩

/-- C18: for `NBUCKETS ≥ 1` and non-decreasing clock readings, after any sequence of
`event` and `clear` calls on a fresh limiter, `event(key)` returns true whenever every
earlier call for the key that returned true took its last reading more than
`NBUCKETS * BUCKET_TIME` before; in particular when no earlier call was for the key,
whatever the calls for other keys; and it returns true as the first call after a
`clear`. -/
theorem C18_event_accepts_after_quiet_period {K : Type} [DecidableEq K]
    (NBUCKETS BUCKET_TIME t0 : Nat) (hN : 1 ≤ NBUCKETS) (calls : List (Call K))
    (key : K) (now clearNow : Nat)
    (hs : List.Pairwise (fun x y => x ≤ y) (t0 :: calls.flatMap Call.readings))
    (hnow : ∀ t ∈ t0 :: calls.flatMap Call.readings, t ≤ now) (hcn : now ≤ clearNow) :
    ∃ log l, runCalls NBUCKETS BUCKET_TIME calls (KeyedRateLimiter.new NBUCKETS t0)
        = some (log, l) ∧
      ((∀ o ∈ log, o.key = key → o.result = true →
          o.last + NBUCKETS * BUCKET_TIME < now) →
        ∃ l', l.event NBUCKETS BUCKET_TIME key now clearNow = some (true, l')) ∧
      ((∀ o ∈ log, o.key ≠ key) →
        ∃ l', l.event NBUCKETS BUCKET_TIME key now clearNow = some (true, l')) ∧
      (∀ t, t ≤ now →
        ∃ l', (l.clear t).event NBUCKETS BUCKET_TIME key now clearNow = some (true, l')) := by
  obtain ⟨log, l, tnow, H, hrun, hinv, hmem, hH⟩ :=
    runCalls_inv hN calls (KeyedRateLimiter.new NBUCKETS t0) t0 [] (Inv_new hN t0) hs
  have hfar : (∀ o ∈ log, o.key = key → o.result = true →
      o.last + NBUCKETS * BUCKET_TIME < now) →
      ∃ l', l.event NBUCKETS BUCKET_TIME key now clearNow = some (true, l') := by
    intro hall
    obtain ⟨res, l', hevent, _, htrue, _⟩ := event_step hN hinv key (hnow tnow hmem) hcn
    have hres : res = true := by
      apply htrue
      intro t1 hk
      rcases hH key t1 hk with h | ⟨o, ho, hkey, hlast, hres⟩
      · simp at h
      · have := hall o ho hkey hres
        rw [Nat.mul_comm BUCKET_TIME NBUCKETS, ← hlast]
        exact this
    subst hres
    exact ⟨l', hevent⟩
  refine ⟨log, l, hrun, hfar, ?_, ?_⟩
  · intro hnone
    exact hfar (fun o ho hkey => absurd hkey (hnone o ho))
  · intro t ht
    obtain ⟨res, l', hevent, _, htrue, _⟩ :=
      event_step hN (Inv_clear hN hinv t) key ht hcn
    have hres : res = true := htrue (fun t1 hk => by simp at hk)
    subst hres
    exact ⟨l', hevent⟩

/-- C17 on two buckets of 10 ms: "a" is accepted at 5, refused at 12 and accepted
again at 31, through the slow-rate branch whose `do_clear` reads the clock at 32. -/
theorem C17_accepted_events_are_spaced_witness :
    runCalls 2 10 [Call.event "a" 5 5, Call.event "a" 12 12, Call.event "a" 31 32]
        (KeyedRateLimiter.new 2 0)
      = some ([⟨"a", 5, 5, true⟩, ⟨"a", 12, 12, false⟩, ⟨"a", 31, 32, true⟩],
          { buckets := [["a"], []], curBucket := 0, curBucketStart := 32 }) ∧
    ∃ log l, runCalls 2 10 [Call.event "a" 5 5, Call.event "a" 12 12, Call.event "a" 31 32]
        (KeyedRateLimiter.new 2 0) = some (log, l) ∧
      log.Pairwise (fun a b => a.key = b.key → a.result = true → b.result = true →
        a.last + (2 - 1) * 10 < b.first) :=
  ⟨by decide,
   C17_accepted_events_are_spaced 2 10 0 (by decide)
     [Call.event "a" 5 5, Call.event "a" 12 12, Call.event "a" 31 32]
     (by decide) (by decide)⟩

/-- C18 on two buckets of 10 ms: after "a" at 5 and "b" at 7, "a" is accepted at 30. -/
theorem C18_event_accepts_after_quiet_period_witness :
    (runCalls 2 10 [Call.event "a" 5 5, Call.event "b" 7 7] (KeyedRateLimiter.new 2 0)).map
        Prod.fst = some [⟨"a", 5, 5, true⟩, ⟨"b", 7, 7, true⟩] ∧
    ∃ log l, runCalls 2 10 [Call.event "a" 5 5, Call.event "b" 7 7]
        (KeyedRateLimiter.new 2 0) = some (log, l) ∧
      ((∀ o ∈ log, o.key = "a" → o.result = true → o.last + 2 * 10 < 30) →
        ∃ l', l.event 2 10 "a" 30 30 = some (true, l')) ∧
      ((∀ o ∈ log, o.key ≠ "a") → ∃ l', l.event 2 10 "a" 30 30 = some (true, l')) ∧
      (∀ t, t ≤ 30 → ∃ l', (l.clear t).event 2 10 "a" 30 30 = some (true, l')) :=
  ⟨by decide,
   C18_event_accepts_after_quiet_period 2 10 0 (by decide)
     [Call.event "a" 5 5, Call.event "b" 7 7] "a" 30 30 (by decide) (by decide) (by decide)⟩

/-! ## The session identity of a local endpoint -/

theorem getSessionStr_skip (marker_rest : List String) :
    ∀ skipped : List String, "SpanLocalEp" ∉ skipped →
      getSessionStr (skipped ++ "SpanLocalEp" :: marker_rest)
        = (marker_rest.foldl (fun uriStr x => ("/" ++ x) ++ uriStr) "") ++ "/" := by
  intro skipped
  induction skipped with
  | nil => intro _; simp [getSessionStr]
  | cons e rest ih =>
    intro h
    have he : e ≠ "SpanLocalEp" := fun heq => h (by simp [heq])
    have hr : "SpanLocalEp" ∉ rest := fun hm => h (List.mem_cons_of_mem _ hm)
    simp only [List.cons_append, getSessionStr, he, if_false]
    exact ih hr

theorem prefix_foldr_append (pre : List String) (tail : String) :
    pre.foldr (fun x uriStr => ("/" ++ x) ++ uriStr) "" ++ tail
      = pre.foldr (fun x uriStr => ("/" ++ x) ++ uriStr) tail := by
  induction pre with
  | nil => simp
  | cons e rest ih =>
    simp only [List.foldr_cons]
    rw [String.append_assoc, ih]

theorem string_append_slash_ne_empty (s : String) : s ++ "/" ≠ "" := by
  intro h
  have := congrArg String.length h
  simp only [String.length_append] at this
  have h1 : "/".length = 1 := by decide
  have h0 : "".length = 0 := by decide
  omega

/-- C21: with `e1..en` the path elements of the identity of a local endpoint,
`getSession` returns none when no element is "SpanLocalEp"; when the last element equal
to "SpanLocalEp" is preceded by `pre = e1..e(k-1)`, it returns the identity whose string
is "/" e1 "/" ... "/" e(k-1) "/", which is "/" when `pre` is empty. -/
theorem C21_getSession_prefix_before_marker (lEp : LocalEp) :
    ("SpanLocalEp" ∉ URI.getElements lEp.uri → getSession lEp = none) ∧
    (∀ pre post : List String,
      URI.getElements lEp.uri = pre ++ "SpanLocalEp" :: post → "SpanLocalEp" ∉ post →
      getSession lEp = some (pre.foldr (fun e uriStr => ("/" ++ e) ++ uriStr) "/")) ∧
    (∀ post : List String,
      URI.getElements lEp.uri = "SpanLocalEp" :: post → "SpanLocalEp" ∉ post →
      getSession lEp = some "/") := by
  have hmain : ∀ pre post : List String,
      URI.getElements lEp.uri = pre ++ "SpanLocalEp" :: post → "SpanLocalEp" ∉ post →
      getSession lEp = some (pre.foldr (fun e uriStr => ("/" ++ e) ++ uriStr) "/") := by
    intro pre post hel hpost
    unfold getSession
    have hrev : (URI.getElements lEp.uri).reverse
        = post.reverse ++ "SpanLocalEp" :: pre.reverse := by
      rw [hel]; simp
    have hstr : getSessionStr (URI.getElements lEp.uri).reverse
        = pre.foldr (fun e uriStr => ("/" ++ e) ++ uriStr) "/" := by
      rw [hrev, getSessionStr_skip _ _ (fun hm => hpost (List.mem_reverse.mp hm)),
        List.foldl_reverse, prefix_foldr_append]
    have hne : pre.foldr (fun e uriStr => ("/" ++ e) ++ uriStr) "/" ≠ "" := by
      rw [← prefix_foldr_append]
      exact string_append_slash_ne_empty _
    simp only [hstr, hne, if_false]
  exact ⟨getSession_no_marker, hmain, fun post hel hpost => hmain [] post hel hpost⟩

/-- C21 on "lep1": the elements are SpanUniverse, SpanSession, sess1, SpanLocalEp, lep1,
and the session identity is "/SpanUniverse/SpanSession/sess1/". -/
theorem C21_getSession_prefix_before_marker_witness :
    URI.getElements lep1.uri = ["SpanUniverse", "SpanSession", "sess1"]
      ++ "SpanLocalEp" :: ["lep1"] ∧
    getSession lep1 = some "/SpanUniverse/SpanSession/sess1/" :=
  ⟨by decide,
   (C21_getSession_prefix_before_marker lep1).2.1 ["SpanUniverse", "SpanSession", "sess1"]
     ["lep1"] (by decide) (by decide)⟩

/-! ## Registration of the store listener -/

/-- C27 at the failing input: after `start` followed by `stop`, on any registry, the
listener is still registered for `Session`: `stop` unregisters it for `Universe`,
`LocalEp` and `L2Ep` only. On the empty registry exactly `Session` is left. -/
theorem C27_stop_leaves_session_listener (registry : List class_id_t) :
    class_id_t.Session ∈ SpanManager.stop (SpanManager.start registry) ∧
    class_id_t.Universe ∉ SpanManager.stop (SpanManager.start registry) ∧
    class_id_t.LocalEp ∉ SpanManager.stop (SpanManager.start registry) ∧
    class_id_t.L2Ep ∉ SpanManager.stop (SpanManager.start registry) ∧
    SpanManager.stop (SpanManager.start []) = [class_id_t.Session] := by
  refine ⟨?_, ?_, ?_, ?_, by decide⟩
  · simp only [SpanManager.stop, SpanManager.start, unregisterListener, registerListener,
      List.mem_filter]
    exact ⟨⟨⟨mem_uset_insert_of_mem _ (mem_uset_insert_of_mem _ (mem_uset_insert _ _)),
      (by decide)⟩, (by decide)⟩, (by decide)⟩
  · simp [SpanManager.stop, unregisterListener, List.mem_filter]
  · simp [SpanManager.stop, unregisterListener, List.mem_filter]
  · simp [SpanManager.stop, unregisterListener, List.mem_filter]

/-! ## Update notifications and tracked sessions -/

theorem NotifyOk_refl (P : URI → Prop) (a : SpanManager) : NotifyOk P a a :=
  ⟨fun _ h => h, fun _ h => Or.inl h⟩

theorem NotifyOk_trans {P : URI → Prop} {a b c : SpanManager}
    (h1 : NotifyOk P a b) (h2 : NotifyOk P b c) : NotifyOk P a c := by
  refine ⟨fun k hk => h2.1 k (h1.1 k hk), fun u hu => ?_⟩
  rcases h2.2 u hu with h | h | h
  · rcases h1.2 u h with h' | h' | h'
    · exact Or.inl h'
    · exact Or.inr (Or.inl (h2.1 u h'))
    · exact Or.inr (Or.inr h')
  · exact Or.inr (Or.inl h)
  · exact Or.inr (Or.inr h)

theorem NotifyOk_weaken {P P' : URI → Prop} {a b : SpanManager}
    (hP : ∀ u, P u → Tracked b.sess_map u ∨ P' u) (h : NotifyOk P a b) :
    NotifyOk P' a b := by
  refine ⟨h.1, fun u hu => ?_⟩
  rcases h.2 u hu with h' | h' | h'
  · exact Or.inl h'
  · exact Or.inr (Or.inl h')
  · exact Or.inr (hP u h')

theorem foldlM_nok {α : Type} (P : URI → Prop) (f : SpanManager → α → Option SpanManager)
    (hstep : ∀ s x s', f s x = some s' → NotifyOk P s s')
    (xs : List α) (s s' : SpanManager) (h : xs.foldlM f s = some s') : NotifyOk P s s' :=
  foldlM_rel (NotifyOk P) (NotifyOk_refl P) (fun _ _ _ h1 h2 => NotifyOk_trans h1 h2)
    f hstep xs s s' h

theorem NotifyOk_of_same_notify (P : URI → Prop) {a b : SpanManager}
    (hg : Grow a.sess_map b.sess_map) (hn : b.notifyUpdate = a.notifyUpdate) :
    NotifyOk P a b :=
  ⟨fun _ hk => Tracked_grow hk hg, fun _ hu => Or.inl (hn ▸ hu)⟩

theorem addEndpoint_nok {framework : OFFramework} {lEp : LocalEp} {l2Ep : L2Ep} {dir : Nat}
    {m m' : SpanManager} (h : addEndpoint framework lEp l2Ep dir m = some m') :
    NotifyOk (fun u => getSession lEp = some u) m m' := by
  refine ⟨fun _ hk => Tracked_grow hk (addEndpoint_grow h), ?_⟩
  unfold addEndpoint at h
  split at h
  · cases h; exact fun _ hu => Or.inl hu
  · rename_i parent hp
    split at h
    · cases h
      intro u hu
      rcases (mem_uset_insert_iff _ _ _).mp hu with hu | rfl
      · exact Or.inl hu
      · exact Or.inr (Or.inr hp)
    · dsimp only [markUpdate_sess_map] at h
      split at h
      · cases h
        intro u hu
        rcases (mem_uset_insert_iff _ _ _).mp hu with hu | rfl
        · exact Or.inl hu
        · exact Or.inr (Or.inr hp)
      · simp only [Option.bind_eq_bind, Option.bind_eq_some, Option.pure_def,
          Option.some.injEq] at h
        obtain ⟨name, _, port, _, rfl⟩ := h
        intro u hu
        rcases (mem_uset_insert_iff _ _ _).mp hu with hu | rfl
        · rcases (mem_uset_insert_iff _ _ _).mp hu with hu | rfl
          · exact Or.inl hu
          · exact Or.inr (Or.inr hp)
        · exact Or.inr (Or.inl ⟨_, umap_find_assign_self _ _ _⟩)

theorem processLocalEp_nok {framework : OFFramework} {uri : URI} {dir : Nat}
    {m m' : SpanManager} (h : processLocalEp framework uri dir m = some m') :
    NotifyOk (EnclosesLocalEp framework) m m' := by
  unfold processLocalEp at h
  split at h
  · cases h; exact NotifyOk_refl _ _
  · rename_i lEp hl
    split at h
    · cases h; exact NotifyOk_refl _ _
    · rename_i epRSrc hr
      split at h
      · cases h; exact NotifyOk_refl _ _
      · rename_i epUri ht
        split at h
        · rename_i l2Ep hres
          exact NotifyOk_weaken
            (fun u hu => Or.inr ⟨lEp, epRSrc, epUri, l2Ep, LocalEp_resolve_mem hl, hu, hr, ht,
              hres⟩)
            (addEndpoint_nok h)
        · cases h; exact ⟨fun _ hk => hk, fun _ hu => Or.inl hu⟩

theorem processEpGroupRef_nok {dir : Nat} {l2EpVec : List L2Ep} {m m' : SpanManager}
    {sesRsrc : EpGroupToSpanSessionRSrc}
    (h : processEpGroupRef dir l2EpVec m sesRsrc = some m') :
    NotifyOk (fun _ => False) m m' := by
  refine ⟨fun _ hk => Tracked_grow hk (processEpGroupRef_grow h), ?_⟩
  unfold processEpGroupRef at h
  simp only [Option.bind_eq_bind, Option.bind_eq_some] at h
  obtain ⟨target, _, h⟩ := h
  split at h
  · simp only [Option.pure_def, Option.some.injEq] at h
    subst h; exact fun _ hu => Or.inl hu
  · simp only [Option.bind_eq_some, Option.pure_def, Option.some.injEq] at h
    obtain ⟨seSt', _, rfl⟩ := h
    intro u hu
    rcases (mem_uset_insert_iff _ _ _).mp hu with hu | rfl
    · exact Or.inl hu
    · exact Or.inr (Or.inl ⟨_, umap_find_assign_self _ _ _⟩)

theorem processEpGroup_nok {framework : OFFramework} {uri : URI} {dir : Nat}
    {m m' : SpanManager} (h : processEpGroup framework uri dir m = some m') :
    NotifyOk (fun _ => False) m m' := by
  unfold processEpGroup at h
  simp only [Option.bind_eq_bind, Option.bind_eq_some] at h
  obtain ⟨out, _, l2EpVec, _, h⟩ := h
  split at h
  · simp only [Option.pure_def, Option.some.injEq] at h
    subst h; exact NotifyOk_refl _ _
  · split at h
    · simp only [Option.pure_def, Option.some.injEq] at h
      subst h; exact NotifyOk_refl _ _
    · exact foldlM_nok _ _ (fun _ _ _ hs => processEpGroupRef_nok hs) _ _ _ h

theorem processSrcMember_nok {framework : OFFramework} {m m' : SpanManager}
    {srcMem : SrcMember} (h : processSrcMember framework m srcMem = some m') :
    NotifyOk (EnclosesLocalEp framework) m m' := by
  unfold processSrcMember at h
  split at h
  · cases h; exact NotifyOk_refl _ _
  · split at h
    · cases h; exact NotifyOk_refl _ _
    · split at h
      · split at h
        · cases h; exact NotifyOk_refl _ _
        · split at h
          · cases h; exact NotifyOk_refl _ _
          · exact NotifyOk_weaken (fun _ hf => hf.elim) (processEpGroup_nok h)
      · split at h
        · split at h
          · cases h; exact NotifyOk_refl _ _
          · split at h
            · cases h; exact NotifyOk_refl _ _
            · exact processLocalEp_nok h
        · cases h; exact NotifyOk_refl _ _

theorem processSrcGrp_nok {framework : OFFramework} {m m' : SpanManager}
    {srcGrp : SrcGrp} (h : processSrcGrp framework m srcGrp = some m') :
    NotifyOk (EnclosesLocalEp framework) m m' :=
  foldlM_nok _ _ (fun _ _ _ hs => processSrcMember_nok hs) _ _ _ h

theorem processDstGrp_nok (P : URI → Prop) {from_string : String → Option address}
    {sessUri : URI} {m m' : SpanManager} {dstGrp : DstGrp}
    (h : processDstGrp from_string sessUri m dstGrp = some m') : NotifyOk P m m' := by
  refine NotifyOk_of_same_notify P (processDstGrp_grow h) ?_
  unfold processDstGrp at h
  split at h
  · cases h; rfl
  · simp only [Option.bind_eq_bind, Option.bind_eq_some, Option.pure_def,
      Option.some.injEq] at h
    obtain ⟨seSt', _, rfl⟩ := h
    rfl

theorem processSession_nok {from_string : String → Option address}
    {framework : OFFramework} {sess : Session} {m m' : SpanManager}
    (h : processSession from_string framework sess m = some m') :
    NotifyOk (EnclosesLocalEp framework) m m' := by
  obtain ⟨name, m1, _, h1, h2⟩ := processSession_some h
  have f0 : NotifyOk (EnclosesLocalEp framework) m
      { m with sess_map := umap_assign sess.uri (sessionStateOf sess name) m.sess_map } :=
    ⟨fun _ hk => Tracked_assign _ _ hk, fun _ hu => Or.inl hu⟩
  have f1 := foldlM_nok _ _ (fun _ _ _ hs => processSrcGrp_nok hs) _ _ _ h1
  have f2 := foldlM_nok (EnclosesLocalEp framework) _
    (fun _ _ _ hs => processDstGrp_nok _ hs) _ _ _ h2
  exact NotifyOk_trans f0 (NotifyOk_trans f1 f2)

theorem NotifyOk_markUpdate_tracked (P : URI → Prop) {a : SpanManager} {uri : URI}
    (h : Tracked a.sess_map uri) : NotifyOk P a (a.markUpdate uri) := by
  refine ⟨fun _ hk => hk, fun u hu => ?_⟩
  rcases (mem_uset_insert_iff _ _ _).mp hu with hu | rfl
  · exact Or.inl hu
  · exact Or.inr (Or.inl h)

theorem processUniverseSession_nok {from_string : String → Option address}
    {framework : OFFramework} {m m' : SpanManager} {sess : Session}
    (h : processUniverseSession from_string framework m sess = some m') :
    NotifyOk (EnclosesLocalEp framework) m m' := by
  unfold processUniverseSession at h
  simp only [Option.bind_eq_bind, Option.bind_eq_some, Option.pure_def,
    Option.some.injEq] at h
  obtain ⟨m1, h1, rfl⟩ := h
  split at h1
  · exact NotifyOk_trans (processSession_nok h1)
      (NotifyOk_markUpdate_tracked _ (processSession_tracked h1).1)
  · rename_i st hst
    cases h1
    exact NotifyOk_markUpdate_tracked _ ⟨st, hst⟩

theorem processL2EpRef_nok {framework : OFFramework} {l2Ep : L2Ep} {egUri : URI}
    {m m' : SpanManager} {sesRsrc : EpGroupToSpanSessionRSrc}
    (h : processL2EpRef framework l2Ep egUri m sesRsrc = some m') :
    NotifyOk (fun _ => False) m m' := by
  refine ⟨fun _ hk => Tracked_grow hk (processL2EpRef_grow h), ?_⟩
  unfold processL2EpRef at h
  simp only [Option.bind_eq_bind, Option.bind_eq_some] at h
  obtain ⟨target, _, h⟩ := h
  split at h
  · simp only [Option.pure_def, Option.some.injEq] at h
    subst h; exact fun _ hu => Or.inl hu
  · split at h
    · simp only [Option.pure_def, Option.some.injEq] at h
      subst h; exact fun _ hu => Or.inl hu
    · split at h
      · simp only [Option.pure_def, Option.some.injEq] at h
        subst h; exact fun _ hu => Or.inl hu
      · simp only [Option.bind_eq_some, Option.pure_def, Option.some.injEq] at h
        obtain ⟨port, _, rfl⟩ := h
        intro u hu
        rcases (mem_uset_insert_iff _ _ _).mp hu with hu | rfl
        · exact Or.inl hu
        · exact Or.inr (Or.inl ⟨_, umap_find_assign_self _ _ _⟩)

theorem processL2Ep_nok {framework : OFFramework} {l2Ep : L2Ep} {m m' : SpanManager}
    (h : processL2Ep framework l2Ep m = some m') : NotifyOk (fun _ => False) m m' := by
  unfold processL2Ep at h
  split at h
  · rename_i lEp _
    split at h
    · cases h; exact NotifyOk_refl _ _
    · rename_i sessUri hgs
      split at h
      · cases h; exact NotifyOk_refl _ _
      · rename_i st hst
        split at h
        · cases h; exact NotifyOk_refl _ _
        · split at h
          · cases h; exact NotifyOk_refl _ _
          · simp only [Option.bind_eq_bind, Option.bind_eq_some, Option.pure_def,
              Option.some.injEq] at h
            obtain ⟨mA, hadd, rfl⟩ := h
            have hA := addEndpoint_nok hadd
            refine ⟨hA.1, fun u hu => ?_⟩
            rcases hA.2 u hu with h' | h' | h'
            · exact Or.inl h'
            · exact Or.inr (Or.inl h')
            · rw [hgs] at h'
              cases h'
              exact Or.inr (Or.inl (hA.1 _ ⟨st, hst⟩))
  · split at h
    · cases h; exact NotifyOk_refl _ _
    · split at h
      · cases h; exact NotifyOk_refl _ _
      · exact foldlM_nok _ _ (fun _ _ _ hs => processL2EpRef_nok hs) _ _ _ h

/-- Every identity that is marked for an update notification when the branches of
`objectUpdated` are through, starting without marks, is tracked or encloses a local
endpoint of the store whose forwarding endpoint resolves; after a forwarding-endpoint
event it is tracked. -/
theorem processEvent_nok {from_string : String → Option address}
    {framework : OFFramework} {classId : class_id_t} {uri : URI} {m m' : SpanManager}
    (hU : m.notifyUpdate = [])
    (h : processEvent from_string framework classId uri m = some m') :
    (∀ u, u ∈ m'.notifyUpdate → Tracked m'.sess_map u ∨ EnclosesLocalEp framework u) ∧
    (classId = class_id_t.L2Ep → ∀ u, u ∈ m'.notifyUpdate → Tracked m'.sess_map u) := by
  have fin : ∀ {P : URI → Prop}, NotifyOk P m m' →
      ∀ u, u ∈ m'.notifyUpdate → Tracked m'.sess_map u ∨ P u := by
    intro P hok u hu
    rcases hok.2 u hu with h' | h'
    · rw [hU] at h'; cases h'
    · exact h'
  unfold processEvent at h
  by_cases hc1 : classId = class_id_t.Universe
  · simp only [hc1, if_true] at h
    refine ⟨?_, fun hc => (by rw [hc1] at hc; cases hc)⟩
    split at h
    · cases h; intro u hu; rw [hU] at hu; cases hu
    · exact fin (foldlM_nok _ _ (fun _ _ _ hs => processUniverseSession_nok hs) _ _ _ h)
  · simp only [hc1, if_false] at h
    by_cases hc2 : classId = class_id_t.LocalEp
    · simp only [hc2, if_true] at h
      refine ⟨?_, fun hc => (by rw [hc2] at hc; cases hc)⟩
      split at h
      · cases h; intro u hu; rw [hU] at hu; cases hu
      · split at h
        · cases h; intro u hu; rw [hU] at hu; cases hu
        · split at h
          · cases h; intro u hu; rw [hU] at hu; cases hu
          · split at h
            · cases h; intro u hu; rw [hU] at hu; cases hu
            · exact fin (processLocalEp_nok h)
    · simp only [hc2, if_false] at h
      by_cases hc3 : classId = class_id_t.L2Ep
      · simp only [hc3, if_true] at h
        have key : ∀ u, u ∈ m'.notifyUpdate → Tracked m'.sess_map u := by
          split at h
          · cases h; intro u hu; rw [hU] at hu; cases hu
          · intro u hu
            rcases fin (processL2Ep_nok h) u hu with h' | h'
            · exact h'
            · exact h'.elim
        exact ⟨fun u hu => Or.inl (key u hu), fun _ => key⟩
      · simp only [hc3, if_false] at h
        refine ⟨?_, fun hc => absurd hc hc3⟩
        by_cases hc4 : classId = class_id_t.Session
        · simp only [hc4, if_true] at h
          split at h
          · rename_i sess hres
            simp only [Option.bind_eq_bind, Option.bind_eq_some, Option.pure_def,
              Option.some.injEq] at h
            obtain ⟨pA, hA, rfl⟩ := h
            have ht : Tracked pA.sess_map uri := by
              have := (processSession_tracked hA).1
              rw [Session_resolve_uri hres] at this
              exact this
            exact fin (NotifyOk_trans (processSession_nok hA)
              (NotifyOk_markUpdate_tracked _ ht))
          · split at h
            · cases h; intro u hu; rw [hU] at hu; cases hu
            · cases h; intro u hu
              simp only at hu
              rw [hU] at hu; cases hu
        · simp only [hc4, if_false] at h
          cases h; intro u hu; rw [hU] at hu; cases hu

/-- C26 (as amended): for an event that arrives with no pending update mark, the tasks
`objectUpdated` submits are update notifications for identities `updates` followed by
delete notifications; every identity in `updates` is tracked in the session map when the
processing ends, or is the session identity derived by `getSession` from a local
endpoint of the store whose forwarding endpoint resolves (`addEndpoint` marks that
identity before it looks the session up). After a forwarding-endpoint event every
notified identity is tracked. -/
theorem C26_notified_identity_tracked_or_enclosing
    (from_string : String → Option address) (framework : OFFramework) (classId : class_id_t)
    (uri : URI) (m m' : SpanManager) (hU : m.notifyUpdate = [])
    (h : objectUpdated from_string framework classId uri m = some m') :
    ∃ (updates : List URI) (deletes : List SessionState),
      m'.dispatched = m.dispatched
        ++ updates.map (fun u => (updateKey u, Task.spanUpdated u))
        ++ deletes.map (fun s => (deleteKey s, Task.spanDeleted s)) ∧
      (∀ u, u ∈ updates → Tracked m'.sess_map u ∨ EnclosesLocalEp framework u) ∧
      (classId = class_id_t.L2Ep → ∀ u, u ∈ updates → Tracked m'.sess_map u) := by
  unfold objectUpdated at h
  simp only [Option.map_eq_some'] at h
  obtain ⟨p, hp, rfl⟩ := h
  have hd := processEvent_dispatched hp
  obtain ⟨h1, h2⟩ := processEvent_nok hU hp
  refine ⟨p.notifyUpdate, p.notifyDelete, ?_, h1, h2⟩
  simp [dispatchNotifications, hd]

/-- C26, Scenario 1: the `Session` event for "sess1" notifies "sess1", which is
tracked afterwards. -/
theorem C26_notified_identity_tracked_or_enclosing_witness :
    objectUpdated some scenario1Store class_id_t.Session sess1Uri SpanManager.init
        = some scenario1Result ∧
    ∃ (updates : List URI) (deletes : List SessionState),
      scenario1Result.dispatched = SpanManager.init.dispatched
        ++ updates.map (fun u => (updateKey u, Task.spanUpdated u))
        ++ deletes.map (fun s => (deleteKey s, Task.spanDeleted s)) ∧
      (∀ u, u ∈ updates → Tracked scenario1Result.sess_map u ∨
        EnclosesLocalEp scenario1Store u) ∧
      (class_id_t.Session = class_id_t.L2Ep →
        ∀ u, u ∈ updates → Tracked scenario1Result.sess_map u) :=
  ⟨by decide,
   C26_notified_identity_tracked_or_enclosing some scenario1Store class_id_t.Session
     sess1Uri SpanManager.init scenario1Result rfl (by decide)⟩

/-- C26 fails as stated: in Scenario 2 with "fep1" resolved, the `LocalEndpoint` event
for "lep1" arrives before "sess1" is tracked; `addEndpoint` marks "sess1", the update
notification for "sess1" is submitted, and the session map is still empty. -/
theorem C26_counterexample :
    objectUpdated some scenario2StoreResolved class_id_t.LocalEp lep1Uri SpanManager.init
      = some { sess_map := [], l2EpUri := [], notifyUpdate := [], notifyDelete := [],
               dispatched := [(sess1Uri, Task.spanUpdated sess1Uri)] } ∧
    (objectUpdated some scenario2StoreResolved class_id_t.LocalEp lep1Uri
        SpanManager.init).bind (fun m => getSessionState m sess1Uri) = none := by
  decide

/-! ## PrometheusManager: metric names -/

theorem Dead_nullable {r : Regex} (h : Dead r) : r.nullable = false := by
  induction h with
  | seq s => rfl
  | alt _ _ iha ihb => simp [Regex.nullable, iha, ihb]

theorem Dead_deriv {r : Regex} (h : Dead r) (c : Char) : Dead (r.deriv c) := by
  induction h with
  | seq s => exact Dead.seq s
  | alt _ _ iha ihb => exact Dead.alt iha ihb

theorem Dead_foldl (cs : List Char) :
    ∀ r : Regex, Dead r → (cs.foldl Regex.deriv r).nullable = false := by
  induction cs with
  | nil => intro r h; exact Dead_nullable h
  | cons c rest ih => intro r h; exact ih _ (Dead_deriv h c)

theorem Good_nullable {r : Regex} (h : Good r) : r.nullable = true := by
  induction h with
  | base => rfl
  | alt hd _ ih => simp [Regex.nullable, ih]

theorem Good_deriv_in {r : Regex} (h : Good r) {c : Char}
    (hc : inBracket metricNameLater c = true) : Good (r.deriv c) := by
  induction h with
  | base =>
    simp only [Regex.deriv, Regex.nullable, if_true, hc]
    exact Good.alt (Dead.seq _) Good.base
  | alt hd _ ih => exact Good.alt (Dead_deriv hd c) ih

theorem Good_deriv_out {r : Regex} (h : Good r) {c : Char}
    (hc : inBracket metricNameLater c = false) : Dead (r.deriv c) := by
  induction h with
  | base =>
    simp only [Regex.deriv, Regex.nullable, if_true, hc]
    exact Dead.alt (Dead.seq _) (Dead.seq _)
  | alt hd _ ih => exact Dead.alt (Dead_deriv hd c) ih

theorem Good_foldl (cs : List Char) :
    ∀ r : Regex, Good r →
      ((cs.foldl Regex.deriv r).nullable = true ↔
        ∀ d ∈ cs, inBracket metricNameLater d = true) := by
  induction cs with
  | nil => intro r h; simp [Good_nullable h]
  | cons c rest ih =>
    intro r h
    simp only [List.foldl_cons, List.mem_cons, forall_eq_or_imp]
    by_cases hc : inBracket metricNameLater c = true
    · rw [ih _ (Good_deriv_in h hc)]
      simp [hc]
    · have hc' : inBracket metricNameLater c = false := by simpa using hc
      rw [Dead_foldl rest _ (Good_deriv_out h hc')]
      simp [hc']

theorem range_lower_iff (c : Char) : ('a' ≤ c ∧ c ≤ 'z') ↔ c.isLower = true := by
  simp only [Char.isLower, Bool.and_eq_true, decide_eq_true_eq, ge_iff_le]
  exact Iff.rfl

theorem range_upper_iff (c : Char) : ('A' ≤ c ∧ c ≤ 'Z') ↔ c.isUpper = true := by
  simp only [Char.isUpper, Bool.and_eq_true, decide_eq_true_eq, ge_iff_le]
  exact Iff.rfl

theorem range_digit_iff (c : Char) : ('0' ≤ c ∧ c ≤ '9') ↔ c.isDigit = true := by
  simp only [Char.isDigit, Bool.and_eq_true, decide_eq_true_eq, ge_iff_le]
  exact Iff.rfl

theorem range_single_iff (x c : Char) : (x ≤ c ∧ c ≤ x) ↔ c = x := by
  constructor
  · rintro ⟨h1, h2⟩
    exact Char.le_antisymm h2 h1
  · rintro rfl
    exact ⟨Nat.le_refl _, Nat.le_refl _⟩

theorem isAlpha_iff (c : Char) :
    c.isAlpha = true ↔ (c.isLower = true ∨ c.isUpper = true) := by
  simp only [Char.isAlpha, Bool.or_eq_true]
  exact Or.comm

theorem inBracket_first_iff (c : Char) :
    inBracket metricNameFirst c = true ↔ (c.isAlpha = true ∨ c = '_' ∨ c = ':') := by
  simp only [inBracket, metricNameFirst, List.any_cons, List.any_nil, Bool.or_false,
    Bool.or_eq_true, Bool.and_eq_true, decide_eq_true_eq, range_lower_iff, range_upper_iff,
    range_single_iff, isAlpha_iff]
  tauto

theorem inBracket_later_iff (c : Char) :
    inBracket metricNameLater c = true ↔
      (c.isAlpha = true ∨ c.isDigit = true ∨ c = '_' ∨ c = ':') := by
  simp only [inBracket, metricNameLater, List.any_cons, List.any_nil, Bool.or_false,
    Bool.or_eq_true, Bool.and_eq_true, decide_eq_true_eq, range_lower_iff, range_upper_iff,
    range_digit_iff, range_single_iff, isAlpha_iff]
  tauto

/-- C22: `checkMetricName(s)` is true exactly when `s` is non-empty, its first character
is an ASCII letter, '_' or ':', and every later character is an ASCII letter, a digit,
'_' or ':'. -/
theorem C22_checkMetricName_characterization (s : String) :
    checkMetricName s = true ↔
      ∃ c cs, s.data = c :: cs ∧ (c.isAlpha = true ∨ c = '_' ∨ c = ':') ∧
        ∀ d ∈ cs, (d.isAlpha = true ∨ d.isDigit = true ∨ d = '_' ∨ d = ':') := by
  unfold checkMetricName regex_match metric_name_regex
  cases hs : s.data with
  | nil => simp [Regex.nullable]
  | cons c cs =>
    simp only [List.foldl_cons, Regex.deriv, Regex.nullable, Bool.false_eq_true, if_false]
    by_cases hc : inBracket metricNameFirst c = true
    · simp only [hc, if_true]
      rw [Good_foldl cs _ Good.base]
      constructor
      · intro h
        exact ⟨c, cs, rfl, (inBracket_first_iff c).mp hc,
          fun d hd => (inBracket_later_iff d).mp (h d hd)⟩
      · rintro ⟨c', cs', heq, _, h⟩
        cases heq
        exact fun d hd => (inBracket_later_iff d).mpr (h d hd)
    · have hc0 : inBracket metricNameFirst c = false := by simpa using hc
      simp only [hc0, Bool.false_eq_true, if_false]
      rw [Dead_foldl cs _ (Dead.seq _)]
      simp only [Bool.false_eq_true, false_iff]
      rintro ⟨c', cs', heq, hc', _⟩
      cases heq
      exact hc ((inBracket_first_iff _).mpr hc')

/-- C22 on examples: "rx_bytes" and ":a9" are metric names; "", "9a", "pod-name" and
"a b" are not. -/
theorem checkMetricName_examples :
    checkMetricName "rx_bytes" = true ∧ checkMetricName ":a9" = true ∧
    checkMetricName "" = false ∧ checkMetricName "9a" = false ∧
    checkMetricName "pod-name" = false ∧ checkMetricName "a b" = false := by
  decide

theorem firstIndex_none {c : Char} :
    ∀ s : List Char, firstIndex c s = none → c ∉ s := by
  intro s
  induction s with
  | nil => intro _; simp
  | cons x xs ih =>
    intro h
    by_cases hx : x = c
    · simp [firstIndex, hx] at h
    · simp only [firstIndex, hx, if_false, Option.map_eq_none'] at h
      simp only [List.mem_cons, not_or]
      exact ⟨fun hc => hx hc.symm, ih h⟩

theorem firstIndex_some {c : Char} :
    ∀ (s : List Char) (k : Nat), firstIndex c s = some k →
      ∃ a b, s = a ++ c :: b ∧ a.length = k ∧ c ∉ a := by
  intro s
  induction s with
  | nil => intro k h; simp [firstIndex] at h
  | cons x xs ih =>
    intro k h
    by_cases hx : x = c
    · simp only [firstIndex, hx, if_true, Option.some.injEq] at h
      subst h
      exact ⟨[], xs, by simp [hx], rfl, by simp⟩
    · simp only [firstIndex, hx, if_false, Option.map_eq_some'] at h
      obtain ⟨j, hj, rfl⟩ := h
      obtain ⟨a, b, hs, hl, hn⟩ := ih j hj
      refine ⟨x :: a, b, by simp [hs], by simp [hl], ?_⟩
      simp only [List.mem_cons, not_or]
      exact ⟨fun hc => hx hc.symm, hn⟩

theorem set_append_cons (x c : Char) (b : List Char) :
    ∀ l : List Char, (l ++ c :: b).set l.length x = l ++ x :: b := by
  intro l
  induction l with
  | nil => rfl
  | cons y ys ih => simp [ih]

theorem map_sanitizeChar_of_not_mem :
    ∀ a : List Char, '-' ∉ a → a.map sanitizeChar = a := by
  intro a
  induction a with
  | nil => intro _; rfl
  | cons x xs ih =>
    intro h
    simp only [List.mem_cons, not_or] at h
    have hx : x ≠ '-' := fun hc => h.1 hc.symm
    simp [sanitizeChar, hx, ih h.2]

theorem not_mem_map_sanitizeChar (a : List Char) : '-' ∉ a.map sanitizeChar := by
  intro h
  obtain ⟨x, _, hx⟩ := List.mem_map.mp h
  unfold sanitizeChar at hx
  split at hx
  · exact absurd hx (by decide)
  · rename_i hne
    exact hne hx

/-- The loop of `sanitizeMetricName` ends within as many iterations as there are
characters left to search, and replaces every '-' among them. -/
theorem sanitizeLoop_spec :
    ∀ (fuel : Nat) (pre suf : List Char), suf.length ≤ fuel →
      sanitizeLoop '-' '_' fuel (pre ++ suf) (find_first_of (pre ++ suf) '-' pre.length)
        = some (pre ++ suf.map sanitizeChar) := by
  intro fuel
  induction fuel with
  | zero =>
    intro pre suf h
    have : suf = [] := List.length_eq_zero.mp (Nat.le_zero.mp h)
    subst this
    simp [find_first_of, firstIndex, sanitizeLoop]
  | succ fuel ih =>
    intro pre suf h
    have hdrop : (pre ++ suf).drop pre.length = suf := List.drop_left _ _
    cases hf : firstIndex '-' suf with
    | none =>
      simp only [find_first_of, hdrop, hf, Option.map_none', sanitizeLoop]
      rw [map_sanitizeChar_of_not_mem _ (firstIndex_none _ hf)]
    | some k =>
      obtain ⟨a, b, hs, hl, hn⟩ := firstIndex_some _ _ hf
      subst hs
      have hfind : find_first_of (pre ++ (a ++ '-' :: b)) '-' pre.length
          = some (k + pre.length) := by
        simp only [find_first_of, hdrop, hf, Option.map_some']
      rw [hfind]
      simp only [sanitizeLoop]
      have hset : (pre ++ (a ++ '-' :: b)).set (k + pre.length) '_'
          = (pre ++ a ++ ['_']) ++ b := by
        have := set_append_cons '_' '-' b (pre ++ a)
        simp only [List.length_append, hl] at this
        rw [Nat.add_comm k, ← List.append_assoc, this]
        simp
      have hpos : k + pre.length + 1 = (pre ++ a ++ ['_']).length := by
        simp [hl]; omega
      rw [hset, hpos, ih (pre ++ a ++ ['_']) b (by simp at h; omega)]
      simp [sanitizeChar, map_sanitizeChar_of_not_mem _ hn]

theorem sanitizeMetricName_eq (metric_name : String) :
    sanitizeMetricName metric_name = some (String.mk (metric_name.data.map sanitizeChar)) := by
  unfold sanitizeMetricName
  have := sanitizeLoop_spec metric_name.data.length [] metric_name.data (le_refl _)
  simp only [List.nil_append, List.length_nil] at this
  rw [this]
  rfl

/-- C23: for every metric name, `sanitizeMetricName` returns a string of the same
length in which every '-' of the input is replaced by '_' and every other character is
unchanged; the result contains no '-', and `sanitizeMetricName` returns it unchanged. -/
theorem C23_sanitizeMetricName_replaces_dashes (metric_name : String) :
    ∃ r : String, sanitizeMetricName metric_name = some r ∧
      r.length = metric_name.length ∧
      r.data = metric_name.data.map (fun c => if c = '-' then '_' else c) ∧
      '-' ∉ r.data ∧
      sanitizeMetricName r = some r := by
  refine ⟨String.mk (metric_name.data.map sanitizeChar), sanitizeMetricName_eq _, ?_, rfl,
    not_mem_map_sanitizeChar _, ?_⟩
  · show (metric_name.data.map sanitizeChar).length = metric_name.data.length
    exact List.length_map _ _
  · rw [sanitizeMetricName_eq]
    simp only [map_sanitizeChar_of_not_mem _ (not_mem_map_sanitizeChar metric_name.data)]

/-- C23 on an example: "pod-template-hash" becomes "pod_template_hash". -/
theorem sanitizeMetricName_example :
    sanitizeMetricName "pod-template-hash" = some "pod_template_hash" ∧
    sanitizeMetricName "pod_template_hash" = some "pod_template_hash" ∧
    sanitizeMetricName "" = some "" := by
  decide

/-! ## PrometheusManager: the labels of an endpoint -/

theorem map_assign_length (k v : String) :
    ∀ m : List (String × String), (map_assign k v m).length ≤ m.length + 1 := by
  intro m
  induction m with
  | nil => simp [map_assign]
  | cons p rest ih =>
    obtain ⟨a, w⟩ := p
    simp only [map_assign]
    split
    · simp
    · split
      · simp
      · simp only [List.length_cons]; omega

theorem map_assign_keys (k v : String) :
    ∀ (m : List (String × String)) (x : String × String), x ∈ map_assign k v m →
      x = (k, v) ∨ x ∈ m := by
  intro m
  induction m with
  | nil => intro x hx; simp [map_assign] at hx; exact Or.inl hx
  | cons p rest ih =>
    obtain ⟨a, w⟩ := p
    intro x hx
    simp only [map_assign] at hx
    split at hx
    · rename_i hk
      rcases List.mem_cons.mp hx with h | h
      · exact Or.inl (by rw [h, hk])
      · exact Or.inr (List.mem_cons_of_mem _ h)
    · split at hx
      · rcases List.mem_cons.mp hx with h | h
        · exact Or.inl h
        · exact Or.inr h
      · rcases List.mem_cons.mp hx with h | h
        · exact Or.inr (by rw [h]; exact List.mem_cons_self _ _)
        · rcases ih x h with h' | h'
          · exact Or.inl h'
          · exact Or.inr (List.mem_cons_of_mem _ h')

theorem umap_find_map_assign_self (k v : String) :
    ∀ m : List (String × String), umap_find k (map_assign k v m) = some v := by
  intro m
  induction m with
  | nil => simp [map_assign, umap_find]
  | cons p rest ih =>
    obtain ⟨a, w⟩ := p
    simp only [map_assign]
    split
    · rename_i hk
      simp [umap_find, hk]
    · rename_i hk
      split
      · simp [umap_find]
      · simp only [umap_find]
        rw [if_neg (fun h => hk h.symm)]
        exact ih

theorem umap_find_map_assign_ne {k k' : String} (v : String) (hne : k' ≠ k) :
    ∀ m : List (String × String), umap_find k' (map_assign k v m) = umap_find k' m := by
  intro m
  induction m with
  | nil =>
    simp only [map_assign, umap_find]
    rw [if_neg (fun h : k = k' => hne h.symm)]
  | cons p rest ih =>
    obtain ⟨a, w⟩ := p
    simp only [map_assign]
    split
    · rename_i hk
      have : a ≠ k' := fun h => hne (by rw [hk, h])
      simp [umap_find, this]
    · split
      · simp only [umap_find]
        rw [if_neg (fun h : k = k' => hne h.symm)]
      · simp only [umap_find]
        split
        · rfl
        · exact ih

theorem labelLoop_inv (attr_map : List (String × String)) :
    ∀ (attrs : List (String × String)) (st : List (String × String) × Nat),
      (∀ p ∈ attrs, p ∈ attr_map) → LabelInv attr_map st →
      LabelInv attr_map (labelLoop attrs st) := by
  intro attrs
  induction attrs with
  | nil => intro st _ h; exact h
  | cons p rest ih =>
    intro st hsub hinv
    obtain ⟨label_map, attr_count⟩ := st
    have hrest : ∀ q ∈ rest, q ∈ attr_map := fun q hq => hsub q (List.mem_cons_of_mem _ hq)
    simp only [labelLoop]
    split
    · exact hinv
    · rename_i hcount
      split
      · exact ih _ hrest hinv
      · rename_i hval
        split
        · exact ih _ hrest hinv
        · rename_i hskip
          split
          · rename_i hname
            apply ih _ hrest
            obtain ⟨h1, h2, h3⟩ := hinv
            refine ⟨?_, ?_, ?_⟩
            · have := map_assign_length p.1 p.2 label_map
              simp only at h1 ⊢
              omega
            · simp only at h2 hcount ⊢
              omega
            · intro x hx
              rcases map_assign_keys _ _ _ x hx with rfl | hx
              · intro _ _ _
                refine ⟨hsub _ (List.mem_cons_self _ _), hval, hname, ?_⟩
                intro hmem
                apply hskip
                simp only [List.any_eq_true, decide_eq_true_eq]
                exact ⟨_, hmem, rfl⟩
              · exact h3 x hx
          · exact ih _ hrest hinv

theorem labelInit_inv (ep_name : String) (attr_map : List (String × String)) :
    LabelInv attr_map (labelInit ep_name attr_map) := by
  have key : ∀ (k v : String) (m : List (String × String)) (n : Nat),
      (k = "if_name" ∨ k = "namespace" ∨ k = "pod") → n + 1 ≤ max_metric_attr_count →
      LabelInv attr_map (m, n) → LabelInv attr_map (map_assign k v m, n + 1) := by
    intro k v m n hk hn ⟨h1, _, h3⟩
    refine ⟨?_, hn, ?_⟩
    · have := map_assign_length k v m
      simp only at h1 ⊢
      omega
    · intro x hx
      rcases map_assign_keys _ _ _ x hx with rfl | hx
      · intro a b c
        rcases hk with hk | hk | hk
        · exact absurd hk a
        · exact absurd hk b
        · exact absurd hk c
      · exact h3 x hx
  have h0 : LabelInv attr_map (([] : List (String × String)), 0) :=
    ⟨le_refl _, by decide, fun x hx => (by cases hx)⟩
  have h1 := key "if_name" ep_name [] 0 (Or.inl rfl) (by decide) h0
  unfold labelInit
  cases hns : umap_find "namespace" attr_map with
  | none =>
    cases hpod : umap_find "vm-name" attr_map with
    | none => exact h1
    | some pod => exact key "pod" pod _ 1 (Or.inr (Or.inr rfl)) (by decide) h1
  | some ns =>
    have h2 := key "namespace" ns _ 1 (Or.inr (Or.inl rfl)) (by decide) h1
    cases hpod : umap_find "vm-name" attr_map with
    | none => exact h2
    | some pod => exact key "pod" pod _ 2 (Or.inr (Or.inr rfl)) (by decide) h2

/-- C24: for every endpoint name and every attribute map, in whatever order the map is
iterated, the label map returned by `createLabelMapFromEpAttr` has at most
`max_metric_attr_count` (5) labels, and every label whose key is not "if_name",
"namespace" or "pod" is an attribute of the map whose key satisfies `checkMetricName`
and is not in the skip list, and whose value is not empty. -/
theorem C24_label_map_bounded_and_filtered (ep_name : String)
    (attr_map : List (String × String)) :
    (createLabelMapFromEpAttr ep_name attr_map).length ≤ max_metric_attr_count ∧
    max_metric_attr_count = 5 ∧
    ∀ x ∈ createLabelMapFromEpAttr ep_name attr_map,
      x.1 ≠ "if_name" → x.1 ≠ "namespace" → x.1 ≠ "pod" →
      x ∈ attr_map ∧ checkMetricName x.1 = true ∧ x.1 ∉ metric_annotate_skip ∧
        x.2 ≠ "" := by
  obtain ⟨h1, h2, h3⟩ := labelLoop_inv attr_map attr_map (labelInit ep_name attr_map)
    (fun _ hp => hp) (labelInit_inv ep_name attr_map)
  refine ⟨le_trans h1 h2, rfl, fun x hx a b c => ?_⟩
  obtain ⟨g1, g2, g3, g4⟩ := h3 x hx a b c
  exact ⟨g1, g3, g4, g2⟩

/-- C24 on an example with seven attributes: the label map has five labels. -/
theorem createLabelMapFromEpAttr_example :
    createLabelMapFromEpAttr "veth0"
        [("vm-name", "pod-1"), ("namespace", "default"), ("app", "web"), ("tier", ""),
         ("pod-template-hash", "abc"), ("bad-key", "x"), ("zone", "z1"), ("rack", "r9"),
         ("extra", "e")]
      = [("app", "web"), ("if_name", "veth0"), ("namespace", "default"), ("pod", "pod-1"),
         ("zone", "z1")] := by
  decide

theorem labelLoop_find_stable (k : String) :
    ∀ (attrs : List (String × String)) (st : List (String × String) × Nat),
      (∀ p ∈ attrs, p.1 = k → p.2 = "" ∨ k ∈ metric_annotate_skip) →
      umap_find k (labelLoop attrs st).1 = umap_find k st.1 := by
  intro attrs
  induction attrs with
  | nil => intro st _; rfl
  | cons p rest ih =>
    intro st hk
    obtain ⟨label_map, attr_count⟩ := st
    have hrest : ∀ q ∈ rest, q.1 = k → q.2 = "" ∨ k ∈ metric_annotate_skip :=
      fun q hq => hk q (List.mem_cons_of_mem _ hq)
    simp only [labelLoop]
    split
    · rfl
    · split
      · exact ih _ hrest
      · rename_i hval
        split
        · exact ih _ hrest
        · rename_i hskip
          split
          · rw [ih _ hrest]
            have hne : k ≠ p.1 := by
              intro he
              rcases hk p (List.mem_cons_self _ _) he.symm with h | h
              · exact hval h
              · apply hskip
                simp only [List.any_eq_true, decide_eq_true_eq]
                exact ⟨k, h, he.symm⟩
            exact umap_find_map_assign_ne _ hne _
          · exact ih _ hrest

/-- C28 (as amended): the label map returned by `createLabelMapFromEpAttr` maps
"namespace" to the attribute map's "namespace" value whenever that attribute is present;
it maps "if_name" to the given endpoint name when the attribute map has no attribute
named "if_name" with a non-empty value, and "pod" to the "vm-name" value, when present,
when the attribute map has no attribute named "pod" with a non-empty value. -/
theorem C28_fixed_labels (ep_name : String) (attr_map : List (String × String)) :
    (∀ ns, umap_find "namespace" attr_map = some ns →
      umap_find "namespace" (createLabelMapFromEpAttr ep_name attr_map) = some ns) ∧
    ((∀ p ∈ attr_map, p.1 = "if_name" → p.2 = "") →
      umap_find "if_name" (createLabelMapFromEpAttr ep_name attr_map) = some ep_name) ∧
    (∀ pod, umap_find "vm-name" attr_map = some pod →
      (∀ p ∈ attr_map, p.1 = "pod" → p.2 = "") →
      umap_find "pod" (createLabelMapFromEpAttr ep_name attr_map) = some pod) := by
  unfold createLabelMapFromEpAttr
  refine ⟨?_, ?_, ?_⟩
  · intro ns hns
    rw [labelLoop_find_stable "namespace" attr_map _ (fun _ _ _ => Or.inr (by decide))]
    unfold labelInit
    simp only [hns]
    cases hpod : umap_find "vm-name" attr_map with
    | none => exact umap_find_map_assign_self _ _ _
    | some pod =>
      simp only
      rw [umap_find_map_assign_ne _ (by decide)]
      exact umap_find_map_assign_self _ _ _
  · intro hif
    rw [labelLoop_find_stable "if_name" attr_map _ (fun p hp he => Or.inl (hif p hp he))]
    unfold labelInit
    cases hns : umap_find "namespace" attr_map with
    | none =>
      cases hpod : umap_find "vm-name" attr_map with
      | none => exact umap_find_map_assign_self _ _ _
      | some pod =>
        simp only
        rw [umap_find_map_assign_ne _ (by decide)]
        exact umap_find_map_assign_self _ _ _
    | some ns =>
      cases hpod : umap_find "vm-name" attr_map with
      | none =>
        simp only
        rw [umap_find_map_assign_ne _ (by decide)]
        exact umap_find_map_assign_self _ _ _
      | some pod =>
        simp only
        rw [umap_find_map_assign_ne _ (by decide), umap_find_map_assign_ne _ (by decide)]
        exact umap_find_map_assign_self _ _ _
  · intro pod hpod hp
    rw [labelLoop_find_stable "pod" attr_map _ (fun p hq he => Or.inl (hp p hq he))]
    unfold labelInit
    simp only [hpod]
    exact umap_find_map_assign_self _ _ _

/-- C28 on an example: endpoint "veth0" with attributes "vm-name" and "namespace". -/
theorem C28_fixed_labels_witness :
    umap_find "namespace" [("vm-name", "pod-1"), ("namespace", "default"), ("app", "web")]
      = some "default" ∧
    umap_find "namespace" (createLabelMapFromEpAttr "veth0"
      [("vm-name", "pod-1"), ("namespace", "default"), ("app", "web")]) = some "default" ∧
    umap_find "if_name" (createLabelMapFromEpAttr "veth0"
      [("vm-name", "pod-1"), ("namespace", "default"), ("app", "web")]) = some "veth0" ∧
    umap_find "pod" (createLabelMapFromEpAttr "veth0"
      [("vm-name", "pod-1"), ("namespace", "default"), ("app", "web")]) = some "pod-1" :=
  ⟨by decide,
   (C28_fixed_labels "veth0" [("vm-name", "pod-1"), ("namespace", "default"),
      ("app", "web")]).1 "default" (by decide),
   (C28_fixed_labels "veth0" [("vm-name", "pod-1"), ("namespace", "default"),
      ("app", "web")]).2.1 (by decide),
   (C28_fixed_labels "veth0" [("vm-name", "pod-1"), ("namespace", "default"),
      ("app", "web")]).2.2 "pod-1" (by decide) (by decide)⟩

/-- C28 fails as stated: an attribute named "if_name" with a non-empty value replaces
the endpoint name under the label "if_name", and an attribute named "pod" replaces the
"vm-name" value under the label "pod". -/
theorem C28_counterexample :
    umap_find "if_name" (createLabelMapFromEpAttr "veth0" [("if_name", "eth7")])
      = some "eth7" ∧
    umap_find "pod" (createLabelMapFromEpAttr "veth0" [("vm-name", "pod-1"), ("pod", "other")])
      = some "other" ∧
    umap_find "vm-name" [("vm-name", "pod-1"), ("pod", "other")] = some "pod-1" := by
  decide

/-! ## PrometheusManager: the gauge of active endpoints -/

/-- The trace of the example: after `start`, `addNUpdateEpCounter` for "ep1" and then
`addNUpdateEpCounter` for "ep1" again with a changed attribute, one endpoint uuid has
dynamic gauges and `gauge_ep_total`, as well as the value set on the gauge
"opflex_active_local_endpoints", is 2; after `removeEpCounter` for "ep1" no uuid has
gauges and the gauge reads 1. -/
theorem active_endpoints_gauge_trace :
    (epUuids afterFirstAdd = ["ep1"] ∧ afterFirstAdd.gauge_ep_total = 1 ∧
      afterFirstAdd.gauge_ep_total_value = some 1) ∧
    (epUuids afterSecondAdd = ["ep1"] ∧ afterSecondAdd.gauge_ep_total = 2 ∧
      afterSecondAdd.gauge_ep_total_value = some 2) ∧
    (epUuids (afterSecondAdd.removeEpCounter epMetricCount "ep1" "veth1") = [] ∧
      (afterSecondAdd.removeEpCounter epMetricCount "ep1" "veth1").gauge_ep_total_value
        = some 1) := by
  decide

theorem getD_of_length_le {α : Type} (d : α) :
    ∀ (b : List α) (i : Nat), b.length ≤ i → b.getD i d = d := by
  intro b
  induction b with
  | nil => intro i _; rfl
  | cons x rest ih =>
    intro i hi
    cases i with
    | zero => simp at hi
    | succ j =>
      simp only [List.getD_cons_succ]
      exact ih j (by simpa using hi)

theorem getDynamicGaugeEp_lt {pm : PrometheusManager} {metric : Nat} {uuid : String}
    {g : EpGauge} (h : pm.getDynamicGaugeEp metric uuid = some g) :
    metric < pm.ep_gauge_map.length := by
  by_contra hlt
  unfold PrometheusManager.getDynamicGaugeEp PrometheusManager.metricMap at h
  rw [getD_of_length_le _ _ _ (Nat.le_of_not_lt hlt)] at h
  simp [umap_find] at h

theorem metricMap_setMetricMap_self (pm : PrometheusManager) (metric : Nat)
    (entries : List (String × EpGauge)) (hlt : metric < pm.ep_gauge_map.length) :
    (pm.setMetricMap metric entries).metricMap metric = entries := by
  unfold PrometheusManager.metricMap PrometheusManager.setMetricMap
  exact getD_set_self _ _ _ _ hlt

theorem metricMap_setMetricMap_ne (pm : PrometheusManager) {metric m1 : Nat}
    (entries : List (String × EpGauge)) (hne : m1 ≠ metric) :
    (pm.setMetricMap metric entries).metricMap m1 = pm.metricMap m1 := by
  unfold PrometheusManager.metricMap PrometheusManager.setMetricMap
  exact getD_set_ne _ _ _ _ _ (fun h => hne h.symm)

theorem setMetricMap_length (pm : PrometheusManager) (metric : Nat)
    (entries : List (String × EpGauge)) :
    (pm.setMetricMap metric entries).ep_gauge_map.length = pm.ep_gauge_map.length := by
  simp [PrometheusManager.setMetricMap]

/-- `createDynamicGaugeEp` for an endpoint that has a gauge with another hash: the gauge
is removed and created again; the endpoint still has a gauge, no other entry changes,
and the flag is true. -/
theorem createDynamicGaugeEp_changed (hash_labels : List (String × String) → Nat)
    (pm : PrometheusManager) (metric : Nat) (uuid ep_name : String) (attr_hash : Nat)
    (attr_map : List (String × String)) {g : EpGauge}
    (hg : pm.getDynamicGaugeEp metric uuid = some g) (hne : attr_hash ≠ g.hash) :
    (pm.createDynamicGaugeEp hash_labels metric uuid ep_name attr_hash attr_map).1 = true ∧
    (pm.createDynamicGaugeEp hash_labels metric uuid ep_name attr_hash attr_map).2.gauge_ep_total
      = pm.gauge_ep_total ∧
    (pm.createDynamicGaugeEp hash_labels metric uuid ep_name attr_hash
      attr_map).2.gauge_ep_total_value = pm.gauge_ep_total_value ∧
    (∀ u, ((pm.createDynamicGaugeEp hash_labels metric uuid ep_name attr_hash
      attr_map).2.getDynamicGaugeEp metric u).isSome
        = (pm.getDynamicGaugeEp metric u).isSome) ∧
    (∀ m1, m1 ≠ metric → ∀ u, (pm.createDynamicGaugeEp hash_labels metric uuid ep_name
      attr_hash attr_map).2.getDynamicGaugeEp m1 u = pm.getDynamicGaugeEp m1 u) := by
  have hlt := getDynamicGaugeEp_lt hg
  have hrem : pm.removeDynamicGaugeEp metric uuid
      = (true, pm.setMetricMap metric (umap_erase uuid (pm.metricMap metric))) := by
    unfold PrometheusManager.removeDynamicGaugeEp
    simp only [hg]
  have hlt1 : metric < (pm.setMetricMap metric
      (umap_erase uuid (pm.metricMap metric))).ep_gauge_map.length := by
    rw [setMetricMap_length]; exact hlt
  have hcreate : pm.createDynamicGaugeEp hash_labels metric uuid ep_name attr_hash attr_map
      = (true, (pm.setMetricMap metric (umap_erase uuid (pm.metricMap metric))).setMetricMap
          metric (umap_assign uuid
            ⟨hash_labels (createLabelMapFromEpAttr ep_name attr_map),
              createLabelMapFromEpAttr ep_name attr_map, none⟩
            ((pm.setMetricMap metric (umap_erase uuid (pm.metricMap metric))).metricMap
              metric))) := by
    unfold PrometheusManager.createDynamicGaugeEp
    simp only [hg, if_neg hne, hrem]
  rw [hcreate]
  refine ⟨rfl, rfl, rfl, fun u => ?_, fun m1 hm1 u => ?_⟩
  · unfold PrometheusManager.getDynamicGaugeEp
    rw [metricMap_setMetricMap_self _ _ _ hlt1, metricMap_setMetricMap_self _ _ _ hlt]
    by_cases hu : u = uuid
    · subst hu
      have hg1 := hg
      unfold PrometheusManager.getDynamicGaugeEp at hg1
      rw [umap_find_assign_self, hg1]
      rfl
    · rw [umap_find_assign_ne _ _ hu, umap_find_erase_ne _ hu]
  · unfold PrometheusManager.getDynamicGaugeEp
    rw [metricMap_setMetricMap_ne _ _ hm1, metricMap_setMetricMap_ne _ _ hm1]

/-- The first loop of `addNUpdateEpCounter` over distinct metrics, for an endpoint that
has a gauge with another hash under each of them: `gauge_ep_total` grows by one when the
last metric is among them, and the endpoints that have gauges are the same. -/
theorem createGaugesLoop_changed (hash_labels : List (String × String) → Nat)
    (EP_METRICS_MAX : Nat) (uuid ep_name : String) (attr_hash : Nat)
    (attr_map : List (String × String)) :
    ∀ (ms : List Nat) (pm : PrometheusManager), ms.Nodup →
      (∀ m ∈ ms, ∃ g, pm.getDynamicGaugeEp m uuid = some g ∧ attr_hash ≠ g.hash) →
      (createGaugesLoop hash_labels EP_METRICS_MAX uuid ep_name attr_hash attr_map ms
          pm).gauge_ep_total
        = pm.gauge_ep_total + (if EP_METRICS_MAX - 1 ∈ ms then 1 else 0) ∧
      (createGaugesLoop hash_labels EP_METRICS_MAX uuid ep_name attr_hash attr_map ms
          pm).gauge_ep_total_value
        = (if EP_METRICS_MAX - 1 ∈ ms then some (pm.gauge_ep_total + 1)
           else pm.gauge_ep_total_value) ∧
      ∀ m u, ((createGaugesLoop hash_labels EP_METRICS_MAX uuid ep_name attr_hash attr_map
          ms pm).getDynamicGaugeEp m u).isSome = (pm.getDynamicGaugeEp m u).isSome := by
  intro ms
  induction ms with
  | nil => intro pm _ _; simp [createGaugesLoop]
  | cons metric rest ih =>
    intro pm hnd hall
    obtain ⟨g, hg, hne⟩ := hall metric (List.mem_cons_self _ _)
    obtain ⟨c1, c2, c3, c5, c6⟩ := createDynamicGaugeEp_changed hash_labels pm metric uuid
      ep_name attr_hash attr_map hg hne
    have hnotin : metric ∉ rest := (List.nodup_cons.mp hnd).1
    have hnd1 : rest.Nodup := (List.nodup_cons.mp hnd).2
    simp only [createGaugesLoop, c1, if_true]
    by_cases hlast : metric = EP_METRICS_MAX - 1
    · rw [if_pos hlast]
      have hmem : EP_METRICS_MAX - 1 ∈ metric :: rest := hlast ▸ List.mem_cons_self _ _
      have hnotin1 : EP_METRICS_MAX - 1 ∉ rest := hlast ▸ hnotin
      simp only [hmem, if_true]
      have hget : ∀ m u, (((pm.createDynamicGaugeEp hash_labels metric uuid ep_name attr_hash
          attr_map).2.incStaticCounterEpCreate).updateStaticGaugeEpTotal
            true).getDynamicGaugeEp m u
          = (pm.createDynamicGaugeEp hash_labels metric uuid ep_name attr_hash
            attr_map).2.getDynamicGaugeEp m u := fun _ _ => rfl
      obtain ⟨i1, i2, i3⟩ := ih _ hnd1 (fun m hm => by
        obtain ⟨g1, hg1, hne1⟩ := hall m (List.mem_cons_of_mem _ hm)
        have hmne : m ≠ metric := fun h => hnotin (h ▸ hm)
        exact ⟨g1, by rw [hget, c6 m hmne]; exact hg1, hne1⟩)
      simp only [hnotin1, if_false] at i1 i2
      refine ⟨?_, ?_, fun m u => ?_⟩
      · rw [i1]
        simp [PrometheusManager.updateStaticGaugeEpTotal,
          PrometheusManager.incStaticCounterEpCreate, c2]
      · rw [i2]
        simp [PrometheusManager.updateStaticGaugeEpTotal,
          PrometheusManager.incStaticCounterEpCreate, c2]
      · rw [i3, hget]
        by_cases hm : m = metric
        · subst hm; exact c5 u
        · rw [c6 m hm]
    · simp only [hlast, if_false]
      obtain ⟨i1, i2, i3⟩ := ih _ hnd1 (fun m hm => by
        obtain ⟨g1, hg1, hne1⟩ := hall m (List.mem_cons_of_mem _ hm)
        have hmne : m ≠ metric := fun h => hnotin (h ▸ hm)
        exact ⟨g1, by rw [c6 m hmne]; exact hg1, hne1⟩)
      have hmem : (EP_METRICS_MAX - 1 ∈ metric :: rest) ↔ (EP_METRICS_MAX - 1 ∈ rest) := by
        simp only [List.mem_cons]
        constructor
        · rintro (h | h)
          · exact absurd h.symm hlast
          · exact h
        · exact Or.inr
      refine ⟨?_, ?_, fun m u => ?_⟩
      · rw [i1, c2]
        simp only [hmem]
      · rw [i2, c2, c3]
        simp only [hmem]
      · rw [i3]
        by_cases hm : m = metric
        · subst hm; exact c5 u
        · rw [c6 m hm]

/-- The second loop of `addNUpdateEpCounter` sets values only: `gauge_ep_total` and the
endpoints that have gauges are unchanged. -/
theorem updateMetric_frame (uuid : String) (ep_counter : EpCounter) (pm : PrometheusManager)
    (metric : Nat) :
    (updateMetric uuid ep_counter pm metric).gauge_ep_total = pm.gauge_ep_total ∧
    (updateMetric uuid ep_counter pm metric).gauge_ep_total_value
      = pm.gauge_ep_total_value ∧
    ∀ m u, ((updateMetric uuid ep_counter pm metric).getDynamicGaugeEp m u).isSome
      = (pm.getDynamicGaugeEp m u).isSome := by
  unfold updateMetric
  split
  · rename_i hgauge v hg _
    have hlt := getDynamicGaugeEp_lt hg
    refine ⟨rfl, rfl, fun m u => ?_⟩
    unfold PrometheusManager.getDynamicGaugeEp at hg ⊢
    by_cases hm : m = metric
    · subst hm
      rw [metricMap_setMetricMap_self _ _ _ hlt]
      by_cases hu : u = uuid
      · subst hu
        rw [umap_find_assign_self, hg]
        rfl
      · rw [umap_find_assign_ne _ _ hu]
    · rw [metricMap_setMetricMap_ne _ _ hm]
  · exact ⟨rfl, rfl, fun _ _ => rfl⟩

theorem updateMetric_foldl_frame (uuid : String) (ep_counter : EpCounter) :
    ∀ (ms : List Nat) (pm : PrometheusManager),
      (ms.foldl (updateMetric uuid ep_counter) pm).gauge_ep_total = pm.gauge_ep_total ∧
      (ms.foldl (updateMetric uuid ep_counter) pm).gauge_ep_total_value
        = pm.gauge_ep_total_value ∧
      ∀ m u, ((ms.foldl (updateMetric uuid ep_counter) pm).getDynamicGaugeEp m u).isSome
        = (pm.getDynamicGaugeEp m u).isSome := by
  intro ms
  induction ms with
  | nil => intro pm; exact ⟨rfl, rfl, fun _ _ => rfl⟩
  | cons metric rest ih =>
    intro pm
    obtain ⟨f1, f2, f3⟩ := updateMetric_frame uuid ep_counter pm metric
    obtain ⟨i1, i2, i3⟩ := ih (updateMetric uuid ep_counter pm metric)
    simp only [List.foldl_cons]
    exact ⟨i1.trans f1, i2.trans f2, fun m u => (i3 m u).trans (f3 m u)⟩

/-- C25 at the failing inputs: whenever `addNUpdateEpCounter` is called for an endpoint
that already has a gauge under every metric and the incoming attribute hash differs from
the stored ones, `gauge_ep_total` and the value set on the gauge
"opflex_active_local_endpoints" grow by one, while the endpoints that have dynamic
gauges are the same as before: the gauge exceeds the number of active endpoints by one
more after every such call. -/
theorem C25_changed_hash_increments_active_endpoints
    (hash_labels : List (String × String) → Nat) (EP_METRICS_MAX : Nat) (store : StatStore)
    (pm : PrometheusManager) (uuid ep_name : String) (attr_hash : Nat)
    (attr_map : List (String × String)) (ep_counter : EpCounter)
    (hmax : 1 ≤ EP_METRICS_MAX) (hsu : store.epStatUniverse = true)
    (hcounter : umap_find uuid store.epCounters = some ep_counter)
    (hall : ∀ metric, metric < EP_METRICS_MAX →
      ∃ g, pm.getDynamicGaugeEp metric uuid = some g ∧ attr_hash ≠ g.hash) :
    (pm.addNUpdateEpCounter hash_labels EP_METRICS_MAX store uuid ep_name attr_hash
        attr_map).gauge_ep_total = pm.gauge_ep_total + 1 ∧
    (pm.addNUpdateEpCounter hash_labels EP_METRICS_MAX store uuid ep_name attr_hash
        attr_map).gauge_ep_total_value = some (pm.gauge_ep_total + 1) ∧
    ∀ metric u, ((pm.addNUpdateEpCounter hash_labels EP_METRICS_MAX store uuid ep_name
        attr_hash attr_map).getDynamicGaugeEp metric u).isSome
      = (pm.getDynamicGaugeEp metric u).isSome := by
  unfold PrometheusManager.addNUpdateEpCounter
  simp only [hsu, if_true, hcounter]
  obtain ⟨l1, l2, l3⟩ := createGaugesLoop_changed hash_labels EP_METRICS_MAX uuid ep_name
    attr_hash attr_map (List.range EP_METRICS_MAX) pm (List.nodup_range _)
    (fun m hm => hall m (List.mem_range.mp hm))
  obtain ⟨f1, f2, f3⟩ := updateMetric_foldl_frame uuid ep_counter (List.range EP_METRICS_MAX)
    (createGaugesLoop hash_labels EP_METRICS_MAX uuid ep_name attr_hash attr_map
      (List.range EP_METRICS_MAX) pm)
  have hmem : EP_METRICS_MAX - 1 ∈ List.range EP_METRICS_MAX :=
    List.mem_range.mpr (by omega)
  simp only [hmem, if_true] at l1 l2
  exact ⟨f1.trans l1, f2.trans l2, fun m u => (f3 m u).trans (l3 m u)⟩

/-- C25 on the trace of the example: "ep1" has its twelve gauges after the first call;
the second call, with the hash of the changed attribute, raises the gauge from 1 to 2
while "ep1" is still the only endpoint with gauges. -/
theorem C25_changed_hash_increments_active_endpoints_witness :
    epUuids afterFirstAdd = ["ep1"] ∧ afterFirstAdd.gauge_ep_total = 1 ∧
    epUuids afterSecondAdd = ["ep1"] ∧
    afterSecondAdd.gauge_ep_total = afterFirstAdd.gauge_ep_total + 1 ∧
    afterSecondAdd.gauge_ep_total_value = some (afterFirstAdd.gauge_ep_total + 1) ∧
    ∀ metric u, (afterSecondAdd.getDynamicGaugeEp metric u).isSome
      = (afterFirstAdd.getDynamicGaugeEp metric u).isSome :=
  ⟨by decide, by decide, by decide,
   C25_changed_hash_increments_active_endpoints exampleHash epMetricCount storeWithEp1
     afterFirstAdd "ep1" "veth1" (calcHashEpAttributes exampleHash "veth1" [("app", "database")])
     [("app", "database")] { metrics := List.replicate 12 (some 7) } (by decide) rfl
     rfl (by decide)⟩

end opflexagent
